import Mathlib

/-!
# AppSync realtime message demo: the Go smoke client (`golang/main.go`)

A shallow embedding of `main.go` and of the parts of the Go standard library
it calls (`encoding/json`, `net/http`, `fmt`, `os.Getenv`), followed by the
properties of the specification proved about it.

* A run of the program is the list of its events (texts written to standard
  output, requests handed to the HTTP client) and the way it ends (return or
  panic).  The value of `APPSYNC_ENDPOINT` and what the HTTP client answers
  to each request are inputs of the model.
* Go strings are modelled as lists of Unicode code points (`GoString`).  The
  string constants of the program are valid UTF-8, and `encoding/json` turns
  every byte of a response body that is not part of a valid UTF-8 sequence
  into U+FFFD inside string literals and rejects it anywhere else, so a
  response body is given as the code points Go's UTF-8 decoding reads from
  its bytes.
* The type `float64` with `strconv`, the escapes of two control characters and
  the checks of `net/url.Parse` beyond the first are parameters (`GoRuntime`).
  `goRuntime` is the runtime whose `float64` is that of IEEE 754, with the
  conversions of `strconv` computed on exact natural numbers.
-/

namespace AppSync

/-- A Go `string`, as its sequence of code points. -/
abbrev GoString := List Char

/-! ## The three mutation documents (main.go, lines 11-57) -/

/-- The constant `mutationClientOwner`. -/
def mutationClientOwner : GoString :=
  ("\n" ++
   "mutation PublishMessage($content: String!, $sender: String!, $tenantID: Int!, $propertyID: Int!, $orderID: Int!) \x7b\n" ++
   "  publishMessage(content: $content, sender: $sender, tenantID: $tenantID, propertyID: $propertyID, orderID: $orderID) \x7b\n" ++
   "    id\n" ++
   "    content\n" ++
   "    sender\n" ++
   "    shareId\n" ++
   "    createdAt\n" ++
   "    tenantID\n" ++
   "    propertyID\n" ++
   "    orderID\n" ++
   "    constructionID\n" ++
   "  \x7d\n" ++
   "\x7d\n").toList

/-- The constant `mutationOwner`. -/
def mutationOwner : GoString :=
  ("\n" ++
   "mutation PublishMessage($content: String!, $sender: String!, $shareId: String!, $constructionID: String) \x7b\n" ++
   "  publishMessage(content: $content, sender: $sender, shareId: $shareId, constructionID: $constructionID) \x7b\n" ++
   "    id\n" ++
   "    content\n" ++
   "    sender\n" ++
   "    shareId\n" ++
   "    createdAt\n" ++
   "    tenantID\n" ++
   "    propertyID\n" ++
   "    orderID\n" ++
   "    constructionID\n" ++
   "  \x7d\n" ++
   "\x7d\n").toList

/-- The constant `mutationOwnerSimple`. -/
def mutationOwnerSimple : GoString :=
  ("\n" ++
   "mutation PublishMessage($content: String!, $sender: String!, $shareId: String!) \x7b\n" ++
   "  publishMessage(content: $content, sender: $sender, shareId: $shareId) \x7b\n" ++
   "    id\n" ++
   "    content\n" ++
   "    sender\n" ++
   "    shareId\n" ++
   "    createdAt\n" ++
   "    tenantID\n" ++
   "    propertyID\n" ++
   "    orderID\n" ++
   "    constructionID\n" ++
   "  \x7d\n" ++
   "\x7d\n").toList

/-! ## Reading a mutation document -/

/-- A character of a GraphQL name: a letter, a digit or the underscore. -/
def isNameChar (c : Char) : Bool :=
  c.isAlphanum || c == '_'

/-- The names that follow a `$` in a text, in order of occurrence. -/
def dollarNames : List Char → List GoString
  | [] => []
  | c :: cs => if c = '$' then cs.takeWhile isNameChar :: dollarNames cs else dollarNames cs

/-- The header of a document: its text before the first opening brace, which
holds the operation name and the variable definitions. -/
def header (doc : GoString) : GoString :=
  doc.takeWhile (fun c => c != '\x7b')

/-- The parameter names a document declares, as `$name`, in its header. -/
def declaredParams (doc : GoString) : List GoString :=
  dollarNames (header doc)

/-- Splits a text at white space; `cur` is the word being read, reversed. -/
def wordsAux : List Char → List Char → List GoString
  | [], cur => if cur = [] then [] else [cur.reverse]
  | c :: cs, cur =>
    if c.isWhitespace then
      if cur = [] then wordsAux cs [] else cur.reverse :: wordsAux cs []
    else wordsAux cs (c :: cur)

/-- The text after the first opening brace. -/
def afterBrace (s : GoString) : GoString :=
  (s.dropWhile (fun c => c != '\x7b')).drop 1

/-- The selection set of a document: the fields listed between the braces that
follow `publishMessage(...)`, that is between the second opening brace and the
first closing one. -/
def selectionSet (doc : GoString) : List GoString :=
  wordsAux ((afterBrace (afterBrace doc)).takeWhile (fun c => c != '\x7d')) []

/-! ## The Go runtime the program runs on

`main.go` reaches three pieces of the standard library whose behaviour is not
fixed by the program text: the `float64` type with `strconv`'s parsing and
shortest formatting, the release of `encoding/json` (Go 1.22 changed how the
backspace and form-feed characters are escaped), and `net/url.Parse`.  They
are the fields of `GoRuntime`; every definition below is relative to one. -/

/-- The parts of the Go runtime taken as given. -/
structure GoRuntime where
  /-- The values of type `float64`. -/
  Float64 : Type
  /-- The conversion `strconv.ParseFloat(s, 64)` on a JSON number literal; `none`
  when it reports an error (the value is out of range). -/
  parseFloat : GoString → Option Float64
  /-- The text `encoding/json` writes for a `float64`; `none` when it fails with
  `UnsupportedValueError` (NaN and the infinities). -/
  encodeFloat : Float64 → Option GoString
  /-- Whether `encoding/json` writes a backspace and a form feed as the two
  character escapes (Go 1.22 and later) rather than as `u0008` and `u000c`. -/
  shortEscapes : Bool
  /-- The checks of `net/url.Parse` that follow its rejection of ASCII control
  bytes (scheme, authority, percent escapes). -/
  urlRest : GoString → Bool

/-! ## Values held in an `interface{}` -/

/-- The dynamic values this program stores in an `interface{}`: the literals of
the variables mappings and what `encoding/json` decodes into an empty
interface. -/
inductive GoValue (F : Type) where
  | null : GoValue F
  | bool (b : Bool) : GoValue F
  | int (i : Int) : GoValue F
  | float64 (f : F) : GoValue F
  | string (s : GoString) : GoValue F
  | slice (xs : List (GoValue F)) : GoValue F
  | map (m : List (GoString × GoValue F)) : GoValue F

/-- The entries of a `map[string]interface{}`. -/
abbrev GoMap (F : Type) := List (GoString × GoValue F)

/-! ## `encoding/json`: encoding -/

/-- The double quote. -/
def chQuote : Char := Char.ofNat 34

/-- The backslash. -/
def chBackslash : Char := Char.ofNat 92

/-- The line feed. -/
def chNewline : Char := Char.ofNat 10

/-- The lower-case hexadecimal digit of `n < 16`. -/
def hexDigit (n : Nat) : Char :=
  if n < 10 then Char.ofNat (48 + n) else Char.ofNat (87 + n)

/-- The table `htmlSafeSet` of `encoding/json`: the ASCII characters written
unescaped when HTML escaping is on. -/
def htmlSafe (c : Char) : Bool :=
  decide (32 ≤ c.toNat) && c != chQuote && c != chBackslash &&
    c != '<' && c != '>' && c != '&'

/-- How `appendString` writes one character of a string, with HTML escaping
on as in `json.Marshal`. -/
def quoteChar (rt : GoRuntime) (c : Char) : GoString :=
  if c.toNat < 128 then
    if htmlSafe c then [c]
    else if c = chBackslash ∨ c = chQuote then [chBackslash, c]
    else if c.toNat = 8 ∧ rt.shortEscapes = true then [chBackslash, 'b']
    else if c.toNat = 12 ∧ rt.shortEscapes = true then [chBackslash, 'f']
    else if c.toNat = 10 then [chBackslash, 'n']
    else if c.toNat = 13 then [chBackslash, 'r']
    else if c.toNat = 9 then [chBackslash, 't']
    else [chBackslash, 'u', '0', '0', hexDigit (c.toNat / 16), hexDigit (c.toNat % 16)]
  else if c.toNat = 8232 ∨ c.toNat = 8233 then
    [chBackslash, 'u', '2', '0', '2', hexDigit (c.toNat % 16)]
  else [c]

/-- The characters of a string, escaped, without the enclosing quotes. -/
def quoteChars (rt : GoRuntime) : GoString → GoString
  | [] => []
  | c :: cs => quoteChar rt c ++ quoteChars rt cs

/-- The JSON string literal `encoding/json` writes for a Go string. -/
def quote (rt : GoRuntime) (s : GoString) : GoString :=
  chQuote :: (quoteChars rt s ++ [chQuote])

/-- The text `strconv.AppendInt(_, i, 10)` writes for an integer. -/
def formatInt (i : Int) : GoString :=
  if i < 0 then '-' :: Nat.toDigits 10 (-i).toNat else Nat.toDigits 10 i.toNat

/-- Lexicographic order on code points, which is the order of the UTF-8 bytes
`encoding/json` sorts map keys by. -/
def keyLt : GoString → GoString → Bool
  | [], [] => false
  | [], _ :: _ => true
  | _ :: _, [] => false
  | a :: as, b :: bs =>
    if a.toNat < b.toNat then true
    else if b.toNat < a.toNat then false
    else keyLt as bs

/-- Inserts an encoded entry after the entries whose key is not greater. -/
def insertEntry (e : GoString × GoString) : List (GoString × GoString) → List (GoString × GoString)
  | [] => [e]
  | x :: xs => if keyLt e.1 x.1 then e :: x :: xs else x :: insertEntry e xs

/-- Sorts encoded entries by key. -/
def sortEntries : List (GoString × GoString) → List (GoString × GoString)
  | [] => []
  | e :: es => insertEntry e (sortEntries es)

/-- The two layouts of the encoder: `none` is `json.Marshal`, `some unit` is
`json.MarshalIndent` with an empty prefix and indent `unit`. -/
abbrev Layout := Option GoString

/-- The line break `json.Indent` puts before an element at nesting `depth`. -/
def newline (lay : Layout) (depth : Nat) : GoString :=
  match lay with
  | none => []
  | some unit => chNewline :: (List.replicate depth unit).flatten

/-- The separator between a key and its value. -/
def colon (lay : Layout) : GoString :=
  match lay with
  | none => [':']
  | some _ => [':', ' ']

/-- The elements of an array or object, one per line when indenting, between
the brackets `op` and `cl` at nesting `depth`; nothing stands between the
brackets of an empty one. -/
def bracket (lay : Layout) (depth : Nat) (op cl : Char) : List GoString → GoString
  | [] => [op, cl]
  | e :: es =>
    op :: (newline lay (depth + 1) ++
      (e ++ ((es.map (fun x => ',' :: (newline lay (depth + 1) ++ x))).flatten ++
        (newline lay depth ++ [cl]))))

/-- The text of an entry of a map: the key as a string literal, a colon, the
text of the value. -/
def entryText (rt : GoRuntime) (lay : Layout) (e : GoString × GoString) : GoString :=
  quote rt e.1 ++ (colon lay ++ e.2)

mutual
/-- The JSON text of a value at nesting `depth`; `none` when a `float64` in it
cannot be encoded. -/
def encodeValue (rt : GoRuntime) (lay : Layout) (depth : Nat) :
    GoValue rt.Float64 → Option GoString
  | .null => some "null".toList
  | .bool b => some (if b then "true".toList else "false".toList)
  | .int i => some (formatInt i)
  | .float64 f => rt.encodeFloat f
  | .string s => some (quote rt s)
  | .slice xs =>
    (encodeElems rt lay (depth + 1) xs).map (fun es => bracket lay depth '[' ']' es)
  | .map m =>
    (encodeEntries rt lay (depth + 1) m).map (fun es =>
      bracket lay depth (Char.ofNat 123) (Char.ofNat 125)
        ((sortEntries es).map (entryText rt lay)))
/-- The texts of the elements of a slice. -/
def encodeElems (rt : GoRuntime) (lay : Layout) (depth : Nat) :
    List (GoValue rt.Float64) → Option (List GoString)
  | [] => some []
  | x :: xs =>
    match encodeValue rt lay depth x, encodeElems rt lay depth xs with
    | some a, some b => some (a :: b)
    | _, _ => none
/-- The keys of a map with the texts of their values. -/
def encodeEntries (rt : GoRuntime) (lay : Layout) (depth : Nat) :
    GoMap rt.Float64 → Option (List (GoString × GoString))
  | [] => some []
  | (k, x) :: xs =>
    match encodeValue rt lay depth x, encodeEntries rt lay depth xs with
    | some a, some b => some ((k, a) :: b)
    | _, _ => none
end

/-- A variable of type `map[string]interface{}`: `none` is the nil map, the
zero state. -/
abbrev GoMapVar (F : Type) := Option (GoMap F)

/-- The call `json.Marshal` or `json.MarshalIndent` on a `map[string]interface{}`;
the nil map is written `null`. -/
def marshalMap (rt : GoRuntime) (lay : Layout) : GoMapVar rt.Float64 → Option GoString
  | none => some "null".toList
  | some m => encodeValue rt lay 0 (.map m)

/-- The type `GraphQLRequest` (main.go, lines 59-62). -/
structure GraphQLRequest (F : Type) where
  Query : GoString
  Variables : GoMapVar F

/-- The call `json.Marshal` on a `GraphQLRequest`: an object with the fields of the
struct in declaration order under their `json` tags. -/
def marshalRequest (rt : GoRuntime) (r : GraphQLRequest rt.Float64) : Option GoString :=
  match (match r.Variables with
    | none => some "null".toList
    | some m => encodeValue rt none 1 (.map m)) with
  | none => none
  | some vars =>
    some (bracket none 0 (Char.ofNat 123) (Char.ofNat 125)
      [entryText rt none ("query".toList, quote rt r.Query),
       entryText rt none ("variables".toList, vars)])

/-! ## `encoding/json`: decoding

The decoder first scans one complete JSON value (its scanner is a state
machine over the bytes, with a limit on the nesting) and only then fills the
target, so a syntax error leaves the target untouched.  The functions below
read and build the value in one pass with the same grammar. -/

/-- The scanner's `isSpace`. -/
def isSpace (c : Char) : Bool :=
  c == ' ' || c.toNat == 9 || c.toNat == 13 || c.toNat == 10

/-- Drops leading white space. -/
def skipSpace : List Char → List Char
  | [] => []
  | c :: cs => if isSpace c then skipSpace cs else c :: cs

/-- A decimal digit. -/
def isDigit (c : Char) : Bool :=
  decide (48 ≤ c.toNat) && decide (c.toNat ≤ 57)

/-- The value of a hexadecimal digit, in either case. -/
def hexVal (c : Char) : Option Nat :=
  if 48 ≤ c.toNat ∧ c.toNat ≤ 57 then some (c.toNat - 48)
  else if 97 ≤ c.toNat ∧ c.toNat ≤ 102 then some (c.toNat - 87)
  else if 65 ≤ c.toNat ∧ c.toNat ≤ 70 then some (c.toNat - 55)
  else none

/-- The number written by four hexadecimal digits. -/
def hex4 (a b c d : Char) : Option Nat :=
  match hexVal a, hexVal b, hexVal c, hexVal d with
  | some x, some y, some z, some w => some (((x * 16 + y) * 16 + z) * 16 + w)
  | _, _, _, _ => none

/-- The character a single-letter escape stands for. -/
def unescape (e : Char) : Option Char :=
  if e = chQuote then some chQuote
  else if e = chBackslash then some chBackslash
  else if e = '/' then some '/'
  else if e = 'b' then some (Char.ofNat 8)
  else if e = 'f' then some (Char.ofNat 12)
  else if e = 'n' then some (Char.ofNat 10)
  else if e = 'r' then some (Char.ofNat 13)
  else if e = 't' then some (Char.ofNat 9)
  else none

/-- The replacement character U+FFFD. -/
def replacementChar : Char := Char.ofNat 65533

/-- Puts a character in front of the string read. -/
def consChar (c : Char) : Option (GoString × List Char) → Option (GoString × List Char)
  | none => none
  | some (s, r) => some (c :: s, r)

/-- A `u` escape that was the first half of a surrogate pair and found no
second half denotes U+FFFD. -/
def flushPending (pending : Option Nat) (x : Option (GoString × List Char)) :
    Option (GoString × List Char) :=
  match pending with
  | some _ => consChar replacementChar x
  | none => x

/-- Reads a string literal from the character after its opening quote: the
string it denotes (`unquote`) and the text after the closing quote.
`pending` is the high surrogate written by the `u` escape just read, which
`unquote` joins with a low surrogate written by the next `u` escape; any other
surrogate escape denotes U+FFFD. -/
def readStringFrom : Option Nat → List Char → Option (GoString × List Char)
  | _, [] => none
  | pending, c :: r =>
    if c = chQuote then flushPending pending (some ([], r))
    else if c = chBackslash then
      match r with
      | [] => none
      | e :: r1 =>
        if e = 'u' then
          match r1 with
          | h1 :: h2 :: h3 :: h4 :: r2 =>
            match hex4 h1 h2 h3 h4 with
            | none => none
            | some n =>
              if 56320 ≤ n ∧ n < 57344 then
                match pending with
                | some hi =>
                  consChar (Char.ofNat (65536 + (hi - 55296) * 1024 + (n - 56320)))
                    (readStringFrom none r2)
                | none => consChar replacementChar (readStringFrom none r2)
              else if 55296 ≤ n ∧ n < 56320 then
                flushPending pending (readStringFrom (some n) r2)
              else flushPending pending (consChar (Char.ofNat n) (readStringFrom none r2))
          | _ => none
        else
          match unescape e with
          | some ch => flushPending pending (consChar ch (readStringFrom none r1))
          | none => none
    else if c.toNat < 32 then none
    else flushPending pending (consChar c (readStringFrom none r))

/-- Reads a string literal from the character after its opening quote. -/
def readString (s : List Char) : Option (GoString × List Char) :=
  readStringFrom none s

/-- Reads the digits of a fraction or an exponent: at least one is required. -/
def readDigits (s : List Char) : Option (GoString × List Char) :=
  if s.takeWhile isDigit = [] then none
  else some (s.takeWhile isDigit, s.dropWhile isDigit)

/-- Reads the optional exponent of a number. -/
def readExponent (s : List Char) : Option (GoString × List Char) :=
  match s with
  | e :: r =>
    if e = 'e' ∨ e = 'E' then
      match r with
      | sg :: r1 =>
        if sg = '+' ∨ sg = '-' then
          (readDigits r1).map (fun p => (e :: sg :: p.1, p.2))
        else (readDigits r).map (fun p => (e :: p.1, p.2))
      | [] => none
    else some ([], s)
  | [] => some ([], s)

/-- Reads the optional fraction of a number, then its exponent. -/
def readFraction (s : List Char) : Option (GoString × List Char) :=
  match s with
  | d :: r =>
    if d = '.' then
      match readDigits r with
      | none => none
      | some (ds, r1) => (readExponent r1).map (fun p => (d :: (ds ++ p.1), p.2))
    else readExponent s
  | [] => some ([], s)

/-- Reads the integer part of a number, then the rest of it. -/
def readInteger (s : List Char) : Option (GoString × List Char) :=
  match s with
  | d :: r =>
    if d = '0' then (readFraction r).map (fun p => (d :: p.1, p.2))
    else if isDigit d then
      (readFraction (r.dropWhile isDigit)).map
        (fun p => (d :: (r.takeWhile isDigit ++ p.1), p.2))
    else none
  | [] => none

/-- Reads a number literal as the scanner does, without backing up: its text
and the text after it. -/
def readNumber (s : List Char) : Option (GoString × List Char) :=
  match s with
  | c :: r =>
    if c = '-' then (readInteger r).map (fun p => (c :: p.1, p.2))
    else readInteger s
  | [] => none

/-- The text after the word `lit`, when the text starts with it. -/
def stripWord : List Char → List Char → Option (List Char)
  | [], s => some s
  | _ :: _, [] => none
  | l :: ls, c :: cs => if l = c then stripWord ls cs else none

/-- The limit `maxNestingDepth` of the scanner. -/
def maxNestingDepth : Nat := 10000

/-- The assignment `m[k] = v`, on entries kept in increasing order of key. -/
def mapSet {V : Type} : List (GoString × V) → GoString → V → List (GoString × V)
  | [], k, v => [(k, v)]
  | (k1, v1) :: tl, k, v =>
    if k = k1 then (k, v) :: tl
    else if keyLt k k1 then (k, v) :: (k1, v1) :: tl
    else (k1, v1) :: mapSet tl k v

/-- The value a number literal decodes to in an `interface{}`: a `float64`, or
nil when `ParseFloat` reports a range error (the decoder records the error and
goes on). -/
def numberValue (rt : GoRuntime) (lit : GoString) : GoValue rt.Float64 :=
  match rt.parseFloat lit with
  | some f => .float64 f
  | none => .null

mutual
/-- Reads one JSON value into an `interface{}`; `depth` is the number of open
arrays and objects, `fuel` bounds the number of nested calls. -/
def parseValue (rt : GoRuntime) :
    Nat → Nat → List Char → Option (GoValue rt.Float64 × List Char)
  | 0, _, _ => none
  | fuel + 1, depth, s =>
    match skipSpace s with
    | [] => none
    | c :: r =>
      if c = Char.ofNat 123 then
        if maxNestingDepth < depth + 1 then none
        else
          match skipSpace r with
          | [] => none
          | c2 :: r2 =>
            if c2 = Char.ofNat 125 then some (.map [], r2)
            else (parseMembers rt fuel (depth + 1) [] (c2 :: r2)).map
              (fun p => (.map p.1, p.2))
      else if c = '[' then
        if maxNestingDepth < depth + 1 then none
        else
          match skipSpace r with
          | [] => none
          | c2 :: r2 =>
            if c2 = ']' then some (.slice [], r2)
            else (parseElems rt fuel (depth + 1) (c2 :: r2)).map
              (fun p => (.slice p.1, p.2))
      else if c = chQuote then (readString r).map (fun p => (.string p.1, p.2))
      else if c = '-' ∨ isDigit c = true then
        (readNumber (c :: r)).map (fun p => (numberValue rt p.1, p.2))
      else if c = 't' then (stripWord "rue".toList r).map (fun r1 => (.bool true, r1))
      else if c = 'f' then (stripWord "alse".toList r).map (fun r1 => (.bool false, r1))
      else if c = 'n' then (stripWord "ull".toList r).map (fun r1 => (.null, r1))
      else none
/-- Reads the elements of a non-empty array up to its closing bracket. -/
def parseElems (rt : GoRuntime) :
    Nat → Nat → List Char → Option (List (GoValue rt.Float64) × List Char)
  | 0, _, _ => none
  | fuel + 1, depth, s =>
    match parseValue rt fuel depth s with
    | none => none
    | some (v, r) =>
      match skipSpace r with
      | [] => none
      | c :: r1 =>
        if c = ',' then (parseElems rt fuel depth r1).map (fun p => (v :: p.1, p.2))
        else if c = ']' then some ([v], r1)
        else none
/-- Reads the members of a non-empty object up to its closing brace into the
map `acc`; a repeated key keeps its last value. -/
def parseMembers (rt : GoRuntime) :
    Nat → Nat → GoMap rt.Float64 → List Char → Option (GoMap rt.Float64 × List Char)
  | 0, _, _, _ => none
  | fuel + 1, depth, acc, s =>
    match skipSpace s with
    | [] => none
    | q :: r =>
      if q = chQuote then
        match readString r with
        | none => none
        | some (k, r1) =>
          match skipSpace r1 with
          | [] => none
          | c :: r2 =>
            if c = ':' then
              match parseValue rt fuel depth r2 with
              | none => none
              | some (v, r3) =>
                match skipSpace r3 with
                | [] => none
                | c3 :: r4 =>
                  if c3 = ',' then parseMembers rt fuel depth (mapSet acc k v) r4
                  else if c3 = Char.ofNat 125 then some (mapSet acc k v, r4)
                  else none
            else none
      else none
end

/-- The call `json.NewDecoder(body).Decode(&result)` on a nil `result`, as the
value of `result` after it: the decoder reads the first JSON value of the
body; an object fills a new map, and `result` stays nil when the body is
empty or malformed, when the value is `null`, and when it is not an object.
The error `Decode` returns is not part of the model: no caller looks at it. -/
def decodeMap (rt : GoRuntime) (body : GoString) : GoMapVar rt.Float64 :=
  match parseValue rt (2 * body.length + 2) 0 body with
  | some (.map m, _) => some m
  | _ => none

/-! ## `strconv`: the type `float64` and its conversions

`strconv.ParseFloat` returns the `float64` nearest to the decimal it reads
(IEEE 754 rounding to nearest, ties to even), or a range error.
`strconv.AppendFloat` with precision `-1`, which `encoding/json` calls, writes
the shortest decimal between the two bounds that `roundShortest` computes,
halfway to the neighbours of the `float64`.  Both are computed here on exact
natural numbers; `strconv` reaches the same results on machine words (the
Eisel-Lemire algorithm with a multiprecision decimal to fall back on, and Ryū
or Grisu for the shortest digits).  `goRuntime` is the `GoRuntime` made of
them. -/

/-- A value of type `float64` (IEEE 754 binary64).  `finite neg m k` is the
number `(-1)^neg · m · 2^(k - 1074)`; in the values of the type `m < 2^53` and
`k ≤ 2045`, with `2^52 ≤ m` when `0 < k` (at `k = 0` are the zeros, the
subnormal numbers and the normal numbers below `2^-1021`). -/
inductive Binary64 where
  | finite (neg : Bool) (mant : Nat) (exp : Nat) : Binary64
  | inf (neg : Bool) : Binary64
  | nan : Binary64
deriving DecidableEq

/-- The integer nearest to `n / d`, the even one of two that are equally near. -/
def roundHalfEven (n d : Nat) : Nat :=
  if 2 * (n % d) < d then n / d
  else if 2 * (n % d) = d then (if n / d % 2 = 0 then n / d else n / d + 1)
  else n / d + 1

/-- The least exponent from `k` on, within `fuel` steps, at which the integer
part of `n / (d · 2^k)` fits in 53 bits. -/
def binaryExponent (n d : Nat) : Nat → Nat → Nat
  | 0, k => k
  | fuel + 1, k => if n / (d * 2 ^ k) < 2 ^ 53 then k else binaryExponent n d fuel (k + 1)

/-- The mantissa and the exponent of the `float64` nearest to `n / (d · 2^1074)`,
ties to even; `none` when the rounded number is `2^1024` or more (overflow). -/
def roundScaled (n d : Nat) : Option (Nat × Nat) :=
  if roundHalfEven n (d * 2 ^ binaryExponent n d 2046 0) = 2 ^ 53 then
    (if binaryExponent n d 2046 0 + 1 ≤ 2045 then some (2 ^ 52, binaryExponent n d 2046 0 + 1)
     else none)
  else if binaryExponent n d 2046 0 ≤ 2045 then
    some (roundHalfEven n (d * 2 ^ binaryExponent n d 2046 0), binaryExponent n d 2046 0)
  else none

/-- The mantissa and the exponent of the `float64` nearest to `num / den`. -/
def nearestFloat64 (num den : Nat) : Option (Nat × Nat) :=
  roundScaled (num * 2 ^ 1074) den

/-- The number a string of decimal digits writes. -/
def decimalValue (ds : List Char) : Nat :=
  ds.foldl (fun v c => 10 * v + (c.toNat - 48)) 0

/-- The exponent `readFloat` accumulates from the digits of an exponent: once
it has reached 10000 the digits that follow are skipped. -/
def exponentValue (ds : List Char) : Nat :=
  ds.foldl (fun e c => if e < 10000 then e * 10 + (c.toNat - 48) else e) 0

/-- What `ParseFloat` reads from an unsigned decimal literal that the scanner
has accepted: the digits of its integer part, the digits of its fraction,
whether the exponent is negative, and the exponent. -/
def readFloat (s : List Char) : List Char × List Char × Bool × Nat :=
  let s1 := s.dropWhile isDigit
  let frac := match s1 with
    | c :: r => if c = '.' then r.takeWhile isDigit else []
    | [] => []
  let s2 := match s1 with
    | c :: r => if c = '.' then r.dropWhile isDigit else s1
    | [] => []
  match s2 with
  | _ :: sg :: r =>
    if sg = '-' then (s.takeWhile isDigit, frac, true, exponentValue r)
    else if sg = '+' then (s.takeWhile isDigit, frac, false, exponentValue r)
    else (s.takeWhile isDigit, frac, false, exponentValue (sg :: r))
  | _ => (s.takeWhile isDigit, frac, false, 0)

/-- The `float64` nearest to the number an unsigned decimal literal writes,
the digits `int ++ frac` times ten to the exponent less the length of `frac`. -/
def atof64 (neg : Bool) (s : List Char) : Option Binary64 :=
  match readFloat s with
  | (int, frac, eneg, e) =>
    (if eneg then nearestFloat64 (decimalValue (int ++ frac)) (10 ^ (frac.length + e))
     else nearestFloat64 (decimalValue (int ++ frac) * 10 ^ e) (10 ^ frac.length)).map
      (fun p => Binary64.finite neg p.1 p.2)

/-- The conversion `strconv.ParseFloat(s, 64)` on a JSON number literal, which
is all the decoder passes to it: the nearest `float64`, or `none` when that is
out of range (`ErrRange`).  A text that is not a JSON number literal is
answered `none`. -/
def ParseFloat (s : GoString) : Option Binary64 :=
  if readNumber s = some (s, []) then
    match s with
    | c :: r => if c = '-' then atof64 true r else atof64 false s
    | [] => none
  else none

/-- The character of a decimal digit. -/
def digitChar (d : Nat) : Char := Char.ofNat (48 + d)

/-- The decimal digits of a number, the last one first; none for zero. -/
def digitsRev : Nat → Nat → List Char
  | 0, _ => []
  | fuel + 1, n => if n = 0 then [] else digitChar (n % 10) :: digitsRev fuel (n / 10)

/-- The decimal digits of a number, the first one first; none for zero. -/
def decimalDigits (n : Nat) : List Char := (digitsRev n n).reverse

/-- The exact decimal expansion of `m · 2^(k - 1074)`: `(D, j)` with value
`D / 10^j`. -/
def exactDecimal (m k : Nat) : Nat × Nat :=
  if 1074 ≤ k then (m * 2 ^ (k - 1074), 0) else (m * 5 ^ (1074 - k), 1074 - k)

/-- The bound `upper` of `roundShortest`, halfway from the `float64` of mantissa
`m` and exponent `k` to the next one above: `(2m + 1) · 2^(k - 1075)`, given in
units of `2^-1075`. -/
def upperBound (m k : Nat) : Nat := (2 * m + 1) * 2 ^ k

/-- The bound `lower` of `roundShortest`, halfway to the next `float64` below:
that is `m - 1` at the same exponent, unless `m` is the least mantissa of an
exponent that is not the least, when it is `2m - 1` at the exponent below; in
units of `2^-1075`. -/
def lowerBound (m k : Nat) : Nat :=
  if 2 ^ 52 < m ∨ k = 0 then (2 * (m - 1) + 1) * 2 ^ k
  else (2 * (2 * m - 1) + 1) * 2 ^ (k - 1)

/-- The test `okdown` of `roundShortest` on the decimal `c · 10^drop / 10^j`, the
digits kept: it is above `lower`, or equal to it when the bounds are inclusive,
which they are for an even mantissa. -/
def okDown (m k c drop j : Nat) : Bool :=
  decide (lowerBound m k * 10 ^ j < 2 * (c * 10 ^ drop * 2 ^ 1074)) ||
    (decide (m % 2 = 0) && decide (lowerBound m k * 10 ^ j = 2 * (c * 10 ^ drop * 2 ^ 1074)))

/-- The test `okup` of `roundShortest` on the decimal `c · 10^drop / 10^j`, the
digits kept with the last one raised: it is below `upper`, or equal to it when
the bounds are inclusive. -/
def okUp (m k c drop j : Nat) : Bool :=
  decide (2 * (c * 10 ^ drop * 2 ^ 1074) < upperBound m k * 10 ^ j) ||
    (decide (m % 2 = 0) && decide (2 * (c * 10 ^ drop * 2 ^ 1074) = upperBound m k * 10 ^ j))

/-- The rounding of `decimal.Round`: whether the decimal `D`, cut before its
last `drop` digits, is rounded up (nearest, ties to even). -/
def shouldRoundUp (D drop : Nat) : Bool :=
  decide (5 * 10 ^ (drop - 1) < D % 10 ^ drop) ||
    (decide (D % 10 ^ drop = 5 * 10 ^ (drop - 1)) && decide (D / 10 ^ drop % 2 = 1))

/-- The shortest decimal of the `float64` of mantissa `m` and exponent `k`, as
`roundShortest` finds it.  `D / 10^j` is the exact expansion of the number.  The
digits of `D` are walked from before the first one (where only the rounding up,
to a power of ten, can pass); with `drop` digits not yet reached, the digits
kept can be rounded down if `okDown` and up if `okUp`; at the first position
where either holds the walk ends, with the nearer of the two if both do.  If it
reaches the last digit the expansion is kept.  The result `(c, drop)` stands
for the decimal `c · 10^drop / 10^j`. -/
def roundShortest (m k D j : Nat) : Nat → Nat × Nat
  | 0 => (D, 0)
  | drop + 1 =>
    if okDown m k (D / 10 ^ (drop + 1)) (drop + 1) j &&
        okUp m k (D / 10 ^ (drop + 1) + 1) (drop + 1) j then
      (if shouldRoundUp D (drop + 1) then D / 10 ^ (drop + 1) + 1 else D / 10 ^ (drop + 1),
        drop + 1)
    else if okDown m k (D / 10 ^ (drop + 1)) (drop + 1) j then (D / 10 ^ (drop + 1), drop + 1)
    else if okUp m k (D / 10 ^ (drop + 1) + 1) (drop + 1) j then
      (D / 10 ^ (drop + 1) + 1, drop + 1)
    else roundShortest m k D j drop

/-- Removes the zeros that end a decimal, as `trim` does: `c · 10^drop` is kept. -/
def trimZeros : Nat → Nat → Nat → Nat × Nat
  | 0, c, drop => (c, drop)
  | fuel + 1, c, drop =>
    if c % 10 = 0 then trimZeros fuel (c / 10) (drop + 1) else (c, drop)

/-- The digits of the shortest decimal of a non-zero `float64` and the position
`dp` of its decimal point: the number is `0.d₁d₂… · 10^dp`. -/
def shortestDecimal (m k : Nat) : List Char × Int :=
  match exactDecimal m k with
  | (D, j) =>
    match roundShortest m k D j (decimalDigits D).length with
    | (c, drop) =>
      match trimZeros c c drop with
      | (c1, drop1) =>
        (decimalDigits c1, ((decimalDigits c1).length : Int) + (drop1 : Int) - (j : Int))

/-- The exponent of the format `%e`: the letter, the sign, and the absolute value
with two digits, or with three from 100 on. -/
def fmtExponent (exp : Int) : List Char :=
  'e' :: (if exp < 0 then '-' else '+') ::
    (if exp.natAbs < 10 then ['0', digitChar exp.natAbs]
     else if exp.natAbs < 100 then [digitChar (exp.natAbs / 10), digitChar (exp.natAbs % 10)]
     else [digitChar (exp.natAbs / 100), digitChar (exp.natAbs / 10 % 10),
       digitChar (exp.natAbs % 10)])

/-- The format `%e` of `strconv` with the shortest precision: the sign, the
first digit, the other digits after a point, and the exponent `dp - 1` (0 when
there is no digit). -/
def fmtE (neg : Bool) (ds : List Char) (dp : Int) : GoString :=
  (if neg then ['-'] else []) ++
  (ds.headD '0' :: (if 0 < (ds.length : Int) - 1 then '.' :: ds.tail else [])) ++
  fmtExponent (if ds = [] then 0 else dp - 1)

/-- The format `%f` of `strconv` with the shortest precision: the sign; the
digits before the point, zeros added up to it, or `0` if there are none; then,
if digits remain, the point and the digits after it, zeros standing between the
point and the first digit when `dp` is negative. -/
def fmtF (neg : Bool) (ds : List Char) (dp : Int) : GoString :=
  (if neg then ['-'] else []) ++
  (if 0 < dp then ds.take dp.toNat ++ List.replicate (dp.toNat - ds.length) '0' else ['0']) ++
  (if 0 < (ds.length : Int) - dp then
    '.' :: (List.replicate (-dp).toNat '0' ++ ds.drop dp.toNat)
   else [])

/-- The clean-up of `floatEncoder`: an exponent written `e-0d` or `e+0d` loses
its zero (`1e-07` becomes `1e-7`). -/
def cleanExponent (b : GoString) : GoString :=
  match b.reverse with
  | d :: z :: sg :: e :: rest =>
    if e = 'e' ∧ (sg = '-' ∨ sg = '+') ∧ z = '0' then (d :: sg :: e :: rest).reverse else b
  | _ => b

/-- Whether `m · 2^k < m1 · 2^k1`, the order of two non-negative `float64`. -/
def magnitudeLt (m k : Nat) (p : Option (Nat × Nat)) : Bool :=
  match p with
  | some (m1, k1) => decide (m * 2 ^ k < m1 * 2 ^ k1)
  | none => false

/-- The text `encoding/json` writes for a `float64` (`floatEncoder.encode`):
`none` for NaN and the infinities (`UnsupportedValueError`); otherwise the
shortest decimal, in the format `%f`, or in the format `%e` with its exponent
cleaned up when the number is not zero and is below `1e-6` or at least `1e21`
in absolute value, `1e-6` and `1e21` being the `float64` nearest to them. -/
def floatEncoder : Binary64 → Option GoString
  | .nan => none
  | .inf _ => none
  | .finite neg m k =>
    if m = 0 then some (fmtF neg [] 0)
    else if magnitudeLt m k (nearestFloat64 1 (10 ^ 6)) ||
        !(magnitudeLt m k (nearestFloat64 (10 ^ 21) 1)) then
      some (cleanExponent (fmtE neg (shortestDecimal m k).1 (shortestDecimal m k).2))
    else some (fmtF neg (shortestDecimal m k).1 (shortestDecimal m k).2)

/-- The Go runtime with the `float64` of IEEE 754 and `strconv`. -/
def goRuntime (shortEscapes : Bool) (urlRest : GoString → Bool) : GoRuntime :=
  { Float64 := Binary64,
    parseFloat := ParseFloat,
    encodeFloat := floatEncoder,
    shortEscapes := shortEscapes,
    urlRest := urlRest }

/-! ## `net/http`: building a request -/

/-- A token character of RFC 7230 (`validHeaderFieldByte`, `IsTokenRune`). -/
def isTokenChar (c : Char) : Bool :=
  (decide (c.toNat < 128) && c.isAlphanum) ||
    "!#$%&*+-.^_|~".toList.contains c || c.toNat == 39 || c.toNat == 96

/-- Upper-cases the first letter and every letter after a hyphen, lower-cases
the others; `up` tells whether the next letter is upper-cased. -/
def canonicalCase : Bool → List Char → List Char
  | _, [] => []
  | up, c :: cs =>
    (if up then c.toUpper else c.toLower) :: canonicalCase (c == '-') cs

/-- The function `textproto.CanonicalMIMEHeaderKey`: a key with a character
that is not a token character is returned unchanged. -/
def canonicalMIMEHeaderKey (key : GoString) : GoString :=
  if key.all isTokenChar then canonicalCase true key else key

/-- The type `http.Header`: a map from canonical keys to their values. -/
abbrev Header := List (GoString × List GoString)

/-- The part of an `http.Request` the program sets. -/
structure Request where
  Method : GoString
  URL : GoString
  Header : Header
  Body : GoString
deriving DecidableEq

/-- The method `Header.Set`: the key, made canonical, gets the single value. -/
def Header.Set (h : Header) (key value : GoString) : Header :=
  mapSet h (canonicalMIMEHeaderKey key) [value]

/-- The function `stringContainsCTLByte` of `net/url`. -/
def stringContainsCTLByte (s : GoString) : Bool :=
  s.any (fun c => decide (c.toNat < 32) || c.toNat == 127)

/-- Whether `url.Parse` accepts a raw URL: the text before the first `#` must
hold no ASCII control byte, and the rest of the checks is the runtime's. -/
def urlParses (rt : GoRuntime) (rawURL : GoString) : Bool :=
  !stringContainsCTLByte (rawURL.takeWhile (fun c => c != '#')) && rt.urlRest rawURL

/-- The function `validMethod` of `net/http`. -/
def validMethod (method : GoString) : Bool :=
  !method.isEmpty && method.all isTokenChar

/-- The call `http.NewRequest(method, url, bytes.NewBuffer(body))`: `none` when it
returns an error, in which case the request it returns is nil. -/
def NewRequest (rt : GoRuntime) (method url body : GoString) : Option Request :=
  let method := if method = [] then "GET".toList else method
  if validMethod method && urlParses rt url then
    some { Method := method, URL := url, Header := [], Body := body }
  else none

/-- The part of an `http.Response` the program reads. -/
structure Response where
  Status : GoString
  Body : GoString
deriving DecidableEq

/-- What `http.DefaultClient.Do` returns: a response (the last one, if the
client followed redirects), or the message of an error (the request could not
be completed). -/
abbrev HttpResult := Except GoString Response

/-! ## Runs of the program -/

/-- What the program does to the outside: it writes to standard output and it
calls `http.DefaultClient.Do` with a request.  The exchange on the network that
serves the call is the client's, not the program's. -/
inductive Event where
  | stdout (text : GoString) : Event
  | httpDo (req : Request) : Event
deriving DecidableEq

/-- The value a goroutine panics with. -/
inductive PanicValue where
  | str (msg : GoString) : PanicValue
  | error (msg : GoString) : PanicValue
  | nilDereference : PanicValue
deriving DecidableEq

/-- How a function ends: it returns, or it panics (nothing recovers, so the
process dies with a non-zero status). -/
inductive Exit where
  | returned : Exit
  | panicked (v : PanicValue) : Exit
deriving DecidableEq

/-- A run: the events in order and the way it ended. -/
structure Run where
  trace : List Event
  exit : Exit
deriving DecidableEq

/-- Sequencing of two calls: the second runs only when the first returns. -/
def Run.andThen (r k : Run) : Run :=
  match r.exit with
  | .returned => { trace := r.trace ++ k.trace, exit := k.exit }
  | .panicked _ => r

/-- The text `fmt.Println(s)` writes. -/
def println (s : GoString) : GoString :=
  s ++ [chNewline]

/-- The text `fmt.Printf(label + "%s" + "\n", s)` writes. -/
def printfLine (label s : GoString) : GoString :=
  label ++ (s ++ [chNewline])

/-! ## The program (main.go, lines 64-168) -/

/-- The value `reqBody` of `testClientOwner` (lines 66-75). -/
def reqBodyClientOwner (F : Type) : GraphQLRequest F :=
  { Query := mutationClientOwner,
    Variables := some [
      ("content".toList, .string "[client-owner] message from golang 🚀".toList),
      ("sender".toList, .string "golang-client-owner".toList),
      ("tenantID".toList, .int 1),
      ("propertyID".toList, .int 1),
      ("orderID".toList, .int 1)] }

/-- The value `reqBody` of `testOwner` (lines 97-105). -/
def reqBodyOwner (F : Type) : GraphQLRequest F :=
  { Query := mutationOwner,
    Variables := some [
      ("content".toList, .string "[go][owner] message from golang (owner) 🚀".toList),
      ("sender".toList, .string "golang-owner".toList),
      ("shareId".toList, .string "8ec22adf-42d8-41dc-9f7a-87e7d1990d02".toList),
      ("constructionID".toList, .string "1a9e6d41-1042-410a-acb2-28016bca3354".toList)] }

/-- The value `reqBody` of `testOwnerSimple` (lines 127-134). -/
def reqBodyOwnerSimple (F : Type) : GraphQLRequest F :=
  { Query := mutationOwnerSimple,
    Variables := some [
      ("content".toList, .string "[owner] message from golang 🚀".toList),
      ("sender".toList, .string "7179984e-bc2b-452b-bdbb-09f4b07b88f2".toList),
      ("shareId".toList, .string "room-1".toList)] }

/-- The function `testClientOwner` (lines 64-93).  The errors of `json.Marshal`,
`http.NewRequest`, `Decode` and `json.MarshalIndent` are discarded: a failed
`Marshal` leaves nil bytes, a failed `NewRequest` a nil request, on which
`req.Header.Set` panics. -/
def testClientOwner (rt : GoRuntime) (endpoint : GoString) (o : HttpResult) : Run :=
  let banner := Event.stdout (println "\n=== Testing client-owner parameters ===".toList)
  let bodyBytes := (marshalRequest rt (reqBodyClientOwner rt.Float64)).getD []
  match NewRequest rt "POST".toList endpoint bodyBytes with
  | none => { trace := [banner], exit := .panicked .nilDereference }
  | some req =>
    let req := { req with Header := req.Header.Set "Content-Type".toList "application/json".toList }
    let req := { req with Header := req.Header.Set "Authorization".toList "aaaa".toList }
    match o with
    | .error err => { trace := [banner, .httpDo req], exit := .panicked (.error err) }
    | .ok resp =>
      let result := decodeMap rt resp.Body
      let resultJSON := (marshalMap rt (some "  ".toList) result).getD []
      { trace := [banner, .httpDo req,
          .stdout (printfLine "Status: ".toList resp.Status),
          .stdout (printfLine "Response: ".toList resultJSON)],
        exit := .returned }

/-- The function `testOwner` (lines 95-123). -/
def testOwner (rt : GoRuntime) (endpoint : GoString) (o : HttpResult) : Run :=
  let banner :=
    Event.stdout (println "\n=== Testing owner parameters (with constructionID) ===".toList)
  let bodyBytes := (marshalRequest rt (reqBodyOwner rt.Float64)).getD []
  match NewRequest rt "POST".toList endpoint bodyBytes with
  | none => { trace := [banner], exit := .panicked .nilDereference }
  | some req =>
    let req := { req with Header := req.Header.Set "Content-Type".toList "application/json".toList }
    let req := { req with Header := req.Header.Set "Authorization".toList "aaaa".toList }
    match o with
    | .error err => { trace := [banner, .httpDo req], exit := .panicked (.error err) }
    | .ok resp =>
      let result := decodeMap rt resp.Body
      let resultJSON := (marshalMap rt (some "  ".toList) result).getD []
      { trace := [banner, .httpDo req,
          .stdout (printfLine "Status: ".toList resp.Status),
          .stdout (printfLine "Response: ".toList resultJSON)],
        exit := .returned }

/-- The function `testOwnerSimple` (lines 125-152). -/
def testOwnerSimple (rt : GoRuntime) (endpoint : GoString) (o : HttpResult) : Run :=
  let banner :=
    Event.stdout (println "\n=== Testing owner parameters (shareId only) ===".toList)
  let bodyBytes := (marshalRequest rt (reqBodyOwnerSimple rt.Float64)).getD []
  match NewRequest rt "POST".toList endpoint bodyBytes with
  | none => { trace := [banner], exit := .panicked .nilDereference }
  | some req =>
    let req := { req with Header := req.Header.Set "Content-Type".toList "application/json".toList }
    let req := { req with Header := req.Header.Set "Authorization".toList "aaaa".toList }
    match o with
    | .error err => { trace := [banner, .httpDo req], exit := .panicked (.error err) }
    | .ok resp =>
      let result := decodeMap rt resp.Body
      let resultJSON := (marshalMap rt (some "  ".toList) result).getD []
      { trace := [banner, .httpDo req,
          .stdout (printfLine "Status: ".toList resp.Status),
          .stdout (printfLine "Response: ".toList resultJSON)],
        exit := .returned }

/-- The call `os.Getenv`: the value of the variable, empty when it is unset. -/
def Getenv (value : Option GoString) : GoString :=
  value.getD []

/-- The function `main` (lines 154-168): `env` is the environment variable
`APPSYNC_ENDPOINT`, and `o1`, `o2`, `o3` are what the HTTP client answers to
the first, second and third request, for the requests that are made. -/
def main (rt : GoRuntime) (env : Option GoString) (o1 o2 o3 : HttpResult) : Run :=
  let endpoint := Getenv env
  if endpoint = [] then
    { trace := [], exit := .panicked (.str "APPSYNC_ENDPOINT is required".toList) }
  else
    (testClientOwner rt endpoint o1).andThen
      ((testOwner rt endpoint o2).andThen (testOwnerSimple rt endpoint o3))

/-! ## Notions used to state the properties -/

/-- The keys of the variables mapping of a request. -/
def variableKeys {F : Type} (r : GraphQLRequest F) : List GoString :=
  match r.Variables with
  | none => []
  | some m => m.map Prod.fst

/-- The calls of `http.DefaultClient.Do` during a run, in order, each as the
request the program hands to the client.  What the client sends on the network
to serve a call (it follows redirects by itself, with requests of its own) is
no event of the program and is not counted here. -/
def doCalls : List Event → List Request
  | [] => []
  | .httpDo req :: es => req :: doCalls es
  | .stdout _ :: es => doCalls es

/-- The texts written to standard output during a run, in order. -/
def outputOf : List Event → List GoString
  | [] => []
  | .stdout t :: es => t :: outputOf es
  | .httpDo _ :: es => outputOf es

/-- The request a call site hands to the HTTP client: a POST to the endpoint
with the two headers and the serialized `reqBody`. -/
def postOf (rt : GoRuntime) (endpoint : GoString) (reqBody : GraphQLRequest rt.Float64) :
    Request :=
  { Method := "POST".toList,
    URL := endpoint,
    Header := [("Authorization".toList, ["aaaa".toList]),
               ("Content-Type".toList, ["application/json".toList])],
    Body := (marshalRequest rt reqBody).getD [] }

/-- The banner of `testClientOwner`. -/
def bannerClientOwner : GoString :=
  println "\n=== Testing client-owner parameters ===".toList

/-- The banner of `testOwner`. -/
def bannerOwner : GoString :=
  println "\n=== Testing owner parameters (with constructionID) ===".toList

/-- The banner of `testOwnerSimple`. -/
def bannerOwnerSimple : GoString :=
  println "\n=== Testing owner parameters (shareId only) ===".toList

/-- A runtime to evaluate the program on: its numbers are the non-negative
integers written without a sign, an exponent or a leading zero, every other
number literal being out of range, and its `url.Parse` makes no further
check. -/
def exampleRuntime : GoRuntime :=
  { Float64 := GoString,
    parseFloat := fun lit =>
      if lit = ['0'] then some lit
      else if lit.all isDigit && lit.head? != some '0' && !lit.isEmpty then some lit
      else none,
    encodeFloat := fun f => some f,
    shortEscapes := true,
    urlRest := fun _ => true }

/-- The contract `send(endpoint, query, variables)` of section 4.1 of the
specification, in its words: serialize `{query, variables}` to JSON; issue an
HTTP POST with header `Content-Type: application/json` and the fixed
`Authorization` header; a network failure terminates the process; decode the
response body as JSON, a decode failure being tolerated; print the HTTP status
line and a pretty-printed JSON rendering of the body. -/
def send (rt : GoRuntime) (endpoint query : GoString) (vars : GoMapVar rt.Float64)
    (o : HttpResult) : Run :=
  let body := (marshalRequest rt { Query := query, Variables := vars }).getD []
  match NewRequest rt "POST".toList endpoint body with
  | none => { trace := [], exit := .panicked .nilDereference }
  | some req =>
    let req := { req with Header := req.Header.Set "Content-Type".toList "application/json".toList }
    let req := { req with Header := req.Header.Set "Authorization".toList "aaaa".toList }
    match o with
    | .error err => { trace := [.httpDo req], exit := .panicked (.error err) }
    | .ok resp =>
      { trace := [.httpDo req,
          .stdout (printfLine "Status: ".toList resp.Status),
          .stdout (printfLine "Response: ".toList
            ((marshalMap rt (some "  ".toList) (decodeMap rt resp.Body)).getD []))],
        exit := .returned }

/-- Writing a fixed text to standard output and then calling `send`. -/
def sendAfter (text : List GoString) (rt : GoRuntime) (endpoint query : GoString)
    (vars : GoMapVar rt.Float64) (o : HttpResult) : Run :=
  Run.andThen { trace := text.map Event.stdout, exit := .returned }
    (send rt endpoint query vars o)

/-! ## Notions used to state the properties of the decoder -/

/-- A character that can continue a number literal. -/
def isNumChar (c : Char) : Bool :=
  isDigit c || c == '.' || c == 'e' || c == 'E'

/-- A text that cannot continue a number literal: it is empty or starts with a
character that is not a digit, a point or an exponent mark. -/
def NumEnd (rest : List Char) : Prop :=
  ∀ c r, rest = c :: r → isNumChar c = false

/-- Entries in strictly increasing order of key. -/
def KeysSorted {V : Type} (m : List (GoString × V)) : Prop :=
  m.Pairwise (fun a b => keyLt a.1 b.1 = true)

/-- The contract of `strconv` this program relies on: a `float64` that
`ParseFloat` returns without error is finite, so `encoding/json` encodes it,
as a JSON number literal, with the smallest number of digits for which
`ParseFloat` returns the same `float64`. -/
def FloatRoundTrip (rt : GoRuntime) : Prop :=
  ∀ lit f, rt.parseFloat lit = some f →
    ∃ s, rt.encodeFloat f = some s ∧ readNumber s = some (s, []) ∧ rt.parseFloat s = some f

mutual
/-- The values the decoder produces inside `depth` open arrays and objects: no
integers, numbers in the range of `ParseFloat`, maps with their keys in
increasing order, and a nesting within the scanner's limit. -/
def Decoded (rt : GoRuntime) : Nat → GoValue rt.Float64 → Prop
  | _, .null => True
  | _, .bool _ => True
  | _, .int _ => False
  | _, .float64 f => ∃ lit, rt.parseFloat lit = some f
  | _, .string _ => True
  | depth, .slice xs => depth + 1 ≤ maxNestingDepth ∧ DecodedElems rt (depth + 1) xs
  | depth, .map m =>
    depth + 1 ≤ maxNestingDepth ∧ KeysSorted m ∧ DecodedEntries rt (depth + 1) m
/-- The elements of a decoded slice. -/
def DecodedElems (rt : GoRuntime) : Nat → List (GoValue rt.Float64) → Prop
  | _, [] => True
  | depth, x :: xs => Decoded rt depth x ∧ DecodedElems rt depth xs
/-- The values of a decoded map. -/
def DecodedEntries (rt : GoRuntime) : Nat → GoMap rt.Float64 → Prop
  | _, [] => True
  | depth, (_, x) :: xs => Decoded rt depth x ∧ DecodedEntries rt depth xs
end

/-- A layout whose indent is white space, as the two spaces of the program. -/
def LayoutOK (lay : Layout) : Prop :=
  match lay with
  | none => True
  | some unit => ∀ c ∈ unit, isSpace c = true

/-- A text that starts like a JSON value: with a character that is not white
space and closes no array or object. -/
def StartsValue (t : GoString) : Prop :=
  ∃ c t1, t = c :: t1 ∧ isSpace c = false ∧ c ≠ ']' ∧ c ≠ Char.ofNat 125 ∧ c ≠ ','

/-- What `bracket` writes after the first element: the other elements, each
after a comma and a line break, then the closing bracket, then `rest`. -/
def tailText (lay : Layout) (depth : Nat) (cl : Char) (es : List GoString)
    (rest : List Char) : List Char :=
  (es.map (fun x => ',' :: (newline lay (depth + 1) ++ x))).flatten ++
    (newline lay depth ++ cl :: rest)

/-- The round trip of one value: the text the encoder writes for it, in any
layout and followed by any text that does not continue a number, is read back
by the decoder as the value, leaving exactly what followed. -/
def ReadsBack (rt : GoRuntime) (v : GoValue rt.Float64) : Prop :=
  ∀ (lay : Layout) (k d fuel : Nat) (t rest : List Char), LayoutOK lay →
    encodeValue rt lay k v = some t → Decoded rt d v → t.length < fuel → NumEnd rest →
    parseValue rt fuel d (t ++ rest) = some (v, rest)

/-- The mantissa and the exponent of a `float64`. -/
def Canonical (m k : Nat) : Prop :=
  m < 2 ^ 53 ∧ k ≤ 2045 ∧ (0 < k → 2 ^ 52 ≤ m)

/-- The exponent part of a literal: nothing, or `e`, a sign and digits. -/
def ExponentPart (ex : List Char) (eneg : Bool) (e : Nat) : Prop :=
  (ex = [] ∧ eneg = false ∧ e = 0) ∨
  ∃ X, X ≠ [] ∧ (∀ c ∈ X, isDigit c = true) ∧ e = exponentValue X ∧
    ((ex = 'e' :: '-' :: X ∧ eneg = true) ∨ (ex = 'e' :: '+' :: X ∧ eneg = false))

/-- A fraction part: nothing, or a point and digits. -/
def fractionPart (frac : List Char) : List Char :=
  if frac = [] then [] else '.' :: frac

/-- The shape of a number literal without its sign: an integer part that is
`0` or starts with another digit, a fraction part, an exponent part. -/
def IntegerPart (int : List Char) : Prop :=
  int = ['0'] ∨ ∃ d r, int = d :: r ∧ isDigit d = true ∧ d ≠ '0' ∧ ∀ c ∈ r, isDigit c = true

/-- The sign written in front of a number. -/
def signText (neg : Bool) : List Char := if neg then ['-'] else []

/-- The body `{"data":{"publishMessage":{"id":"x"}}}`. -/
def publishedBody : GoString :=
  "\x7b\"data\":\x7b\"publishMessage\":\x7b\"id\":\"x\"\x7d\x7d\x7d".toList

/-- The rendering of `publishedBody` with an indent of two spaces. -/
def publishedRendering : GoString :=
  ("\x7b\n" ++
   "  \"data\": \x7b\n" ++
   "    \"publishMessage\": \x7b\n" ++
   "      \"id\": \"x\"\n" ++
   "    \x7d\n" ++
   "  \x7d\n" ++
   "\x7d").toList

/-- A response body that cannot be decoded as a JSON object: it is empty or
malformed, or its first JSON value is not an object; however much fuel the
decoder is given, it does not read an object at the start of the body. -/
def NotJSONObject (rt : GoRuntime) (body : GoString) : Prop :=
  ∀ fuel m rest, parseValue rt fuel 0 body ≠ some (.map m, rest)

/-- The response line of a nil result. -/
def responseNull : GoString :=
  "Response: null\n".toList

/-- An endpoint that ends with a line feed, as a value read from a file would. -/
def endpointWithNewline : GoString :=
  "https://example.com/graphql\n".toList

/-- The response `200 OK` with an empty object as body. -/
def okResponse : Response :=
  { Status := "200 OK".toList, Body := [Char.ofNat 123, Char.ofNat 125] }

/-- A response `500 Internal Server Error` with a body that is not JSON. -/
def errorResponse : Response :=
  { Status := "500 Internal Server Error".toList, Body := "upstream failure".toList }

/-- The request body of the client-owner call. -/
def bodyClientOwner : GoString :=
  ("\x7b\"query\":\"\\nmutation PublishMessage($content: String!, $sender: String!, $tenantID: Int!, $propertyID: Int!, $orderID: Int!) \x7b\\n" ++
   "  publishMessage(content: $content, sender: $sender, tenantID: $tenantID, propertyID: $propertyID, orderID: $orderID) \x7b\\n" ++
   "    id\\n    content\\n    sender\\n    shareId\\n    createdAt\\n    tenantID\\n" ++
   "    propertyID\\n    orderID\\n    constructionID\\n  \x7d\\n\x7d\\n\"," ++
   "\"variables\":\x7b\"content\":\"[client-owner] message from golang 🚀\"," ++
   "\"orderID\":1,\"propertyID\":1,\"sender\":\"golang-client-owner\",\"tenantID\":1\x7d\x7d").toList

/-- The request body of the owner call. -/
def bodyOwner : GoString :=
  ("\x7b\"query\":\"\\nmutation PublishMessage($content: String!, $sender: String!, $shareId: String!, $constructionID: String) \x7b\\n" ++
   "  publishMessage(content: $content, sender: $sender, shareId: $shareId, constructionID: $constructionID) \x7b\\n" ++
   "    id\\n    content\\n    sender\\n    shareId\\n    createdAt\\n    tenantID\\n" ++
   "    propertyID\\n    orderID\\n    constructionID\\n  \x7d\\n\x7d\\n\"," ++
   "\"variables\":\x7b\"constructionID\":\"1a9e6d41-1042-410a-acb2-28016bca3354\"," ++
   "\"content\":\"[go][owner] message from golang (owner) 🚀\"," ++
   "\"sender\":\"golang-owner\",\"shareId\":\"8ec22adf-42d8-41dc-9f7a-87e7d1990d02\"\x7d\x7d").toList

/-- The request body of the owner-simple call. -/
def bodyOwnerSimple : GoString :=
  ("\x7b\"query\":\"\\nmutation PublishMessage($content: String!, $sender: String!, $shareId: String!) \x7b\\n" ++
   "  publishMessage(content: $content, sender: $sender, shareId: $shareId) \x7b\\n" ++
   "    id\\n    content\\n    sender\\n    shareId\\n    createdAt\\n    tenantID\\n" ++
   "    propertyID\\n    orderID\\n    constructionID\\n  \x7d\\n\x7d\\n\"," ++
   "\"variables\":\x7b\"content\":\"[owner] message from golang 🚀\"," ++
   "\"sender\":\"7179984e-bc2b-452b-bdbb-09f4b07b88f2\",\"shareId\":\"room-1\"\x7d\x7d").toList

/-- The text a call prints after "Response: " for a response body: the indented
rendering of the decoded result mapping, empty if `MarshalIndent` fails. -/
def responseText (rt : GoRuntime) (body : GoString) : GoString :=
  (marshalMap rt (some "  ".toList) (decodeMap rt body)).getD []

/-- A body with numbers in several notations, one of them out of the range of
`float64`, an array and a nested object. -/
def mixedBody : GoString :=
  "\x7b\"b\": [1, 2.50, -1, 1e21, 1E-7, 1e999, true, \"x\"], \"a\": \x7b\"n\": 17\x7d\x7d".toList

/-- What is printed for `mixedBody`: the keys in order, the numbers in their
shortest notation, `null` for the number out of range. -/
def mixedText : GoString :=
  ("\x7b\n  \"a\": \x7b\n    \"n\": 17\n  \x7d,\n  \"b\": [\n    1,\n    2.5,\n    -1,\n" ++
   "    1e+21,\n    1e-7,\n    null,\n    true,\n    \"x\"\n  ]\n\x7d").toList

/-! ## Characters -/

/-- Characters are equal when their code points are. -/
theorem char_eq_iff (c d : Char) : c = d ↔ c.toNat = d.toNat := by
  constructor
  · intro h; rw [h]
  · intro h
    have := congrArg Char.ofNat h
    simpa using this

/-- The code point of the double quote. -/
theorem chQuote_toNat : chQuote.toNat = 34 := by decide
/-- The code point of the backslash. -/
theorem chBackslash_toNat : chBackslash.toNat = 92 := by decide

/-- A hexadecimal digit reads back as its value. -/
theorem hexVal_hexDigit : ∀ k, k < 16 → hexVal (hexDigit k) = some k := by
  decide

/-- Reading a string is putting the first character in front of the rest, for a
character that stands for itself. -/
theorem readStringFrom_plain (c : Char) (X : List Char)
    (h1 : c.toNat ≠ 34) (h2 : c.toNat ≠ 92) (h3 : 32 ≤ c.toNat) :
    readStringFrom none (c :: X) = consChar c (readStringFrom none X) := by
  have e1 : ¬ c = chQuote := by rw [char_eq_iff, chQuote_toNat]; exact h1
  have e2 : ¬ c = chBackslash := by rw [char_eq_iff, chBackslash_toNat]; exact h2
  have e3 : ¬ c.toNat < 32 := by omega
  rw [readStringFrom.eq_def]
  simp only [e1, e2, e3, if_false, flushPending]

/-- Reading a single-letter escape. -/
theorem readStringFrom_escape (e ch : Char) (X : List Char)
    (h : unescape e = some ch) (hu : e ≠ 'u') :
    readStringFrom none (chBackslash :: e :: X) = consChar ch (readStringFrom none X) := by
  have e1 : ¬ chBackslash = chQuote := by decide
  rw [readStringFrom.eq_def]
  simp only [e1, if_false, if_true, hu, h, flushPending]

/-- Reading a `u` escape of a code point that is not a surrogate. -/
theorem readStringFrom_u (a b c d : Char) (n : Nat) (X : List Char)
    (h : hex4 a b c d = some n) (hn : n < 55296) :
    readStringFrom none (chBackslash :: 'u' :: a :: b :: c :: d :: X) =
      consChar (Char.ofNat n) (readStringFrom none X) := by
  have e1 : ¬ chBackslash = chQuote := by decide
  have e2 : ¬ (56320 ≤ n ∧ n < 57344) := by omega
  have e3 : ¬ (55296 ≤ n ∧ n < 56320) := by omega
  rw [readStringFrom.eq_def]
  simp only [e1, if_false, if_true, h, e2, e3, flushPending]

/-- Four hexadecimal digits of numbers below sixteen. -/
theorem hex4_hexDigit (x y z w : Nat) (hx : x < 16) (hy : y < 16) (hz : z < 16) (hw : w < 16) :
    hex4 (hexDigit x) (hexDigit y) (hexDigit z) (hexDigit w) =
      some (((x * 16 + y) * 16 + z) * 16 + w) := by
  simp only [hex4, hexVal_hexDigit _ hx, hexVal_hexDigit _ hy, hexVal_hexDigit _ hz,
    hexVal_hexDigit _ hw]

/-- What `appendString` writes for a character reads back as the character. -/
theorem readStringFrom_quoteChar (rt : GoRuntime) (c : Char) (X : List Char) :
    readStringFrom none (quoteChar rt c ++ X) = consChar c (readStringFrom none X) := by
  unfold quoteChar
  by_cases h128 : c.toNat < 128
  · rw [if_pos h128]
    by_cases hs : htmlSafe c = true
    · rw [if_pos hs]
      simp only [htmlSafe, Bool.and_eq_true, decide_eq_true_eq, bne_iff_ne, ne_eq,
        char_eq_iff, chQuote_toNat, chBackslash_toNat] at hs
      exact readStringFrom_plain c X hs.1.1.1.1.2 hs.1.1.1.2 hs.1.1.1.1.1
    · rw [if_neg hs]
      by_cases hq : c = chBackslash ∨ c = chQuote
      · rw [if_pos hq]
        rcases hq with hq | hq <;> subst hq <;>
          exact readStringFrom_escape _ _ X (by decide) (by decide)
      · rw [if_neg hq]
        by_cases h8 : c.toNat = 8 ∧ rt.shortEscapes = true
        · rw [if_pos h8]
          have hc : c = Char.ofNat 8 := by rw [← h8.1, Char.ofNat_toNat]
          rw [hc]
          exact readStringFrom_escape _ _ X (by decide) (by decide)
        · rw [if_neg h8]
          by_cases h12 : c.toNat = 12 ∧ rt.shortEscapes = true
          · rw [if_pos h12]
            have hc : c = Char.ofNat 12 := by rw [← h12.1, Char.ofNat_toNat]
            rw [hc]
            exact readStringFrom_escape _ _ X (by decide) (by decide)
          · rw [if_neg h12]
            by_cases h10 : c.toNat = 10
            · rw [if_pos h10]
              have hc : c = Char.ofNat 10 := by rw [← h10, Char.ofNat_toNat]
              rw [hc]
              exact readStringFrom_escape _ _ X (by decide) (by decide)
            · rw [if_neg h10]
              by_cases h13 : c.toNat = 13
              · rw [if_pos h13]
                have hc : c = Char.ofNat 13 := by rw [← h13, Char.ofNat_toNat]
                rw [hc]
                exact readStringFrom_escape _ _ X (by decide) (by decide)
              · rw [if_neg h13]
                by_cases h9 : c.toNat = 9
                · rw [if_pos h9]
                  have hc : c = Char.ofNat 9 := by rw [← h9, Char.ofNat_toNat]
                  rw [hc]
                  exact readStringFrom_escape _ _ X (by decide) (by decide)
                · rw [if_neg h9]
                  have hd : c.toNat / 16 < 16 := by omega
                  have hm : c.toNat % 16 < 16 := by omega
                  have h4 := hex4_hexDigit 0 0 (c.toNat / 16) (c.toNat % 16) (by omega)
                    (by omega) hd hm
                  have hv : ((0 * 16 + 0) * 16 + c.toNat / 16) * 16 + c.toNat % 16 = c.toNat := by
                    omega
                  rw [hv] at h4
                  have := readStringFrom_u _ _ _ _ _ X h4 (by omega)
                  rw [Char.ofNat_toNat] at this
                  exact this
  · rw [if_neg h128]
    by_cases hl : c.toNat = 8232 ∨ c.toNat = 8233
    · rw [if_pos hl]
      have hm : c.toNat % 16 < 16 := by omega
      have h4 := hex4_hexDigit 2 0 2 (c.toNat % 16) (by omega) (by omega) (by omega) hm
      have hv : ((2 * 16 + 0) * 16 + 2) * 16 + c.toNat % 16 = c.toNat := by omega
      rw [hv] at h4
      have := readStringFrom_u _ _ _ _ _ X h4 (by omega)
      rw [Char.ofNat_toNat] at this
      exact this
    · rw [if_neg hl]
      exact readStringFrom_plain c X (by omega) (by omega) (by omega)

/-- A string literal written by the encoder reads back as the string. -/
theorem readString_quoteChars (rt : GoRuntime) (s : GoString) (X : List Char) :
    readString (quoteChars rt s ++ chQuote :: X) = some (s, X) := by
  unfold readString
  induction s with
  | nil =>
    rw [readStringFrom.eq_def]
    simp [quoteChars, flushPending]
  | cons c s ih =>
    simp only [quoteChars, List.append_assoc]
    rw [readStringFrom_quoteChar, ih]
    rfl

/-! ## Number literals -/

/-- The digits at the start of a text are those at the start of the text extended by
one that does not continue them. -/
theorem digits_append (s rest : List Char) (hr : s.dropWhile isDigit = [] → NumEnd rest) :
    (s ++ rest).takeWhile isDigit = s.takeWhile isDigit ∧
    (s ++ rest).dropWhile isDigit = s.dropWhile isDigit ++ rest := by
  induction s with
  | nil =>
    cases rest with
    | nil => simp
    | cons c r =>
      have := hr rfl c r rfl
      simp only [isNumChar, Bool.or_eq_false_iff] at this
      simp [List.takeWhile, List.dropWhile, this.1.1.1]
  | cons c s ih =>
    by_cases hc : isDigit c = true
    · simp only [List.dropWhile_cons, hc, if_true] at hr
      simp [List.takeWhile, List.dropWhile, hc, ih hr]
    · simp [List.takeWhile, List.dropWhile, hc]

/-- Reading digits from an extended text. -/
theorem readDigits_append (s l r1 rest : List Char) (h : readDigits s = some (l, r1))
    (hr : r1 = [] → NumEnd rest) : readDigits (s ++ rest) = some (l, r1 ++ rest) := by
  unfold readDigits at h ⊢
  by_cases h0 : s.takeWhile isDigit = []
  · simp [h0] at h
  · simp only [h0, if_false, Option.some.injEq, Prod.mk.injEq] at h
    obtain ⟨h1, h2⟩ := h
    obtain ⟨e1, e2⟩ := digits_append s rest (by rw [h2]; exact hr)
    rw [e1, e2, h1, h2]
    rw [h1] at h0
    simp [h0]

/-- Reading an exponent from an extended text. -/
theorem readExponent_append (s l r1 rest : List Char) (h : readExponent s = some (l, r1))
    (hr : r1 = [] → NumEnd rest) : readExponent (s ++ rest) = some (l, r1 ++ rest) := by
  cases s with
  | nil =>
    simp only [readExponent, Option.some.injEq, Prod.mk.injEq] at h
    obtain ⟨h1, h2⟩ := h
    subst h1 h2
    cases rest with
    | nil => rfl
    | cons c r =>
      have := hr rfl c r rfl
      simp only [isNumChar, Bool.or_eq_false_iff, beq_eq_false_iff_ne, ne_eq] at this
      simp [readExponent, this.1.2, this.2]
  | cons e r =>
    by_cases he : e = 'e' ∨ e = 'E'
    · cases r with
      | nil => simp [readExponent, he] at h
      | cons sg r2 =>
        by_cases hsg : sg = '+' ∨ sg = '-'
        · simp only [readExponent, he, hsg, if_true, Option.map_eq_some', Prod.mk.injEq,
            Prod.exists] at h
          obtain ⟨a, b, hab, h1, h2⟩ := h
          subst h2
          simp only [List.cons_append, readExponent, he, hsg, if_true,
            readDigits_append r2 a b rest hab hr, Option.map_some', h1]
        · simp only [readExponent, he, hsg, if_true, if_false, Option.map_eq_some',
            Prod.mk.injEq, Prod.exists] at h
          obtain ⟨a, b, hab, h1, h2⟩ := h
          subst h2
          have := readDigits_append (sg :: r2) a b rest hab hr
          simp only [List.cons_append] at this
          simp only [List.cons_append, readExponent, he, hsg, if_true, if_false, this,
            Option.map_some', h1]
    · simp only [readExponent, he, if_false, Option.some.injEq, Prod.mk.injEq] at h
      obtain ⟨h1, h2⟩ := h
      subst h1 h2
      simp [readExponent, he]

/-- Reading a fraction from an extended text. -/
theorem readFraction_append (s l r1 rest : List Char) (h : readFraction s = some (l, r1))
    (hr : r1 = [] → NumEnd rest) : readFraction (s ++ rest) = some (l, r1 ++ rest) := by
  cases s with
  | nil =>
    simp only [readFraction, Option.some.injEq, Prod.mk.injEq] at h
    obtain ⟨h1, h2⟩ := h
    subst h1 h2
    cases rest with
    | nil => rfl
    | cons c r =>
      have hc := hr rfl c r rfl
      simp only [isNumChar, Bool.or_eq_false_iff, beq_eq_false_iff_ne, ne_eq] at hc
      simp only [List.nil_append, readFraction, hc.1.1.2, if_false]
      have := readExponent_append [] [] [] (c :: r) rfl hr
      simpa using this
  | cons d r =>
    by_cases hd : d = '.'
    · simp only [readFraction, hd, if_true] at h
      cases hdig : readDigits r with
      | none => simp [hdig] at h
      | some p =>
        obtain ⟨ds, r2⟩ := p
        simp only [hdig, Option.map_eq_some', Prod.mk.injEq, Prod.exists] at h
        obtain ⟨a, b, hab, h1, h2⟩ := h
        subst h2
        have hexp := readExponent_append r2 a b rest hab hr
        have hr2 : r2 = [] → NumEnd rest := by
          intro e
          subst e
          simp only [readExponent, Option.some.injEq, Prod.mk.injEq] at hab
          exact hr hab.2.symm
        have hdg := readDigits_append r ds r2 rest hdig hr2
        simp only [List.cons_append, readFraction, hd, if_true, hdg, hexp, Option.map_some', h1]
    · simp only [readFraction, hd, if_false] at h
      have := readExponent_append (d :: r) l r1 rest h hr
      simp only [List.cons_append] at this
      simp only [List.cons_append, readFraction, hd, if_false, this]

/-- Nothing is left of the empty text. -/
theorem readFraction_nil_rest (r l : List Char) (h : readFraction [] = some (l, r)) : r = [] := by
  simp only [readFraction, Option.some.injEq, Prod.mk.injEq] at h
  exact h.2.symm

/-- Reading an integer part from an extended text. -/
theorem readInteger_append (s l r1 rest : List Char) (h : readInteger s = some (l, r1))
    (hr : r1 = [] → NumEnd rest) : readInteger (s ++ rest) = some (l, r1 ++ rest) := by
  cases s with
  | nil => simp [readInteger] at h
  | cons d r =>
    by_cases hd : d = '0'
    · simp only [readInteger, hd, if_true, Option.map_eq_some', Prod.mk.injEq,
        Prod.exists] at h
      obtain ⟨a, b, hab, h1, h2⟩ := h
      subst h2
      simp only [List.cons_append, readInteger, hd, if_true,
        readFraction_append r a b rest hab hr, Option.map_some', h1]
    · by_cases hdig : isDigit d = true
      · simp only [readInteger, hd, hdig, if_true, if_false, Option.map_eq_some',
          Prod.mk.injEq, Prod.exists] at h
        obtain ⟨a, b, hab, h1, h2⟩ := h
        subst h2
        have hfr := readFraction_append _ a b rest hab hr
        have hdw : r.dropWhile isDigit = [] → NumEnd rest := by
          intro e
          rw [e] at hab
          exact hr (readFraction_nil_rest _ _ hab)
        obtain ⟨e1, e2⟩ := digits_append r rest hdw
        simp only [List.cons_append, readInteger, hd, hdig, if_true, if_false, e1, e2, hfr,
          Option.map_some', h1]
      · simp [readInteger, hd, hdig] at h

/-- A number literal is read in full when what follows cannot continue it. -/
theorem readNumber_append (s l r1 rest : List Char) (h : readNumber s = some (l, r1))
    (hr : r1 = [] → NumEnd rest) : readNumber (s ++ rest) = some (l, r1 ++ rest) := by
  cases s with
  | nil => simp [readNumber] at h
  | cons c r =>
    by_cases hc : c = '-'
    · simp only [readNumber, hc, if_true, Option.map_eq_some', Prod.mk.injEq,
        Prod.exists] at h
      obtain ⟨a, b, hab, h1, h2⟩ := h
      subst h2
      simp only [List.cons_append, readNumber, hc, if_true,
        readInteger_append r a b rest hab hr, Option.map_some', h1]
    · simp only [readNumber, hc, if_false] at h
      have := readInteger_append (c :: r) l r1 rest h hr
      simp only [List.cons_append] at this
      simp only [List.cons_append, readNumber, hc, if_false, this]

/-- A number literal starts with a minus sign or a digit. -/
theorem readNumber_head (s l r1 : List Char) (h : readNumber s = some (l, r1)) :
    ∃ c r, s = c :: r ∧ (c = '-' ∨ isDigit c = true) := by
  cases s with
  | nil => simp [readNumber] at h
  | cons c r =>
    refine ⟨c, r, rfl, ?_⟩
    by_cases hc : c = '-'
    · exact Or.inl hc
    · right
      simp only [readNumber, hc, if_false] at h
      by_cases hd : c = '0'
      · subst hd; decide
      · by_cases hdig : isDigit c = true
        · exact hdig
        · simp [readInteger, hd, hdig] at h

/-! ## The order of keys -/

/-- No key is less than itself. -/
theorem keyLt_irrefl (a : GoString) : keyLt a a = false := by
  induction a with
  | nil => rfl
  | cons c s ih => simp [keyLt, ih]

/-- The order of keys is asymmetric. -/
theorem keyLt_asymm : ∀ (a b : GoString), keyLt a b = true → keyLt b a = false
  | [], [], h => by simp [keyLt] at h
  | [], _ :: _, _ => by simp [keyLt]
  | _ :: _, [], h => by simp [keyLt] at h
  | a :: as, b :: bs, h => by
    simp only [keyLt] at h ⊢
    by_cases h1 : a.toNat < b.toNat
    · have : ¬ b.toNat < a.toNat := by omega
      simp [this, h1]
    · by_cases h2 : b.toNat < a.toNat
      · simp [h1, h2] at h
      · simp only [h1, h2, if_false] at h ⊢
        exact keyLt_asymm as bs h

/-- The order of keys is transitive. -/
theorem keyLt_trans : ∀ (a b c : GoString), keyLt a b = true → keyLt b c = true →
    keyLt a c = true
  | [], [], _, h, _ => by simp [keyLt] at h
  | [], _ :: _, [], _, h => by simp [keyLt] at h
  | [], _ :: _, _ :: _, _, _ => by simp [keyLt]
  | _ :: _, [], _, h, _ => by simp [keyLt] at h
  | _ :: _, _ :: _, [], _, h => by simp [keyLt] at h
  | a :: as, b :: bs, c :: cs, h1, h2 => by
    simp only [keyLt] at h1 h2 ⊢
    by_cases ab : a.toNat < b.toNat
    · by_cases bc : b.toNat < c.toNat
      · have : a.toNat < c.toNat := by omega
        simp [this]
      · by_cases cb : c.toNat < b.toNat
        · simp [bc, cb] at h2
        · have : a.toNat < c.toNat := by omega
          simp [this]
    · by_cases ba : b.toNat < a.toNat
      · simp [ab, ba] at h1
      · simp only [ab, ba, if_false] at h1
        by_cases bc : b.toNat < c.toNat
        · have : a.toNat < c.toNat := by omega
          simp [this]
        · by_cases cb : c.toNat < b.toNat
          · simp [bc, cb] at h2
          · simp only [bc, cb, if_false] at h2
            have e1 : ¬ a.toNat < c.toNat := by omega
            have e2 : ¬ c.toNat < a.toNat := by omega
            simp only [e1, e2, if_false]
            exact keyLt_trans as bs cs h1 h2

/-- Two keys neither of which is less than the other are equal. -/
theorem keyLt_total : ∀ (a b : GoString), keyLt a b = false → keyLt b a = false → a = b
  | [], [], _, _ => rfl
  | [], _ :: _, h, _ => by simp [keyLt] at h
  | _ :: _, [], _, h => by simp [keyLt] at h
  | a :: as, b :: bs, h1, h2 => by
    simp only [keyLt] at h1 h2
    by_cases ab : a.toNat < b.toNat
    · simp [ab] at h1
    · by_cases ba : b.toNat < a.toNat
      · simp [ba] at h2
      · simp only [ab, ba, if_false] at h1 h2
        have e : a = b := by rw [char_eq_iff]; omega
        rw [e, keyLt_total as bs h1 h2]

/-- An entry of a map after an assignment is the one assigned or was there before. -/
theorem mem_mapSet {V : Type} (m : List (GoString × V)) (k : GoString) (v : V) :
    ∀ e, e ∈ mapSet m k v → e = (k, v) ∨ e ∈ m := by
  induction m with
  | nil => intro e he; simp [mapSet] at he; exact Or.inl he
  | cons x tl ih =>
    obtain ⟨k1, v1⟩ := x
    intro e he
    simp only [mapSet] at he
    by_cases h1 : k = k1
    · simp only [h1, if_true, List.mem_cons] at he
      rcases he with he | he
      · left; rw [he, h1]
      · right; exact List.mem_cons_of_mem _ he
    · simp only [h1, if_false] at he
      cases h2 : keyLt k k1
      · simp only [h2, Bool.false_eq_true, if_false, List.mem_cons] at he
        rcases he with he | he
        · right; rw [he]; exact List.mem_cons_self _ _
        · rcases ih e he with h | h
          · exact Or.inl h
          · right; exact List.mem_cons_of_mem _ h
      · simp only [h2, if_true, List.mem_cons] at he
        rcases he with he | he | he
        · exact Or.inl he
        · right; rw [he]; exact List.mem_cons_self _ _
        · right; exact List.mem_cons_of_mem _ he

/-- An assignment keeps the keys in increasing order. -/
theorem keysSorted_mapSet {V : Type} (m : List (GoString × V)) (k : GoString) (v : V)
    (h : KeysSorted m) : KeysSorted (mapSet m k v) := by
  induction m with
  | nil => simp [mapSet, KeysSorted]
  | cons x tl ih =>
    obtain ⟨k1, v1⟩ := x
    unfold KeysSorted at h ih ⊢
    rw [List.pairwise_cons] at h
    simp only [mapSet]
    by_cases h1 : k = k1
    · simp only [h1, if_true]
      rw [List.pairwise_cons]
      exact ⟨h.1, h.2⟩
    · simp only [h1, if_false]
      cases h2 : keyLt k k1
      · simp only [Bool.false_eq_true, if_false]
        rw [List.pairwise_cons]
        refine ⟨?_, ih h.2⟩
        intro e he
        rcases mem_mapSet tl k v e he with he | he
        · rw [he]
          cases h3 : keyLt k1 k
          · exact absurd (keyLt_total k k1 h2 h3) h1
          · rfl
        · exact h.1 e he
      · simp only [if_true]
        rw [List.pairwise_cons, List.pairwise_cons]
        refine ⟨?_, h.1, h.2⟩
        intro e he
        rcases List.mem_cons.mp he with he | he
        · rw [he]; exact h2
        · exact keyLt_trans _ _ _ h2 (h.1 e he)

/-- Assigning a key greater than all the keys of a map puts it last. -/
theorem mapSet_last {V : Type} (m : List (GoString × V)) (k : GoString) (v : V)
    (h : ∀ e ∈ m, keyLt e.1 k = true) : mapSet m k v = m ++ [(k, v)] := by
  induction m with
  | nil => rfl
  | cons x tl ih =>
    obtain ⟨k1, v1⟩ := x
    have hx : keyLt k1 k = true := h (k1, v1) (List.mem_cons_self _ _)
    have h1 : ¬ k = k1 := by
      intro e
      rw [e, keyLt_irrefl] at hx
      exact Bool.noConfusion hx
    have h2 : keyLt k k1 = false := keyLt_asymm _ _ hx
    simp only [mapSet, h1, h2, Bool.false_eq_true, if_false, List.cons_append]
    rw [ih (fun e he => h e (List.mem_cons_of_mem _ he))]

/-- Sorting entries that are in increasing order of key changes nothing. -/
theorem sortEntries_of_sorted (es : List (GoString × GoString)) (h : KeysSorted es) :
    sortEntries es = es := by
  induction es with
  | nil => rfl
  | cons e tl ih =>
    unfold KeysSorted at h ih
    rw [List.pairwise_cons] at h
    simp only [sortEntries]
    rw [ih h.2]
    cases tl with
    | nil => rfl
    | cons x xs =>
      have := h.1 x (List.mem_cons_self _ _)
      simp [insertEntry, this]

/-! ## Values the decoder produces -/

/-! ## White space -/

/-- Nothing is dropped in front of a character that is not white space. -/
theorem skipSpace_of_not_space (c : Char) (X : List Char) (h : isSpace c = false) :
    skipSpace (c :: X) = c :: X := by
  simp [skipSpace, h]

/-- Leading white space is dropped. -/
theorem skipSpace_spaces (ws X : List Char) (h : ∀ c ∈ ws, isSpace c = true) :
    skipSpace (ws ++ X) = skipSpace X := by
  induction ws with
  | nil => rfl
  | cons c ws ih =>
    have hc := h c (List.mem_cons_self _ _)
    simp only [List.cons_append, skipSpace, hc, if_true]
    exact ih (fun c hc => h c (List.mem_cons_of_mem _ hc))

/-- Dropping white space twice is dropping it once. -/
theorem skipSpace_idem (s : List Char) : skipSpace (skipSpace s) = skipSpace s := by
  induction s with
  | nil => rfl
  | cons c s ih =>
    by_cases hc : isSpace c = true
    · simp only [skipSpace, hc, if_true]; exact ih
    · simp only [skipSpace, hc, if_false]

/-- A line break of the layout is white space. -/
theorem newline_spaces (lay : Layout) (hl : LayoutOK lay) (k : Nat) :
    ∀ c ∈ newline lay k, isSpace c = true := by
  cases lay with
  | none => intro c hc; simp [newline] at hc
  | some unit =>
    intro c hc
    simp only [newline, List.mem_cons, List.mem_flatten, List.mem_replicate] at hc
    rcases hc with hc | ⟨l, ⟨-, hl2⟩, hc⟩
    · rw [hc]; decide
    · rw [hl2] at hc; exact hl c hc

/-- The line break of the layout is dropped. -/
theorem skipSpace_newline (lay : Layout) (hl : LayoutOK lay) (k : Nat) (X : List Char) :
    skipSpace (newline lay k ++ X) = skipSpace X :=
  skipSpace_spaces _ _ (newline_spaces lay hl k)

/-- Nothing is dropped in front of a value. -/
theorem skipSpace_startsValue (t X : List Char) (h : StartsValue t) :
    skipSpace (t ++ X) = t ++ X := by
  obtain ⟨c, t1, rfl, hc, -⟩ := h
  exact skipSpace_of_not_space c _ hc

/-- The decoder reads a value after any white space. -/
theorem parseValue_skipSpace (rt : GoRuntime) (fuel d : Nat) (s : List Char) :
    parseValue rt fuel d (skipSpace s) = parseValue rt fuel d s := by
  cases fuel with
  | zero => simp [parseValue]
  | succ f => rw [parseValue, parseValue, skipSpace_idem]

/-- The decoder reads the elements of an array after any white space. -/
theorem parseElems_skipSpace (rt : GoRuntime) (fuel d : Nat) (s : List Char) :
    parseElems rt fuel d (skipSpace s) = parseElems rt fuel d s := by
  cases fuel with
  | zero => simp [parseElems]
  | succ f => rw [parseElems, parseElems, parseValue_skipSpace]

/-- The decoder reads the members of an object after any white space. -/
theorem parseMembers_skipSpace (rt : GoRuntime) (fuel d : Nat) (acc : GoMap rt.Float64)
    (s : List Char) :
    parseMembers rt fuel d acc (skipSpace s) = parseMembers rt fuel d acc s := by
  cases fuel with
  | zero => simp [parseMembers]
  | succ f => rw [parseMembers, parseMembers, skipSpace_idem]

/-! ## What can follow a number -/

/-- A text that starts with a character that continues no number. -/
theorem numEnd_cons (c : Char) (X : List Char) (h : isNumChar c = false) : NumEnd (c :: X) := by
  intro c1 r e
  cases e
  exact h

/-- What follows an element of an array or object does not continue a number. -/
theorem numEnd_tailText (lay : Layout) (k : Nat) (cl : Char) (es : List GoString)
    (rest : List Char) (hcl : isNumChar cl = false) : NumEnd (tailText lay k cl es rest) := by
  cases es with
  | cons e es => exact numEnd_cons _ _ (by decide)
  | nil =>
    cases lay with
    | none => exact numEnd_cons _ _ hcl
    | some unit => exact numEnd_cons _ _ (by decide)

/-- After the last element comes the closing bracket. -/
theorem skipSpace_tailText_nil (lay : Layout) (hl : LayoutOK lay) (k : Nat) (cl : Char)
    (rest : List Char) (hcl : isSpace cl = false) :
    skipSpace (tailText lay k cl [] rest) = cl :: rest := by
  simp only [tailText, List.map_nil, List.flatten_nil, List.nil_append]
  rw [skipSpace_newline lay hl, skipSpace_of_not_space _ _ hcl]

/-- After an element that is not the last comes a comma. -/
theorem skipSpace_tailText_cons (lay : Layout) (k : Nat) (cl : Char) (e : GoString)
    (es : List GoString) (rest : List Char) :
    skipSpace (tailText lay k cl (e :: es) rest) =
      ',' :: (newline lay (k + 1) ++ (e ++ tailText lay k cl es rest)) := by
  simp only [tailText, List.map_cons, List.flatten_cons, List.cons_append, List.append_assoc]
  exact skipSpace_of_not_space _ _ (by decide)

/-- The text of a non-empty array or object, followed by `rest`. -/
theorem bracket_cons_append (lay : Layout) (k : Nat) (op cl : Char) (e : GoString)
    (es : List GoString) (rest : List Char) :
    bracket lay k op cl (e :: es) ++ rest =
      op :: (newline lay (k + 1) ++ (e ++ tailText lay k cl es rest)) := by
  simp [bracket, tailText, List.append_assoc]

/-- The length of what follows an element. -/
theorem length_tailText_cons (lay : Layout) (k : Nat) (cl : Char) (e : GoString)
    (es : List GoString) :
    (tailText lay k cl (e :: es) []).length =
      1 + (newline lay (k + 1)).length + e.length + (tailText lay k cl es []).length := by
  simp [tailText, List.length_append]
  omega

/-! ## Reading back what the encoder wrote -/

/-- The texts of the elements of a non-empty slice. -/
theorem encodeElems_cons (rt : GoRuntime) (lay : Layout) (k : Nat) (x : GoValue rt.Float64)
    (xs : List (GoValue rt.Float64)) (l : List GoString)
    (h : encodeElems rt lay k (x :: xs) = some l) :
    ∃ e es, l = e :: es ∧ encodeValue rt lay k x = some e ∧ encodeElems rt lay k xs = some es := by
  rw [encodeElems] at h
  cases h1 : encodeValue rt lay k x with
  | none => simp [h1] at h
  | some a =>
    cases h2 : encodeElems rt lay k xs with
    | none => simp [h1, h2] at h
    | some b =>
      simp only [h1, h2, Option.some.injEq] at h
      exact ⟨a, b, h.symm, rfl, rfl⟩

/-- Only the empty slice has no element text. -/
theorem encodeElems_nil_iff (rt : GoRuntime) (lay : Layout) (k : Nat)
    (xs : List (GoValue rt.Float64)) (h : encodeElems rt lay k xs = some []) : xs = [] := by
  cases xs with
  | nil => rfl
  | cons x xs =>
    obtain ⟨e, es, h1, -, -⟩ := encodeElems_cons rt lay k x xs [] h
    exact absurd h1 (by simp)

/-- The texts of the entries of a non-empty map. -/
theorem encodeEntries_cons (rt : GoRuntime) (lay : Layout) (k : Nat) (key : GoString)
    (x : GoValue rt.Float64) (xs : GoMap rt.Float64) (l : List (GoString × GoString))
    (h : encodeEntries rt lay k ((key, x) :: xs) = some l) :
    ∃ e es, l = (key, e) :: es ∧ encodeValue rt lay k x = some e ∧
      encodeEntries rt lay k xs = some es := by
  rw [encodeEntries] at h
  cases h1 : encodeValue rt lay k x with
  | none => simp [h1] at h
  | some a =>
    cases h2 : encodeEntries rt lay k xs with
    | none => simp [h1, h2] at h
    | some b =>
      simp only [h1, h2, Option.some.injEq] at h
      exact ⟨a, b, h.symm, rfl, rfl⟩

/-- Only the empty map has no entry text. -/
theorem encodeEntries_nil_iff (rt : GoRuntime) (lay : Layout) (k : Nat)
    (xs : GoMap rt.Float64) (h : encodeEntries rt lay k xs = some []) : xs = [] := by
  cases xs with
  | nil => rfl
  | cons x xs =>
    obtain ⟨key, v⟩ := x
    obtain ⟨e, es, h1, -, -⟩ := encodeEntries_cons rt lay k key v xs [] h
    exact absurd h1 (by simp)

/-- The encoder keeps the keys of a map, in their order. -/
theorem encodeEntries_keys (rt : GoRuntime) (lay : Layout) (k : Nat) :
    ∀ (m : GoMap rt.Float64) (es : List (GoString × GoString)),
      encodeEntries rt lay k m = some es → es.map Prod.fst = m.map Prod.fst
  | [], es, h => by
    rw [encodeEntries] at h
    cases h
    rfl
  | (key, x) :: xs, l, h => by
    obtain ⟨e, es, h1, -, h3⟩ := encodeEntries_cons rt lay k key x xs l h
    subst h1
    simp [encodeEntries_keys rt lay k xs es h3]

/-- Entries with the keys of sorted entries are sorted. -/
theorem keysSorted_of_keys {V W : Type} (m : List (GoString × V)) (es : List (GoString × W))
    (h : es.map Prod.fst = m.map Prod.fst) (hs : KeysSorted m) : KeysSorted es := by
  unfold KeysSorted at hs ⊢
  have h1 : (m.map Prod.fst).Pairwise (fun a b => keyLt a b = true) :=
    (List.pairwise_map).mpr hs
  rw [← h] at h1
  exact (List.pairwise_map).mp h1

/-- What follows an element is not empty: it holds the closing bracket. -/
theorem tailText_length_pos (lay : Layout) (k : Nat) (cl : Char) (es : List GoString) :
    0 < (tailText lay k cl es []).length := by
  simp [tailText, List.length_append]

/-- The decoder reads the elements after the line break of the layout. -/
theorem parseElems_newline (rt : GoRuntime) (lay : Layout) (hl : LayoutOK lay) (fuel d k : Nat)
    (t X : List Char) (ht : StartsValue t) :
    parseElems rt fuel d (newline lay k ++ (t ++ X)) = parseElems rt fuel d (t ++ X) := by
  rw [← parseElems_skipSpace, skipSpace_newline lay hl, skipSpace_startsValue t X ht]

/-- The decoder reads the members after the line break of the layout. -/
theorem parseMembers_newline (rt : GoRuntime) (lay : Layout) (hl : LayoutOK lay)
    (fuel d k : Nat) (acc : GoMap rt.Float64) (t X : List Char) (ht : StartsValue t) :
    parseMembers rt fuel d acc (newline lay k ++ (t ++ X)) =
      parseMembers rt fuel d acc (t ++ X) := by
  rw [← parseMembers_skipSpace, skipSpace_newline lay hl, skipSpace_startsValue t X ht]

/-- The text of a decoded value starts like a value. -/
theorem startsValue_encodeValue (rt : GoRuntime) (hrt : FloatRoundTrip rt) (lay : Layout)
    (k d : Nat) (v : GoValue rt.Float64) (t : GoString)
    (h : encodeValue rt lay k v = some t) (hd : Decoded rt d v) : StartsValue t := by
  cases v with
  | null =>
    simp only [encodeValue, Option.some.injEq] at h
    subst h
    exact ⟨'n', "ull".toList, rfl, by decide, by decide, by decide, by decide⟩
  | bool b =>
    simp only [encodeValue, Option.some.injEq] at h
    subst h
    cases b
    · exact ⟨'f', "alse".toList, rfl, by decide, by decide, by decide, by decide⟩
    · exact ⟨'t', "rue".toList, rfl, by decide, by decide, by decide, by decide⟩
  | int i => simp [Decoded] at hd
  | float64 f =>
    simp only [Decoded] at hd
    obtain ⟨lit, hlit⟩ := hd
    obtain ⟨s, h1, h2, -⟩ := hrt lit f hlit
    simp only [encodeValue, h1, Option.some.injEq] at h
    subst h
    obtain ⟨c, r, rfl, hc⟩ := readNumber_head s s [] h2
    refine ⟨c, r, rfl, ?_⟩
    rcases hc with hc | hc
    · subst hc; decide
    · simp only [isDigit, Bool.and_eq_true, decide_eq_true_eq] at hc
      simp only [isSpace, ne_eq, char_eq_iff]
      have e1 : ' '.toNat = 32 := by decide
      have e2 : ']'.toNat = 93 := by decide
      have e3 : (Char.ofNat 125).toNat = 125 := by decide
      have e4 : ','.toNat = 44 := by decide
      simp only [beq_iff_eq, char_eq_iff, e1, e2, e3, e4, Bool.or_eq_false_iff,
        beq_eq_false_iff_ne, ne_eq]
      omega
  | string s =>
    simp only [encodeValue, Option.some.injEq] at h
    subst h
    exact ⟨chQuote, _, rfl, by decide, by decide, by decide, by decide⟩
  | slice xs =>
    simp only [encodeValue, Option.map_eq_some'] at h
    obtain ⟨es, -, rfl⟩ := h
    cases es with
    | nil => exact ⟨'[', _, rfl, by decide, by decide, by decide, by decide⟩
    | cons e es => exact ⟨'[', _, rfl, by decide, by decide, by decide, by decide⟩
  | map m =>
    simp only [encodeValue, Option.map_eq_some'] at h
    obtain ⟨es, -, rfl⟩ := h
    cases hs : (sortEntries es).map (entryText rt lay) with
    | nil => exact ⟨Char.ofNat 123, _, rfl, by decide, by decide, by decide, by decide⟩
    | cons e es => exact ⟨Char.ofNat 123, _, rfl, by decide, by decide, by decide, by decide⟩

/-- A closing bracket continues no number. -/
theorem isNumChar_rbracket : isNumChar ']' = false := by decide
/-- A closing brace continues no number. -/
theorem isNumChar_rbrace : isNumChar (Char.ofNat 125) = false := by decide

/-- The elements of an array read back, given that each of them does. -/
theorem parseElems_readsBack (rt : GoRuntime) (hrt : FloatRoundTrip rt) (lay : Layout)
    (hl : LayoutOK lay) (k d : Nat) (rest : List Char) :
    ∀ (xs : List (GoValue rt.Float64)) (x : GoValue rt.Float64) (e : GoString)
      (es : List GoString) (fuel : Nat),
      (∀ y ∈ x :: xs, ReadsBack rt y) →
      encodeElems rt lay (k + 1) (x :: xs) = some (e :: es) →
      DecodedElems rt (d + 1) (x :: xs) →
      (e ++ tailText lay k ']' es []).length < fuel →
      parseElems rt fuel (d + 1) (e ++ tailText lay k ']' es rest) = some (x :: xs, rest) := by
  intro xs
  induction xs with
  | nil =>
    intro x e es fuel hrb henc hdec hlen
    obtain ⟨e1, es1, h1, h2, h3⟩ := encodeElems_cons rt lay (k + 1) x [] _ henc
    simp only [List.cons.injEq] at h1
    obtain ⟨rfl, rfl⟩ := h1
    rw [encodeElems] at h3
    cases h3
    cases fuel with
    | zero => omega
    | succ f =>
      have hpos := tailText_length_pos lay k ']' []
      rw [List.length_append] at hlen
      rw [parseElems, hrb x (List.mem_cons_self _ _) lay (k + 1) (d + 1) f e _ hl h2 hdec.1
        (by omega) (numEnd_tailText lay k ']' [] rest isNumChar_rbracket)]
      simp only [skipSpace_tailText_nil lay hl k ']' rest (by decide)]
      simp
  | cons x2 xs ih =>
    intro x e es fuel hrb henc hdec hlen
    obtain ⟨e1, es1, h1, h2, h3⟩ := encodeElems_cons rt lay (k + 1) x (x2 :: xs) _ henc
    simp only [List.cons.injEq] at h1
    obtain ⟨rfl, rfl⟩ := h1
    obtain ⟨e2, es2, rfl, h4, h5⟩ := encodeElems_cons rt lay (k + 1) x2 xs _ h3
    cases fuel with
    | zero => omega
    | succ f =>
      have hpos := tailText_length_pos lay k ']' es2
      rw [List.length_append, length_tailText_cons] at hlen
      rw [parseElems, hrb x (List.mem_cons_self _ _) lay (k + 1) (d + 1) f e _ hl h2 hdec.1
        (by omega) (numEnd_tailText lay k ']' _ rest isNumChar_rbracket)]
      simp only [skipSpace_tailText_cons, if_true]
      rw [parseElems_newline rt lay hl f (d + 1) (k + 1) e2 _
        (startsValue_encodeValue rt hrt lay (k + 1) (d + 1) x2 e2 h4 hdec.2.1)]
      rw [ih x2 e2 es2 f (fun y hy => hrb y (List.mem_cons_of_mem _ hy)) h3 hdec.2
        (by rw [List.length_append]; omega)]
      rfl

/-- The text of an entry starts with the quote of its key. -/
theorem startsValue_entryText (rt : GoRuntime) (lay : Layout) (e : GoString × GoString) :
    StartsValue (entryText rt lay e) :=
  ⟨chQuote, _, rfl, by decide, by decide, by decide, by decide⟩

/-- The text of an entry, character by character. -/
theorem entryText_append (rt : GoRuntime) (lay : Layout) (key e : GoString) (X : List Char) :
    entryText rt lay (key, e) ++ X =
      chQuote :: (quoteChars rt key ++ chQuote :: (colon lay ++ (e ++ X))) := by
  simp [entryText, quote]

/-- After the colon of an entry the decoder is at the value. -/
theorem colon_then_value (rt : GoRuntime) (lay : Layout) (fuel d : Nat) (X : List Char) :
    ∃ r2, skipSpace (colon lay ++ X) = ':' :: r2 ∧
      parseValue rt fuel d r2 = parseValue rt fuel d X := by
  cases lay with
  | none => exact ⟨X, skipSpace_of_not_space _ _ (by decide), rfl⟩
  | some unit =>
    refine ⟨' ' :: X, skipSpace_of_not_space _ _ (by decide), ?_⟩
    rw [← parseValue_skipSpace rt fuel d (' ' :: X)]
    have : skipSpace (' ' :: X) = skipSpace X := by simp [skipSpace, isSpace]
    rw [this, parseValue_skipSpace]

/-- The members of an object read back, given that each value does. -/
theorem parseMembers_readsBack (rt : GoRuntime) (lay : Layout)
    (hl : LayoutOK lay) (k d : Nat) (rest : List Char) :
    ∀ (m : GoMap rt.Float64) (key : GoString) (x : GoValue rt.Float64) (e : GoString)
      (es : List (GoString × GoString)) (acc : GoMap rt.Float64) (fuel : Nat),
      (∀ y ∈ (key, x) :: m, ReadsBack rt y.2) →
      encodeEntries rt lay (k + 1) ((key, x) :: m) = some ((key, e) :: es) →
      DecodedEntries rt (d + 1) ((key, x) :: m) →
      KeysSorted (acc ++ (key, x) :: m) →
      (entryText rt lay (key, e) ++
        tailText lay k (Char.ofNat 125) (es.map (entryText rt lay)) []).length < fuel →
      parseMembers rt fuel (d + 1) acc
          (entryText rt lay (key, e) ++
            tailText lay k (Char.ofNat 125) (es.map (entryText rt lay)) rest) =
        some (acc ++ (key, x) :: m, rest) := by
  intro m
  induction m with
  | nil =>
    intro key x e es acc fuel hrb henc hdec hsort hlen
    obtain ⟨e1, es1, h1, h2, h3⟩ := encodeEntries_cons rt lay (k + 1) key x [] _ henc
    simp only [List.cons.injEq, Prod.mk.injEq, true_and] at h1
    obtain ⟨rfl, rfl⟩ := h1
    rw [encodeEntries] at h3
    cases h3
    cases fuel with
    | zero => omega
    | succ f =>
      have hpos := tailText_length_pos lay k (Char.ofNat 125) []
      obtain ⟨r2, hr2, hpv⟩ := colon_then_value rt lay f (d + 1)
        (e ++ tailText lay k (Char.ofNat 125) [] rest)
      have hq : (quote rt key).length = (quoteChars rt key).length + 2 := by
        simp [quote]
      simp only [entryText, List.length_append, List.map_nil] at hlen
      have hlast : mapSet acc key x = acc ++ [(key, x)] := by
        apply mapSet_last
        intro a ha
        exact (List.pairwise_append.mp hsort).2.2 a ha (key, x) (List.mem_cons_self _ _)
      rw [parseMembers, entryText_append, skipSpace_of_not_space _ _ (by decide)]
      simp only [if_true, readString_quoteChars, List.map_nil, hr2, hpv]
      rw [hrb (key, x) (List.mem_cons_self _ _) lay (k + 1) (d + 1) f e _ hl h2 hdec.1
        (by omega) (numEnd_tailText lay k _ [] rest isNumChar_rbrace)]
      simp only [skipSpace_tailText_nil lay hl k _ rest (by decide : isSpace (Char.ofNat 125) = false)]
      simp [hlast]
  | cons kv m ih =>
    obtain ⟨key2, x2⟩ := kv
    intro key x e es acc fuel hrb henc hdec hsort hlen
    obtain ⟨e1, es1, h1, h2, h3⟩ := encodeEntries_cons rt lay (k + 1) key x _ _ henc
    simp only [List.cons.injEq, Prod.mk.injEq, true_and] at h1
    obtain ⟨rfl, rfl⟩ := h1
    obtain ⟨e2, es2, rfl, h4, h5⟩ := encodeEntries_cons rt lay (k + 1) key2 x2 m _ h3
    cases fuel with
    | zero => omega
    | succ f =>
      have hpos := tailText_length_pos lay k (Char.ofNat 125) (es2.map (entryText rt lay))
      obtain ⟨r2, hr2, hpv⟩ := colon_then_value rt lay f (d + 1)
        (e ++ tailText lay k (Char.ofNat 125)
          ((((key2, e2) :: es2)).map (entryText rt lay)) rest)
      have hlast : mapSet acc key x = acc ++ [(key, x)] := by
        apply mapSet_last
        intro a ha
        exact (List.pairwise_append.mp hsort).2.2 a ha (key, x) (List.mem_cons_self _ _)
      have hlen2 : (entryText rt lay (key, e)).length =
          (quote rt key).length + (colon lay).length + e.length := by
        simp [entryText, List.length_append]; omega
      rw [List.length_append, List.map_cons, length_tailText_cons, hlen2] at hlen
      rw [parseMembers, entryText_append, skipSpace_of_not_space _ _ (by decide)]
      simp only [if_true, readString_quoteChars, hr2, hpv]
      rw [hrb (key, x) (List.mem_cons_self _ _) lay (k + 1) (d + 1) f e _ hl h2 hdec.1
        (by omega) (numEnd_tailText lay k _ _ rest isNumChar_rbrace)]
      simp only [List.map_cons, skipSpace_tailText_cons, if_true]
      rw [parseMembers_newline rt lay hl f (d + 1) (k + 1) _ _ _
        (startsValue_entryText rt lay (key2, e2))]
      rw [hlast, ih key2 x2 e2 es2 (acc ++ [(key, x)]) f
        (fun y hy => hrb y (List.mem_cons_of_mem _ hy)) h3 hdec.2
        (by simpa using hsort)
        (by rw [List.length_append]; omega)]
      simp

/-- The decoder reads `null`. -/
theorem parseValue_null (rt : GoRuntime) (f d : Nat) (rest : List Char) :
    parseValue rt (f + 1) d ("null".toList ++ rest) = some (.null, rest) := by
  rw [parseValue]
  rfl

/-- The decoder reads `true`. -/
theorem parseValue_true (rt : GoRuntime) (f d : Nat) (rest : List Char) :
    parseValue rt (f + 1) d ("true".toList ++ rest) = some (.bool true, rest) := by
  rw [parseValue]
  rfl

/-- The decoder reads `false`. -/
theorem parseValue_false (rt : GoRuntime) (f d : Nat) (rest : List Char) :
    parseValue rt (f + 1) d ("false".toList ++ rest) = some (.bool false, rest) := by
  rw [parseValue]
  rfl

/-- The decoder reads a string literal the encoder wrote. -/
theorem parseValue_string (rt : GoRuntime) (f d : Nat) (s : GoString) (rest : List Char) :
    parseValue rt (f + 1) d (quote rt s ++ rest) = some (.string s, rest) := by
  have e1 : ¬ chQuote = Char.ofNat 123 := by decide
  have e2 : ¬ chQuote = '[' := by decide
  rw [parseValue]
  simp only [quote, List.cons_append, List.append_assoc, List.singleton_append]
  rw [skipSpace_of_not_space _ _ (by decide)]
  simp only [e1, e2, if_false, if_true, readString_quoteChars, Option.map_some',
    List.nil_append]

/-- The decoder reads a number literal followed by a text that does not continue it. -/
theorem parseValue_number (rt : GoRuntime) (f d : Nat) (s rest : List Char)
    (hs : readNumber s = some (s, [])) (hr : NumEnd rest) :
    parseValue rt (f + 1) d (s ++ rest) = some (numberValue rt s, rest) := by
  obtain ⟨c, r, rfl, hc⟩ := readNumber_head s s [] hs
  have hn := readNumber_append _ _ _ rest hs (fun _ => hr)
  have hsp : isSpace c = false := by
    rcases hc with hc | hc
    · subst hc; decide
    · simp only [isDigit, Bool.and_eq_true, decide_eq_true_eq] at hc
      have e1 : ' '.toNat = 32 := by decide
      simp only [isSpace, beq_iff_eq, char_eq_iff, e1, Bool.or_eq_false_iff,
        beq_eq_false_iff_ne, ne_eq]
      omega
  have e1 : ¬ c = Char.ofNat 123 := by
    have e : (Char.ofNat 123).toNat = 123 := by decide
    rcases hc with hc | hc
    · subst hc; decide
    · simp only [isDigit, Bool.and_eq_true, decide_eq_true_eq] at hc
      rw [char_eq_iff, e]; omega
  have e2 : ¬ c = '[' := by
    have e : '['.toNat = 91 := by decide
    rcases hc with hc | hc
    · subst hc; decide
    · simp only [isDigit, Bool.and_eq_true, decide_eq_true_eq] at hc
      rw [char_eq_iff, e]; omega
  have e3 : ¬ c = chQuote := by
    rcases hc with hc | hc
    · subst hc; decide
    · simp only [isDigit, Bool.and_eq_true, decide_eq_true_eq] at hc
      rw [char_eq_iff, chQuote_toNat]; omega
  rw [parseValue]
  simp only [List.cons_append] at hn ⊢
  rw [skipSpace_of_not_space _ _ hsp]
  simp only [e1, e2, e3, if_false, hc, if_true, hn, Option.map_some', List.nil_append]

/-- Every value reads back. -/
theorem readsBack (rt : GoRuntime) (hrt : FloatRoundTrip rt) :
    ∀ v : GoValue rt.Float64, ReadsBack rt v
  | .null => by
    intro lay k d fuel t rest _ henc _ hlen _
    simp only [encodeValue, Option.some.injEq] at henc
    subst henc
    cases fuel with
    | zero => omega
    | succ f => exact parseValue_null rt f d rest
  | .bool b => by
    intro lay k d fuel t rest _ henc _ hlen _
    simp only [encodeValue, Option.some.injEq] at henc
    subst henc
    cases fuel with
    | zero => omega
    | succ f =>
      cases b
      · exact parseValue_false rt f d rest
      · exact parseValue_true rt f d rest
  | .int i => by
    intro lay k d fuel t rest _ _ hdec _ _
    simp [Decoded] at hdec
  | .float64 x => by
    intro lay k d fuel t rest _ henc hdec hlen hrest
    simp only [Decoded] at hdec
    obtain ⟨lit, hlit⟩ := hdec
    obtain ⟨s, h1, h2, h3⟩ := hrt lit x hlit
    simp only [encodeValue, h1, Option.some.injEq] at henc
    subst henc
    cases fuel with
    | zero => omega
    | succ f =>
      rw [parseValue_number rt f d s rest h2 hrest]
      simp [numberValue, h3]
  | .string s => by
    intro lay k d fuel t rest _ henc _ hlen _
    simp only [encodeValue, Option.some.injEq] at henc
    subst henc
    cases fuel with
    | zero => omega
    | succ f => exact parseValue_string rt f d s rest
  | .slice xs => by
    intro lay k d fuel t rest hl henc hdec hlen hrest
    have ih : ∀ y ∈ xs, ReadsBack rt y := fun y _ => readsBack rt hrt y
    simp only [encodeValue, Option.map_eq_some'] at henc
    obtain ⟨es, henc, rfl⟩ := henc
    simp only [Decoded] at hdec
    have hdepth : ¬ maxNestingDepth < d + 1 := by omega
    have e1 : ¬ '[' = Char.ofNat 123 := by decide
    cases fuel with
    | zero => omega
    | succ f =>
      cases es with
      | nil =>
        have := encodeElems_nil_iff rt lay (k + 1) xs henc
        subst this
        rw [parseValue]
        simp only [bracket, List.cons_append, List.nil_append]
        rw [skipSpace_of_not_space _ _ (by decide)]
        simp only [e1, if_false, if_true, hdepth]
        rw [skipSpace_of_not_space _ _ (by decide)]
        simp only [if_true]
      | cons e es =>
        cases xs with
        | nil => rw [encodeElems] at henc; cases henc
        | cons x xs =>
          obtain ⟨e1', es1, h1, h2, h3⟩ := encodeElems_cons rt lay (k + 1) x xs _ henc
          simp only [List.cons.injEq] at h1
          obtain ⟨rfl, rfl⟩ := h1
          have hsv := startsValue_encodeValue rt hrt lay (k + 1) (d + 1) x e h2 hdec.2.1
          have hpe := parseElems_readsBack rt hrt lay hl k d rest xs x e es f ih henc hdec.2
            (by
              have := bracket_cons_append lay k '[' ']' e es []
              rw [List.append_nil] at this
              rw [this] at hlen
              simp only [List.length_cons, List.length_append] at hlen ⊢
              omega)
          rw [parseValue, bracket_cons_append, skipSpace_of_not_space _ _ (by decide)]
          simp only [e1, if_false, if_true, hdepth]
          rw [skipSpace_newline lay hl, skipSpace_startsValue _ _ hsv]
          obtain ⟨c, t1, rfl, -, hc, -⟩ := hsv
          simp only [List.cons_append] at hpe ⊢
          simp only [hc, if_false, hpe, Option.map_some']
  | .map m => by
    intro lay k d fuel t rest hl henc hdec hlen hrest
    have ih : ∀ y ∈ m, ReadsBack rt y.2 := fun y _ => readsBack rt hrt y.2
    simp only [encodeValue, Option.map_eq_some'] at henc
    obtain ⟨es, henc, rfl⟩ := henc
    simp only [Decoded] at hdec
    have hdepth : ¬ maxNestingDepth < d + 1 := by omega
    have hsorted : sortEntries es = es :=
      sortEntries_of_sorted es
        (keysSorted_of_keys m es (encodeEntries_keys rt lay (k + 1) m es henc) hdec.2.1)
    rw [hsorted] at hlen ⊢
    cases fuel with
    | zero => omega
    | succ f =>
      cases es with
      | nil =>
        have := encodeEntries_nil_iff rt lay (k + 1) m henc
        subst this
        rw [parseValue]
        simp only [List.map_nil, bracket, List.cons_append, List.nil_append]
        rw [skipSpace_of_not_space _ _ (by decide)]
        simp only [if_true, hdepth, if_false]
        rw [skipSpace_of_not_space _ _ (by decide)]
        simp only [if_true]
      | cons e es =>
        cases m with
        | nil => rw [encodeEntries] at henc; cases henc
        | cons kv m =>
          obtain ⟨key, x⟩ := kv
          obtain ⟨e1', es1, h1, h2, h3⟩ := encodeEntries_cons rt lay (k + 1) key x m _ henc
          simp only [List.cons.injEq] at h1
          obtain ⟨rfl, rfl⟩ := h1
          have hpm := parseMembers_readsBack rt lay hl k d rest m key x e1' es [] f ih henc
            hdec.2.2 (by simpa using hdec.2.1)
            (by
              have := bracket_cons_append lay k (Char.ofNat 123) (Char.ofNat 125)
                (entryText rt lay (key, e1')) (es.map (entryText rt lay)) []
              rw [List.append_nil] at this
              rw [List.map_cons, this] at hlen
              simp only [List.length_cons, List.length_append] at hlen ⊢
              omega)
          rw [parseValue, List.map_cons, bracket_cons_append,
            skipSpace_of_not_space _ _ (by decide)]
          simp only [if_true, hdepth, if_false]
          rw [skipSpace_newline lay hl,
            skipSpace_startsValue _ _ (startsValue_entryText rt lay (key, e1'))]
          rw [entryText_append] at hpm ⊢
          have hc : ¬ chQuote = Char.ofNat 125 := by decide
          simp only [hc, if_false, hpm, Option.map_some', List.nil_append]
termination_by v => sizeOf v
decreasing_by
  all_goals simp_wf
  · have := List.sizeOf_lt_of_mem ‹_ ∈ _›
    omega
  · have := List.sizeOf_lt_of_mem ‹_ ∈ _›
    have h2 : sizeOf y.2 < sizeOf y := by
      cases y
      simp
    omega

/-! ## What the decoder produces -/

/-- Assigning a decoded value keeps the values of a map decoded. -/
theorem decodedEntries_mapSet (rt : GoRuntime) (d : Nat) (k : GoString)
    (v : GoValue rt.Float64) (hv : Decoded rt d v) :
    ∀ acc : GoMap rt.Float64, DecodedEntries rt d acc → DecodedEntries rt d (mapSet acc k v)
  | [], _ => by
    simp only [mapSet, DecodedEntries]
    exact ⟨hv, trivial⟩
  | (k1, v1) :: tl, h => by
    simp only [DecodedEntries] at h
    simp only [mapSet]
    by_cases h1 : k = k1
    · simp only [h1, if_true, DecodedEntries]
      exact ⟨hv, h.2⟩
    · simp only [h1, if_false]
      cases h2 : keyLt k k1
      · simp only [Bool.false_eq_true, if_false, DecodedEntries]
        exact ⟨h.1, decodedEntries_mapSet rt d k v hv tl h.2⟩
      · simp only [if_true, DecodedEntries]
        exact ⟨hv, h.1, h.2⟩

/-- The value of a number literal is a decoded value. -/
theorem decoded_numberValue (rt : GoRuntime) (d : Nat) (lit : GoString) :
    Decoded rt d (numberValue rt lit) := by
  unfold numberValue
  cases h : rt.parseFloat lit with
  | none => simp [Decoded]
  | some f => simp only [Decoded]; exact ⟨lit, h⟩

/-- Whatever the decoder reads is a decoded value. -/
theorem decoded_of_parse (rt : GoRuntime) (fuel : Nat) :
    (∀ d s v r, parseValue rt fuel d s = some (v, r) → Decoded rt d v) ∧
    (∀ d s xs r, parseElems rt fuel d s = some (xs, r) → DecodedElems rt d xs) ∧
    (∀ d acc s m r, parseMembers rt fuel d acc s = some (m, r) → KeysSorted acc →
      DecodedEntries rt d acc → KeysSorted m ∧ DecodedEntries rt d m) := by
  induction fuel with
  | zero =>
    refine ⟨?_, ?_, ?_⟩
    · intro d s v r h; simp [parseValue] at h
    · intro d s xs r h; simp [parseElems] at h
    · intro d acc s m r h; simp [parseMembers] at h
  | succ f ih =>
    obtain ⟨ihv, ihe, ihm⟩ := ih
    refine ⟨?_, ?_, ?_⟩
    · intro d s v r h
      rw [parseValue] at h
      cases hs : skipSpace s with
      | nil => simp [hs] at h
      | cons c r0 =>
        simp only [hs] at h
        by_cases h1 : c = Char.ofNat 123
        · simp only [h1, if_true] at h
          by_cases hd : maxNestingDepth < d + 1
          · simp [hd] at h
          · simp only [hd, if_false] at h
            cases hs2 : skipSpace r0 with
            | nil => simp [hs2] at h
            | cons c2 r2 =>
              simp only [hs2] at h
              by_cases h2 : c2 = Char.ofNat 125
              · simp only [h2, if_true, Option.some.injEq, Prod.mk.injEq] at h
                rw [← h.1]
                simp only [Decoded, DecodedEntries, KeysSorted, List.Pairwise.nil, and_true]
                omega
              · simp only [h2, if_false, Option.map_eq_some', Prod.mk.injEq,
                  Prod.exists] at h
                obtain ⟨m, r1, hm, hv, -⟩ := h
                rw [← hv]
                have := ihm (d + 1) [] _ m r1 hm List.Pairwise.nil trivial
                simp only [Decoded]
                exact ⟨by omega, this.1, this.2⟩
        · simp only [h1, if_false] at h
          by_cases h2 : c = '['
          · simp only [h2, if_true] at h
            by_cases hd : maxNestingDepth < d + 1
            · simp [hd] at h
            · simp only [hd, if_false] at h
              cases hs2 : skipSpace r0 with
              | nil => simp [hs2] at h
              | cons c2 r2 =>
                simp only [hs2] at h
                by_cases h3 : c2 = ']'
                · simp only [h3, if_true, Option.some.injEq, Prod.mk.injEq] at h
                  rw [← h.1]
                  simp only [Decoded, DecodedElems, and_true]
                  omega
                · simp only [h3, if_false, Option.map_eq_some', Prod.mk.injEq,
                    Prod.exists] at h
                  obtain ⟨xs, r1, hx, hv, -⟩ := h
                  rw [← hv]
                  simp only [Decoded]
                  exact ⟨by omega, ihe (d + 1) _ xs r1 hx⟩
          · simp only [h2, if_false] at h
            by_cases h3 : c = chQuote
            · simp only [h3, if_true, Option.map_eq_some', Prod.mk.injEq, Prod.exists] at h
              obtain ⟨a, b, -, hv, -⟩ := h
              rw [← hv]
              simp [Decoded]
            · simp only [h3, if_false] at h
              by_cases h4 : c = '-' ∨ isDigit c = true
              · simp only [h4, if_true, Option.map_eq_some', Prod.mk.injEq, Prod.exists] at h
                obtain ⟨a, b, -, hv, -⟩ := h
                rw [← hv]
                exact decoded_numberValue rt d a
              · simp only [h4, if_false] at h
                by_cases h5 : c = 't'
                · simp only [h5, if_true, Option.map_eq_some', Prod.mk.injEq] at h
                  obtain ⟨a, -, hv, -⟩ := h
                  rw [← hv]
                  simp [Decoded]
                · simp only [h5, if_false] at h
                  by_cases h6 : c = 'f'
                  · simp only [h6, if_true, Option.map_eq_some', Prod.mk.injEq] at h
                    obtain ⟨a, -, hv, -⟩ := h
                    rw [← hv]
                    simp [Decoded]
                  · simp only [h6, if_false] at h
                    by_cases h7 : c = 'n'
                    · simp only [h7, if_true, Option.map_eq_some', Prod.mk.injEq] at h
                      obtain ⟨a, -, hv, -⟩ := h
                      rw [← hv]
                      simp [Decoded]
                    · simp [h7] at h
    · intro d s xs r h
      rw [parseElems] at h
      cases hp : parseValue rt f d s with
      | none => simp [hp] at h
      | some p =>
        obtain ⟨v, r0⟩ := p
        simp only [hp] at h
        cases hs : skipSpace r0 with
        | nil => simp [hs] at h
        | cons c r1 =>
          simp only [hs] at h
          by_cases h1 : c = ','
          · simp only [h1, if_true, Option.map_eq_some', Prod.mk.injEq, Prod.exists] at h
            obtain ⟨ys, r2, hy, hv, -⟩ := h
            rw [← hv]
            simp only [DecodedElems]
            exact ⟨ihv d s v r0 hp, ihe d r1 ys r2 hy⟩
          · simp only [h1, if_false] at h
            by_cases h2 : c = ']'
            · simp only [h2, if_true, Option.some.injEq, Prod.mk.injEq] at h
              rw [← h.1]
              simp only [DecodedElems, and_true]
              exact ihv d s v r0 hp
            · simp [h2] at h
    · intro d acc s m r h hsort hdec
      rw [parseMembers] at h
      cases hs : skipSpace s with
      | nil => simp [hs] at h
      | cons q r0 =>
        simp only [hs] at h
        by_cases hq : q = chQuote
        · simp only [hq, if_true] at h
          cases hk : readString r0 with
          | none => simp [hk] at h
          | some p =>
            obtain ⟨k, r1⟩ := p
            simp only [hk] at h
            cases hs1 : skipSpace r1 with
            | nil => simp [hs1] at h
            | cons c r2 =>
              simp only [hs1] at h
              by_cases hc : c = ':'
              · simp only [hc, if_true] at h
                cases hp : parseValue rt f d r2 with
                | none => simp [hp] at h
                | some p =>
                  obtain ⟨v, r3⟩ := p
                  simp only [hp] at h
                  have hv := ihv d r2 v r3 hp
                  cases hs3 : skipSpace r3 with
                  | nil => simp [hs3] at h
                  | cons c3 r4 =>
                    simp only [hs3] at h
                    by_cases h1 : c3 = ','
                    · simp only [h1, if_true] at h
                      exact ihm d _ r4 m r h (keysSorted_mapSet acc k v hsort)
                        (decodedEntries_mapSet rt d k v hv acc hdec)
                    · simp only [h1, if_false] at h
                      by_cases h2 : c3 = Char.ofNat 125
                      · simp only [h2, if_true, Option.some.injEq, Prod.mk.injEq] at h
                        rw [← h.1]
                        exact ⟨keysSorted_mapSet acc k v hsort,
                          decodedEntries_mapSet rt d k v hv acc hdec⟩
                      · simp [h2] at h
              · simp [hc] at h
        · simp [hq] at h

/-! ## Decoded values encode -/

/-- The elements of a slice encode when each of them does. -/
theorem encodeElems_some (rt : GoRuntime) (lay : Layout) (k : Nat) :
    ∀ xs : List (GoValue rt.Float64), (∀ x ∈ xs, ∃ t, encodeValue rt lay k x = some t) →
      ∃ es, encodeElems rt lay k xs = some es
  | [], _ => ⟨[], by rw [encodeElems]⟩
  | x :: xs, h => by
    obtain ⟨t, ht⟩ := h x (List.mem_cons_self _ _)
    obtain ⟨es, hes⟩ := encodeElems_some rt lay k xs
      (fun y hy => h y (List.mem_cons_of_mem _ hy))
    exact ⟨t :: es, by rw [encodeElems, ht, hes]⟩

/-- The entries of a map encode when each value does. -/
theorem encodeEntries_some (rt : GoRuntime) (lay : Layout) (k : Nat) :
    ∀ m : GoMap rt.Float64, (∀ e ∈ m, ∃ t, encodeValue rt lay k e.2 = some t) →
      ∃ es, encodeEntries rt lay k m = some es
  | [], _ => ⟨[], by rw [encodeEntries]⟩
  | (key, x) :: xs, h => by
    obtain ⟨t, ht⟩ := h (key, x) (List.mem_cons_self _ _)
    obtain ⟨es, hes⟩ := encodeEntries_some rt lay k xs
      (fun y hy => h y (List.mem_cons_of_mem _ hy))
    exact ⟨(key, t) :: es, by rw [encodeEntries, ht, hes]⟩

/-- The elements of a decoded slice are decoded values. -/
theorem decodedElems_mem (rt : GoRuntime) (d : Nat) :
    ∀ xs : List (GoValue rt.Float64), DecodedElems rt d xs → ∀ x ∈ xs, Decoded rt d x
  | [], _, x, hx => by simp at hx
  | y :: ys, h, x, hx => by
    simp only [DecodedElems] at h
    rcases List.mem_cons.mp hx with hx | hx
    · rw [hx]; exact h.1
    · exact decodedElems_mem rt d ys h.2 x hx

/-- The values of a decoded map are decoded values. -/
theorem decodedEntries_mem (rt : GoRuntime) (d : Nat) :
    ∀ m : GoMap rt.Float64, DecodedEntries rt d m → ∀ e ∈ m, Decoded rt d e.2
  | [], _, x, hx => by simp at hx
  | (key, y) :: ys, h, x, hx => by
    simp only [DecodedEntries] at h
    rcases List.mem_cons.mp hx with hx | hx
    · rw [hx]; exact h.1
    · exact decodedEntries_mem rt d ys h.2 x hx

/-- The encoder does not fail on a decoded value. -/
theorem encodeValue_some (rt : GoRuntime) (hrt : FloatRoundTrip rt) (lay : Layout) :
    ∀ (v : GoValue rt.Float64) (k d : Nat), Decoded rt d v →
      ∃ t, encodeValue rt lay k v = some t
  | .null, _, _, _ => ⟨_, by rw [encodeValue]⟩
  | .bool _, _, _, _ => ⟨_, by rw [encodeValue]⟩
  | .int _, _, _, h => by simp [Decoded] at h
  | .float64 f, _, _, h => by
    simp only [Decoded] at h
    obtain ⟨lit, hlit⟩ := h
    obtain ⟨s, h1, -, -⟩ := hrt lit f hlit
    exact ⟨s, by rw [encodeValue, h1]⟩
  | .string _, _, _, _ => ⟨_, by rw [encodeValue]⟩
  | .slice xs, k, d, h => by
    simp only [Decoded] at h
    obtain ⟨es, hes⟩ := encodeElems_some rt lay (k + 1) xs
      (fun x hx => encodeValue_some rt hrt lay x (k + 1) (d + 1)
        (decodedElems_mem rt (d + 1) xs h.2 x hx))
    exact ⟨_, by rw [encodeValue, hes]; rfl⟩
  | .map m, k, d, h => by
    simp only [Decoded] at h
    obtain ⟨es, hes⟩ := encodeEntries_some rt lay (k + 1) m
      (fun e he => encodeValue_some rt hrt lay e.2 (k + 1) (d + 1)
        (decodedEntries_mem rt (d + 1) m h.2.2 e he))
    exact ⟨_, by rw [encodeValue, hes]; rfl⟩
termination_by v => sizeOf v
decreasing_by
  all_goals simp_wf
  · have := List.sizeOf_lt_of_mem hx
    omega
  · have := List.sizeOf_lt_of_mem he
    have h2 : sizeOf e.2 < sizeOf e := by
      cases e
      simp
    omega

/-! ## Decoding what was printed -/

/-- The indent of the program, two spaces, is white space. -/
theorem layoutOK_two_spaces : LayoutOK (some "  ".toList) := by
  intro c hc
  simp only [String.toList, List.mem_cons, List.mem_singleton, List.not_mem_nil, or_false,
    or_self] at hc
  subst hc
  decide

/-- A result that is not nil was read as an object. -/
theorem decodeMap_eq_some (rt : GoRuntime) (body : GoString) (m : GoMap rt.Float64)
    (h : decodeMap rt body = some m) :
    ∃ r, parseValue rt (2 * body.length + 2) 0 body = some (.map m, r) := by
  unfold decodeMap at h
  split at h
  · next m1 r hm =>
    simp only [Option.some.injEq] at h
    subst h
    exact ⟨r, hm⟩
  · cases h

/-- The text `null` leaves the result nil. -/
theorem decodeMap_null (rt : GoRuntime) : decodeMap rt "null".toList = none := rfl

/-- Printing the result of a decode and decoding the printed text gives the
result again, and so the same text when printed again. -/
theorem decode_print_decode (rt : GoRuntime) (hrt : FloatRoundTrip rt) (body : GoString) :
    ∃ t, marshalMap rt (some "  ".toList) (decodeMap rt body) = some t ∧
      decodeMap rt t = decodeMap rt body := by
  cases hb : decodeMap rt body with
  | none => exact ⟨"null".toList, rfl, decodeMap_null rt⟩
  | some m =>
    obtain ⟨r, hr⟩ := decodeMap_eq_some rt body m hb
    have hdec := (decoded_of_parse rt _).1 0 body _ r hr
    obtain ⟨t, ht⟩ := encodeValue_some rt hrt (some "  ".toList) (.map m) 0 0 hdec
    refine ⟨t, ht, ?_⟩
    have := readsBack rt hrt (.map m) (some "  ".toList) 0 0 (2 * t.length + 2) t []
      layoutOK_two_spaces ht hdec (by omega) (by intro c r h; cases h)
    rw [List.append_nil] at this
    unfold decodeMap
    rw [this]

/-! ## The fuel of the decoder is enough -/

/-- Dropping white space does not lengthen a text. -/
theorem skipSpace_length (s : List Char) : (skipSpace s).length ≤ s.length := by
  induction s with
  | nil => simp [skipSpace]
  | cons c s ih =>
    cases hc : isSpace c
    · simp [skipSpace, hc]
    · simp only [skipSpace, hc, if_true, List.length_cons]; omega

/-- A string read with a character in front was read. -/
theorem consChar_some (c : Char) (x : Option (GoString × List Char)) (k : GoString)
    (r : List Char) (h : consChar c x = some (k, r)) : ∃ k1, x = some (k1, r) := by
  cases x with
  | none => simp [consChar] at h
  | some p =>
    obtain ⟨a, b⟩ := p
    simp only [consChar, Option.some.injEq, Prod.mk.injEq] at h
    exact ⟨a, by rw [h.2]⟩

/-- A string read after a pending surrogate was read. -/
theorem flushPending_some (p : Option Nat) (x : Option (GoString × List Char)) (k : GoString)
    (r : List Char) (h : flushPending p x = some (k, r)) : ∃ k1, x = some (k1, r) := by
  cases p with
  | none => exact ⟨k, h⟩
  | some n => exact consChar_some _ x k r h

/-- Reading a string literal consumes at least its closing quote. -/
theorem readStringFrom_length : ∀ (n : Nat) (s : List Char) (p : Option Nat) (k : GoString)
    (r : List Char), s.length ≤ n → readStringFrom p s = some (k, r) → r.length < s.length := by
  intro n
  induction n with
  | zero =>
    intro s p k r hn h
    cases s with
    | nil => rw [readStringFrom.eq_def] at h; simp at h
    | cons c s => simp at hn
  | succ n ih =>
    intro s p k r hn h
    rw [readStringFrom.eq_def] at h
    cases s with
    | nil => simp at h
    | cons c s =>
      simp only [List.length_cons] at hn ⊢
      simp only at h
      by_cases h1 : c = chQuote
      · simp only [h1, if_true] at h
        obtain ⟨k1, hk⟩ := flushPending_some _ _ _ _ h
        simp only [Option.some.injEq, Prod.mk.injEq] at hk
        rw [← hk.2]; omega
      · simp only [h1, if_false] at h
        by_cases h2 : c = chBackslash
        · simp only [h2, if_true] at h
          cases s with
          | nil => simp at h
          | cons e s1 =>
            simp only at h
            by_cases h3 : e = 'u'
            · simp only [h3, if_true] at h
              match s1, h with
              | a :: b :: c1 :: d1 :: s2, h =>
                simp only at h
                cases hx : hex4 a b c1 d1 with
                | none => simp [hx] at h
                | some m =>
                  simp only [hx] at h
                  have hl : s2.length ≤ n := by simp only [List.length_cons] at hn; omega
                  simp only [List.length_cons]
                  by_cases h4 : 56320 ≤ m ∧ m < 57344
                  · simp only [h4, and_self, if_true] at h
                    cases p with
                    | none =>
                      obtain ⟨k1, hk⟩ := consChar_some _ _ _ _ h
                      have := ih s2 _ _ _ hl hk
                      omega
                    | some hi =>
                      obtain ⟨k1, hk⟩ := consChar_some _ _ _ _ h
                      have := ih s2 _ _ _ hl hk
                      omega
                  · simp only [h4, if_false] at h
                    by_cases h5 : 55296 ≤ m ∧ m < 56320
                    · simp only [h5, and_self, if_true] at h
                      obtain ⟨k1, hk⟩ := flushPending_some _ _ _ _ h
                      have := ih s2 _ _ _ hl hk
                      omega
                    · simp only [h5, if_false] at h
                      obtain ⟨k1, hk⟩ := flushPending_some _ _ _ _ h
                      obtain ⟨k2, hk2⟩ := consChar_some _ _ _ _ hk
                      have := ih s2 _ _ _ hl hk2
                      omega
              | [], h => simp at h
              | [_], h => simp at h
              | [_, _], h => simp at h
              | [_, _, _], h => simp at h
            · simp only [h3, if_false] at h
              cases hu : unescape e with
              | none => simp [hu] at h
              | some ch =>
                simp only [hu] at h
                obtain ⟨k1, hk⟩ := flushPending_some _ _ _ _ h
                obtain ⟨k2, hk2⟩ := consChar_some _ _ _ _ hk
                have := ih s1 _ _ _ (by simp only [List.length_cons] at hn; omega) hk2
                simp only [List.length_cons]
                omega
        · simp only [h2, if_false] at h
          by_cases h3 : c.toNat < 32
          · simp [h3] at h
          · simp only [h3, if_false] at h
            obtain ⟨k1, hk⟩ := flushPending_some _ _ _ _ h
            obtain ⟨k2, hk2⟩ := consChar_some _ _ _ _ hk
            have := ih s _ _ _ (by omega) hk2
            omega

/-- Reading a string literal consumes text. -/
theorem readString_length (s : List Char) (k : GoString) (r : List Char)
    (h : readString s = some (k, r)) : r.length < s.length :=
  readStringFrom_length s.length s none k r (Nat.le_refl _) h

/-- Reading digits does not lengthen the text. -/
theorem readDigits_length (s l r : List Char) (h : readDigits s = some (l, r)) :
    r.length ≤ s.length := by
  unfold readDigits at h
  by_cases h0 : s.takeWhile isDigit = []
  · simp [h0] at h
  · simp only [h0, if_false, Option.some.injEq, Prod.mk.injEq] at h
    rw [← h.2]
    have := congrArg List.length (List.takeWhile_append_dropWhile isDigit s)
    rw [List.length_append] at this
    omega

/-- Reading an exponent does not lengthen the text. -/
theorem readExponent_length (s l r : List Char) (h : readExponent s = some (l, r)) :
    r.length ≤ s.length := by
  cases s with
  | nil =>
    simp only [readExponent, Option.some.injEq, Prod.mk.injEq] at h
    rw [← h.2]
  | cons e s1 =>
    by_cases he : e = 'e' ∨ e = 'E'
    · cases s1 with
      | nil => simp [readExponent, he] at h
      | cons sg s2 =>
        by_cases hsg : sg = '+' ∨ sg = '-'
        · simp only [readExponent, he, hsg, if_true, Option.map_eq_some', Prod.mk.injEq,
            Prod.exists] at h
          obtain ⟨a, b, hab, -, h2⟩ := h
          subst h2
          have := readDigits_length _ _ _ hab
          simp only [List.length_cons]; omega
        · simp only [readExponent, he, hsg, if_true, if_false, Option.map_eq_some',
            Prod.mk.injEq, Prod.exists] at h
          obtain ⟨a, b, hab, -, h2⟩ := h
          subst h2
          have := readDigits_length _ _ _ hab
          simp only [List.length_cons] at this ⊢; omega
    · simp only [readExponent, he, if_false, Option.some.injEq, Prod.mk.injEq] at h
      rw [← h.2]

/-- Reading a fraction does not lengthen the text. -/
theorem readFraction_length (s l r : List Char) (h : readFraction s = some (l, r)) :
    r.length ≤ s.length := by
  cases s with
  | nil =>
    simp only [readFraction, Option.some.injEq, Prod.mk.injEq] at h
    rw [← h.2]
  | cons d s1 =>
    by_cases hd : d = '.'
    · simp only [readFraction, hd, if_true] at h
      cases hdig : readDigits s1 with
      | none => simp [hdig] at h
      | some p =>
        obtain ⟨ds, r2⟩ := p
        simp only [hdig, Option.map_eq_some', Prod.mk.injEq, Prod.exists] at h
        obtain ⟨a, b, hab, -, h2⟩ := h
        subst h2
        have := readDigits_length _ _ _ hdig
        have := readExponent_length _ _ _ hab
        simp only [List.length_cons]; omega
    · simp only [readFraction, hd, if_false] at h
      exact readExponent_length _ _ _ h

/-- Reading an integer part consumes text. -/
theorem readInteger_length (s l r : List Char) (h : readInteger s = some (l, r)) :
    r.length < s.length := by
  cases s with
  | nil => simp [readInteger] at h
  | cons d s1 =>
    by_cases hd : d = '0'
    · simp only [readInteger, hd, if_true, Option.map_eq_some', Prod.mk.injEq,
        Prod.exists] at h
      obtain ⟨a, b, hab, -, h2⟩ := h
      subst h2
      have := readFraction_length _ _ _ hab
      simp only [List.length_cons]; omega
    · by_cases hdig : isDigit d = true
      · simp only [readInteger, hd, hdig, if_true, if_false, Option.map_eq_some',
          Prod.mk.injEq, Prod.exists] at h
        obtain ⟨a, b, hab, -, h2⟩ := h
        subst h2
        have := readFraction_length _ _ _ hab
        have h3 := congrArg List.length (List.takeWhile_append_dropWhile isDigit s1)
        rw [List.length_append] at h3
        simp only [List.length_cons]; omega
      · simp [readInteger, hd, hdig] at h

/-- Reading a number consumes text. -/
theorem readNumber_length (s l r : List Char) (h : readNumber s = some (l, r)) :
    r.length < s.length := by
  cases s with
  | nil => simp [readNumber] at h
  | cons c s1 =>
    by_cases hc : c = '-'
    · simp only [readNumber, hc, if_true, Option.map_eq_some', Prod.mk.injEq,
        Prod.exists] at h
      obtain ⟨a, b, hab, -, h2⟩ := h
      subst h2
      have := readInteger_length _ _ _ hab
      simp only [List.length_cons]; omega
    · simp only [readNumber, hc, if_false] at h
      exact readInteger_length _ _ _ h

/-- Stripping a word does not lengthen the text. -/
theorem stripWord_length : ∀ (w s r : List Char), stripWord w s = some r →
    r.length ≤ s.length
  | [], s, r, h => by
    simp only [stripWord, Option.some.injEq] at h
    rw [h]
  | _ :: _, [], r, h => by simp [stripWord] at h
  | l :: ls, c :: cs, r, h => by
    simp only [stripWord] at h
    by_cases hl : l = c
    · simp only [hl, if_true] at h
      have := stripWord_length ls cs r h
      simp only [List.length_cons]; omega
    · simp [hl] at h

/-- A successful read consumes text, and succeeds with the same result on any
fuel of at least twice the number of characters consumed. -/
theorem parse_fuel (rt : GoRuntime) (fuel : Nat) :
    (∀ d s v r, parseValue rt fuel d s = some (v, r) →
      r.length < s.length ∧
      ∀ f, 2 * (s.length - r.length) ≤ f + 1 → parseValue rt f d s = some (v, r)) ∧
    (∀ d s xs r, parseElems rt fuel d s = some (xs, r) →
      r.length < s.length ∧
      ∀ f, 2 * (s.length - r.length) ≤ f → parseElems rt f d s = some (xs, r)) ∧
    (∀ d acc s m r, parseMembers rt fuel d acc s = some (m, r) →
      r.length < s.length ∧
      ∀ f, 2 * (s.length - r.length) ≤ f → parseMembers rt f d acc s = some (m, r)) := by
  induction fuel with
  | zero =>
    refine ⟨?_, ?_, ?_⟩
    · intro d s v r h; simp [parseValue] at h
    · intro d s xs r h; simp [parseElems] at h
    · intro d acc s m r h; simp [parseMembers] at h
  | succ f0 ih =>
    obtain ⟨ihv, ihe, ihm⟩ := ih
    have ea : ¬ '[' = Char.ofNat 123 := by decide
    have eb : ¬ ']' = ',' := by decide
    have ec : ¬ Char.ofNat 125 = ',' := by decide
    refine ⟨?_, ?_, ?_⟩
    · intro d s v r h
      have hss := skipSpace_length s
      rw [parseValue] at h
      cases hs : skipSpace s with
      | nil => simp [hs] at h
      | cons c r0 =>
        rw [hs] at hss
        simp only [List.length_cons] at hss
        simp only [hs] at h
        by_cases h1 : c = Char.ofNat 123
        · simp only [h1, if_true] at h
          by_cases hd : maxNestingDepth < d + 1
          · simp [hd] at h
          · simp only [hd, if_false] at h
            have hss2 := skipSpace_length r0
            cases hs2 : skipSpace r0 with
            | nil => simp [hs2] at h
            | cons c2 r2 =>
              rw [hs2] at hss2
              simp only [List.length_cons] at hss2
              simp only [hs2] at h
              by_cases h2 : c2 = Char.ofNat 125
              · simp only [h2, if_true, Option.some.injEq, Prod.mk.injEq] at h
                obtain ⟨hv, hr⟩ := h
                subst hr
                refine ⟨by omega, ?_⟩
                intro f hf
                cases f with
                | zero => omega
                | succ f =>
                  rw [parseValue]
                  simp only [hs, h1, if_true, hd, if_false, hs2, h2, hv]
              · simp only [h2, if_false, Option.map_eq_some', Prod.mk.injEq,
                  Prod.exists] at h
                obtain ⟨m, r1, hm, hv, hr⟩ := h
                subst hr
                obtain ⟨hlt, hfu⟩ := ihm (d + 1) [] _ m r1 hm
                simp only [List.length_cons] at hlt hfu
                refine ⟨by omega, ?_⟩
                intro f hf
                cases f with
                | zero => omega
                | succ f =>
                  rw [parseValue]
                  simp only [hs, h1, if_true, hd, if_false, hs2, h2,
                    hfu f (by omega), Option.map_some', hv]
        · simp only [h1, if_false] at h
          by_cases h2 : c = '['
          · simp only [h2, if_true] at h
            by_cases hd : maxNestingDepth < d + 1
            · simp [hd] at h
            · simp only [hd, if_false] at h
              have hss2 := skipSpace_length r0
              cases hs2 : skipSpace r0 with
              | nil => simp [hs2] at h
              | cons c2 r2 =>
                rw [hs2] at hss2
                simp only [List.length_cons] at hss2
                simp only [hs2] at h
                by_cases h3 : c2 = ']'
                · simp only [h3, if_true, Option.some.injEq, Prod.mk.injEq] at h
                  obtain ⟨hv, hr⟩ := h
                  subst hr
                  refine ⟨by omega, ?_⟩
                  intro f hf
                  cases f with
                  | zero => omega
                  | succ f =>
                    rw [parseValue]
                    simp only [hs, h2, ea, if_true, hd, if_false, hs2, h3, hv]
                · simp only [h3, if_false, Option.map_eq_some', Prod.mk.injEq,
                    Prod.exists] at h
                  obtain ⟨xs, r1, hx, hv, hr⟩ := h
                  subst hr
                  obtain ⟨hlt, hfu⟩ := ihe (d + 1) _ xs r1 hx
                  simp only [List.length_cons] at hlt hfu
                  refine ⟨by omega, ?_⟩
                  intro f hf
                  cases f with
                  | zero => omega
                  | succ f =>
                    rw [parseValue]
                    simp only [hs, h2, ea, if_true, hd, if_false, hs2, h3,
                      hfu f (by omega), Option.map_some', hv]
          · simp only [h2, if_false] at h
            have hscalar : ∀ f, parseValue rt (f + 1) d s = parseValue rt (f0 + 1) d s := by
              intro f
              rw [parseValue, parseValue]
              simp only [hs, h1, h2, if_false]
            have hlen : r.length < s.length := by
              by_cases h3 : c = chQuote
              · simp only [h3, if_true, Option.map_eq_some', Prod.mk.injEq, Prod.exists] at h
                obtain ⟨a, b, hab, -, hr⟩ := h
                subst hr
                have := readString_length _ _ _ hab
                omega
              · simp only [h3, if_false] at h
                by_cases h4 : c = '-' ∨ isDigit c = true
                · simp only [h4, if_true, Option.map_eq_some', Prod.mk.injEq,
                    Prod.exists] at h
                  obtain ⟨a, b, hab, -, hr⟩ := h
                  subst hr
                  have := readNumber_length _ _ _ hab
                  simp only [List.length_cons] at this
                  omega
                · simp only [h4, if_false] at h
                  by_cases h5 : c = 't'
                  · simp only [h5, if_true, Option.map_eq_some', Prod.mk.injEq] at h
                    obtain ⟨a, ha, -, hr⟩ := h
                    subst hr
                    have := stripWord_length _ _ _ ha
                    omega
                  · simp only [h5, if_false] at h
                    by_cases h6 : c = 'f'
                    · simp only [h6, if_true, Option.map_eq_some', Prod.mk.injEq] at h
                      obtain ⟨a, ha, -, hr⟩ := h
                      subst hr
                      have := stripWord_length _ _ _ ha
                      omega
                    · simp only [h6, if_false] at h
                      by_cases h7 : c = 'n'
                      · simp only [h7, if_true, Option.map_eq_some', Prod.mk.injEq] at h
                        obtain ⟨a, ha, -, hr⟩ := h
                        subst hr
                        have := stripWord_length _ _ _ ha
                        omega
                      · simp [h7] at h
            refine ⟨hlen, ?_⟩
            intro f hf
            cases f with
            | zero => omega
            | succ f =>
              rw [hscalar f, parseValue]
              simp only [hs, h1, h2, if_false]
              exact h
    · intro d s xs r h
      rw [parseElems] at h
      cases hp : parseValue rt f0 d s with
      | none => simp [hp] at h
      | some p =>
        obtain ⟨v, r0⟩ := p
        simp only [hp] at h
        obtain ⟨hlt0, hfu0⟩ := ihv d s v r0 hp
        have hss := skipSpace_length r0
        cases hs : skipSpace r0 with
        | nil => simp [hs] at h
        | cons c r1 =>
          rw [hs] at hss
          simp only [List.length_cons] at hss
          simp only [hs] at h
          by_cases h1 : c = ','
          · simp only [h1, if_true, Option.map_eq_some', Prod.mk.injEq, Prod.exists] at h
            obtain ⟨ys, r2, hy, hv, hr⟩ := h
            subst hr
            obtain ⟨hlt1, hfu1⟩ := ihe d r1 ys r2 hy
            refine ⟨by omega, ?_⟩
            intro f hf
            cases f with
            | zero => omega
            | succ f =>
              rw [parseElems]
              simp only [hfu0 f (by omega), hs, h1, if_true, hfu1 f (by omega),
                Option.map_some', hv]
          · simp only [h1, if_false] at h
            by_cases h2 : c = ']'
            · simp only [h2, if_true, Option.some.injEq, Prod.mk.injEq] at h
              obtain ⟨hv, hr⟩ := h
              subst hr
              refine ⟨by omega, ?_⟩
              intro f hf
              cases f with
              | zero => omega
              | succ f =>
                rw [parseElems]
                simp only [hfu0 f (by omega), hs, h2, eb, if_false, if_true, hv]
            · simp [h2] at h
    · intro d acc s m r h
      have hss := skipSpace_length s
      rw [parseMembers] at h
      cases hs : skipSpace s with
      | nil => simp [hs] at h
      | cons q r0 =>
        rw [hs] at hss
        simp only [List.length_cons] at hss
        simp only [hs] at h
        by_cases hq : q = chQuote
        · simp only [hq, if_true] at h
          cases hk : readString r0 with
          | none => simp [hk] at h
          | some p =>
            obtain ⟨k, r1⟩ := p
            simp only [hk] at h
            have hkl := readString_length _ _ _ hk
            have hss1 := skipSpace_length r1
            cases hs1 : skipSpace r1 with
            | nil => simp [hs1] at h
            | cons c r2 =>
              rw [hs1] at hss1
              simp only [List.length_cons] at hss1
              simp only [hs1] at h
              by_cases hc : c = ':'
              · simp only [hc, if_true] at h
                cases hp : parseValue rt f0 d r2 with
                | none => simp [hp] at h
                | some p =>
                  obtain ⟨v, r3⟩ := p
                  simp only [hp] at h
                  obtain ⟨hlt0, hfu0⟩ := ihv d r2 v r3 hp
                  have hss3 := skipSpace_length r3
                  cases hs3 : skipSpace r3 with
                  | nil => simp [hs3] at h
                  | cons c3 r4 =>
                    rw [hs3] at hss3
                    simp only [List.length_cons] at hss3
                    simp only [hs3] at h
                    by_cases h1 : c3 = ','
                    · simp only [h1, if_true] at h
                      obtain ⟨hlt1, hfu1⟩ := ihm d _ r4 m r h
                      refine ⟨by omega, ?_⟩
                      intro f hf
                      cases f with
                      | zero => omega
                      | succ f =>
                        rw [parseMembers]
                        simp only [hs, hq, if_true, hk, hs1, hc, hfu0 f (by omega), hs3, h1,
                          hfu1 f (by omega)]
                    · simp only [h1, if_false] at h
                      by_cases h2 : c3 = Char.ofNat 125
                      · simp only [h2, if_true, Option.some.injEq, Prod.mk.injEq] at h
                        obtain ⟨hv, hr⟩ := h
                        subst hr
                        refine ⟨by omega, ?_⟩
                        intro f hf
                        cases f with
                        | zero => omega
                        | succ f =>
                          rw [parseMembers]
                          simp only [hs, hq, if_true, hk, hs1, hc, hfu0 f (by omega), hs3, h2,
                            ec, if_false, hv]
                      · simp [h2] at h
              · simp [hc] at h
        · simp [hq] at h

/-- The fuel `decodeMap` gives the decoder is enough: more fuel reads the same. -/
theorem parseValue_fuel_enough (rt : GoRuntime) (body : GoString) (fuel : Nat)
    (h : 2 * body.length + 2 ≤ fuel) :
    parseValue rt fuel 0 body = parseValue rt (2 * body.length + 2) 0 body := by
  cases h1 : parseValue rt (2 * body.length + 2) 0 body with
  | some p =>
    obtain ⟨v, r⟩ := p
    exact ((parse_fuel rt _).1 0 body v r h1).2 fuel (by omega)
  | none =>
    cases h2 : parseValue rt fuel 0 body with
    | none => rfl
    | some p =>
      obtain ⟨v, r⟩ := p
      have := ((parse_fuel rt _).1 0 body v r h2).2 (2 * body.length + 2) (by omega)
      rw [h1] at this
      cases this

/-! ## Rounding to the nearest `float64` -/

/-- Rounding sees the quotient only: a common factor changes nothing. -/
theorem roundHalfEven_mul (n d t : Nat) (ht : 0 < t) :
    roundHalfEven (n * t) (d * t) = roundHalfEven n d := by
  unfold roundHalfEven
  rw [Nat.mul_div_mul_right n d ht, Nat.mul_mod_mul_right]
  have h1 : 2 * (n % d * t) < d * t ↔ 2 * (n % d) < d := by
    rw [← Nat.mul_assoc]
    exact Nat.mul_lt_mul_right ht
  have h2 : 2 * (n % d * t) = d * t ↔ 2 * (n % d) = d := by
    rw [← Nat.mul_assoc]
    exact Nat.mul_left_inj (Nat.pos_iff_ne_zero.mp ht)
  simp only [h1, h2]

/-- The rounded quotient is the integer part or the next integer. -/
theorem roundHalfEven_bounds (n d : Nat) :
    n / d ≤ roundHalfEven n d ∧ roundHalfEven n d ≤ n / d + 1 := by
  unfold roundHalfEven
  split_ifs <;> omega

/-- An exact quotient is its own rounding. -/
theorem roundHalfEven_exact (m d : Nat) (hd : 0 < d) : roundHalfEven (m * d) d = m := by
  unfold roundHalfEven
  rw [Nat.mul_mod_left, Nat.mul_div_cancel m hd]
  simp [hd]

/-- The exponent search sees the quotient only. -/
theorem binaryExponent_mul (n d t : Nat) (ht : 0 < t) (fuel k : Nat) :
    binaryExponent (n * t) (d * t) fuel k = binaryExponent n d fuel k := by
  induction fuel generalizing k with
  | zero => rfl
  | succ fuel ih =>
    have e : d * t * 2 ^ k = d * 2 ^ k * t := by ring
    simp only [binaryExponent, e, Nat.mul_div_mul_right _ _ ht, ih]

/-- Rounding to a `float64` sees the quotient only. -/
theorem roundScaled_mul (n d t : Nat) (ht : 0 < t) :
    roundScaled (n * t) (d * t) = roundScaled n d := by
  unfold roundScaled
  have e : ∀ k, d * t * 2 ^ k = d * 2 ^ k * t := fun k => by ring
  simp only [binaryExponent_mul n d t ht, e, roundHalfEven_mul _ _ t ht]

/-- Two fractions that are equal round to the same `float64`. -/
theorem roundScaled_congr (n d n1 d1 : Nat) (hd : 0 < d) (hd1 : 0 < d1)
    (h : n * d1 = n1 * d) : roundScaled n d = roundScaled n1 d1 := by
  rw [← roundScaled_mul n d d1 hd1, h, Nat.mul_comm d d1, roundScaled_mul n1 d1 d hd]

/-- Two decimals that are equal round to the same `float64`. -/
theorem nearestFloat64_congr (n d n1 d1 : Nat) (hd : 0 < d) (hd1 : 0 < d1)
    (h : n * d1 = n1 * d) : nearestFloat64 n d = nearestFloat64 n1 d1 := by
  unfold nearestFloat64
  apply roundScaled_congr _ _ _ _ hd hd1
  calc n * 2 ^ 1074 * d1 = n * d1 * 2 ^ 1074 := by ring
    _ = n1 * d * 2 ^ 1074 := by rw [h]
    _ = n1 * 2 ^ 1074 * d := by ring

/-- What the exponent search returns: an exponent within the steps allowed, at
which the quotient fits unless the steps ran out, and before which it did
not. -/
theorem binaryExponent_spec (n d : Nat) (fuel k0 : Nat) :
    k0 ≤ binaryExponent n d fuel k0 ∧ binaryExponent n d fuel k0 ≤ k0 + fuel ∧
    (binaryExponent n d fuel k0 < k0 + fuel →
      n / (d * 2 ^ binaryExponent n d fuel k0) < 2 ^ 53) ∧
    (∀ i, k0 ≤ i → i < binaryExponent n d fuel k0 → 2 ^ 53 ≤ n / (d * 2 ^ i)) := by
  induction fuel generalizing k0 with
  | zero =>
    simp only [binaryExponent]
    exact ⟨le_refl _, le_refl _, fun h => absurd h (by omega), fun i h1 h2 => absurd h2 (by omega)⟩
  | succ fuel ih =>
    simp only [binaryExponent]
    by_cases h : n / (d * 2 ^ k0) < 2 ^ 53
    · rw [if_pos h]
      exact ⟨le_refl _, by omega, fun _ => h, fun i h1 h2 => absurd h2 (by omega)⟩
    · rw [if_neg h]
      obtain ⟨a, b, c, e⟩ := ih (k0 + 1)
      refine ⟨by omega, by omega, fun hlt => c (by omega), ?_⟩
      intro i h1 h2
      by_cases hi : i = k0
      · subst hi
        exact Nat.le_of_not_lt h
      · exact e i (by omega) h2

/-- Rounding returns the mantissa and the exponent of a `float64`. -/
theorem roundScaled_canonical (n d m k : Nat) (h : roundScaled n d = some (m, k)) :
    Canonical m k := by
  unfold roundScaled at h
  obtain ⟨a, b, c, e⟩ := binaryExponent_spec n d 2046 0
  generalize binaryExponent n d 2046 0 = k1 at h a b c e
  by_cases h1 : roundHalfEven n (d * 2 ^ k1) = 2 ^ 53
  · simp only [h1, if_true] at h
    by_cases h2 : k1 + 1 ≤ 2045
    · simp only [h2, if_true, Option.some.injEq, Prod.mk.injEq] at h
      obtain ⟨rfl, rfl⟩ := h
      exact ⟨by norm_num, h2, fun _ => le_refl _⟩
    · simp [h2] at h
  · simp only [h1, if_false] at h
    by_cases h2 : k1 ≤ 2045
    · simp only [h2, if_true, Option.some.injEq, Prod.mk.injEq] at h
      obtain ⟨rfl, rfl⟩ := h
      have hq := c (by omega)
      obtain ⟨lo, hi⟩ := roundHalfEven_bounds n (d * 2 ^ k1)
      refine ⟨by omega, h2, ?_⟩
      intro hk
      have hp := e (k1 - 1) (by omega) (by omega)
      have e2 : d * 2 ^ k1 = d * 2 ^ (k1 - 1) * 2 := by
        have : k1 = k1 - 1 + 1 := by omega
        conv_lhs => rw [this, pow_succ]
        ring
      have e3 : n / (d * 2 ^ k1) = n / (d * 2 ^ (k1 - 1)) / 2 := by
        rw [e2, ← Nat.div_div_eq_div_mul]
      rw [e3] at lo
      have h53 : (2 : Nat) ^ 53 = 2 ^ 52 * 2 := by norm_num
      have : 2 ^ 52 ≤ n / (d * 2 ^ (k1 - 1)) / 2 := by
        rw [Nat.le_div_iff_mul_le (by norm_num), ← h53]
        exact hp
      exact le_trans this lo
    · simp [h2] at h

/-- The search finds the exponent of a number that is a `float64`. -/
theorem binaryExponent_exact (m k : Nat) (hc : Canonical m k) (fuel i : Nat)
    (hi : i ≤ k) (hf : k < i + fuel) : binaryExponent (m * 2 ^ k) 1 fuel i = k := by
  induction fuel generalizing i with
  | zero => omega
  | succ fuel ih =>
    simp only [binaryExponent, Nat.one_mul]
    by_cases hik : i = k
    · subst hik
      rw [Nat.mul_div_cancel m (Nat.pos_pow_of_pos i (by norm_num))]
      rw [if_pos hc.1]
    · have hlt : i < k := by omega
      have e : m * 2 ^ k = m * 2 ^ (k - i) * 2 ^ i := by
        rw [Nat.mul_assoc, ← pow_add]
        congr 2
        omega
      rw [e, Nat.mul_div_cancel _ (Nat.pos_pow_of_pos i (by norm_num))]
      have h52 := hc.2.2 (by omega)
      have h2 : 2 ≤ 2 ^ (k - i) := by
        calc 2 = 2 ^ 1 := by norm_num
          _ ≤ 2 ^ (k - i) := Nat.pow_le_pow_right (by norm_num) (by omega)
      have hge : ¬ m * 2 ^ (k - i) < 2 ^ 53 := by
        have h3 : 2 ^ 52 * 2 ≤ m * 2 ^ (k - i) := Nat.mul_le_mul h52 h2
        have h53 : (2 : Nat) ^ 53 = 2 ^ 52 * 2 := by norm_num
        rw [h53]
        exact Nat.not_lt.mpr h3
      rw [if_neg hge, ← e]
      exact ih (i + 1) (by omega) (by omega)

/-- A number that is a `float64` rounds to itself. -/
theorem roundScaled_exact (m k : Nat) (hc : Canonical m k) :
    roundScaled (m * 2 ^ k) 1 = some (m, k) := by
  unfold roundScaled
  rw [binaryExponent_exact m k hc 2046 0 (by omega) (by have := hc.2.1; omega)]
  rw [Nat.one_mul, roundHalfEven_exact m _ (Nat.pos_pow_of_pos k (by norm_num))]
  have h1 : ¬ m = 2 ^ 53 := Nat.ne_of_lt hc.1
  rw [if_neg h1, if_pos hc.2.1]

/-- A decimal that rounds to a number other than zero is at least half the
least positive `float64`. -/
theorem roundScaled_lower (n d m k : Nat) (h : roundScaled n d = some (m, k)) (hm : 0 < m) :
    d ≤ 2 * n := by
  by_contra hlt
  have hlt : 2 * n < d := by omega
  have hq : n / (d * 2 ^ 0) = 0 := by
    rw [pow_zero, Nat.mul_one]
    exact Nat.div_eq_of_lt (by omega)
  have hk : binaryExponent n d 2046 0 = 0 := by
    show binaryExponent n d (2045 + 1) 0 = 0
    unfold binaryExponent
    rw [hq, if_pos (Nat.pos_pow_of_pos 53 (by norm_num))]
  unfold roundScaled at h
  rw [hk] at h
  have hr : roundHalfEven n (d * 2 ^ 0) = 0 := by
    unfold roundHalfEven
    rw [pow_zero, Nat.mul_one, Nat.mod_eq_of_lt (by omega), Nat.div_eq_of_lt (by omega)]
    rw [if_pos hlt]
  rw [hr, if_neg (Nat.ne_of_lt (Nat.pos_pow_of_pos 53 (by norm_num))),
    if_pos (Nat.zero_le _)] at h
  simp only [Option.some.injEq, Prod.mk.injEq] at h
  omega

/-- A decimal that rounds to a `float64` is below `2^1024`. -/
theorem roundScaled_upper (n d m k : Nat) (hd : 0 < d) (h : roundScaled n d = some (m, k)) :
    n < d * (2 ^ 1024 * 2 ^ 1074) := by
  unfold roundScaled at h
  obtain ⟨a, b, c, e⟩ := binaryExponent_spec n d 2046 0
  generalize binaryExponent n d 2046 0 = k1 at h a b c e
  have hk1 : k1 ≤ 2045 := by
    by_contra hk
    have x1 : ¬ k1 + 1 ≤ 2045 := by omega
    simp [hk, x1] at h
  have hq := c (by omega)
  have hpos : 0 < d * 2 ^ k1 := Nat.mul_pos hd (Nat.pos_pow_of_pos k1 (by norm_num))
  rw [Nat.div_lt_iff_lt_mul hpos] at hq
  calc n < 2 ^ 53 * (d * 2 ^ k1) := hq
    _ = d * (2 ^ 53 * 2 ^ k1) := by ring
    _ = d * 2 ^ (53 + k1) := by rw [← pow_add]
    _ ≤ d * 2 ^ (1024 + 1074) :=
      Nat.mul_le_mul_left d (pow_le_pow_right₀ (by norm_num) (by omega))
    _ = d * (2 ^ 1024 * 2 ^ 1074) := by rw [pow_add]

/-! ## The decimals that round to a given `float64` -/

/-- A quotient between `m - 1/2` and `m + 1/2` rounds to `m`, the ends included
when `m` is even. -/
theorem roundHalfEven_eq (n d m : Nat) (hd : 0 < d)
    (hlo : (2 * m + 1) * d < 2 * n ∨ ((m + 1) % 2 = 0 ∧ (2 * m + 1) * d = 2 * n))
    (hhi : 2 * n < (2 * (m + 1) + 1) * d ∨ ((m + 1) % 2 = 0 ∧ 2 * n = (2 * (m + 1) + 1) * d)) :
    roundHalfEven n d = m + 1 := by
  unfold roundHalfEven
  have hn : d * (n / d) + n % d = n := Nat.div_add_mod n d
  have hr : n % d < d := Nat.mod_lt _ hd
  generalize n / d = q at hn
  generalize n % d = r at hn hr
  have e1 : (2 * m + 1) * d = 2 * (d * m) + d := by ring
  have e2 : (2 * (m + 1) + 1) * d = 2 * (d * m) + 3 * d := by ring
  rw [e1] at hlo
  rw [e2] at hhi
  have hq1 : m ≤ q := by
    by_contra h
    have h1 : d * (q + 1) ≤ d * m := Nat.mul_le_mul_left d (by omega)
    rw [Nat.mul_add, Nat.mul_one] at h1
    omega
  have hq2 : q ≤ m + 1 := by
    by_contra h
    have h1 : d * (m + 2) ≤ d * q := Nat.mul_le_mul_left d (by omega)
    rw [Nat.mul_add] at h1
    omega
  by_cases hqm : q = m
  · subst hqm
    have h1 : ¬ 2 * r < d := by omega
    rw [if_neg h1]
    by_cases h2 : 2 * r = d
    · rw [if_pos h2]
      have h3 : ¬ q % 2 = 0 := by omega
      rw [if_neg h3]
    · rw [if_neg h2]
  · have hq : q = m + 1 := by omega
    subst hq
    rw [Nat.mul_add, Nat.mul_one] at hn
    by_cases h1 : 2 * r < d
    · rw [if_pos h1]
    · rw [if_neg h1]
      have h2 : 2 * r = d := by omega
      rw [if_pos h2]
      have h3 : (m + 1) % 2 = 0 := by omega
      rw [if_pos h3]

/-- The exponent the search finds: the one at which the quotient fits and
before which it does not. -/
theorem binaryExponent_eq (n d k : Nat) (hd : 0 < d) (hk : k ≤ 2045)
    (h1 : n < 2 ^ 53 * (d * 2 ^ k))
    (h2 : 0 < k → 2 ^ 53 * (d * 2 ^ (k - 1)) ≤ n) :
    binaryExponent n d 2046 0 = k := by
  obtain ⟨-, b, c, e⟩ := binaryExponent_spec n d 2046 0
  generalize binaryExponent n d 2046 0 = k1 at b c e
  have hpos : ∀ i, 0 < d * 2 ^ i := fun i => Nat.mul_pos hd (Nat.pos_pow_of_pos i (by norm_num))
  by_contra hne
  rcases Nat.lt_or_gt_of_ne hne with hlt | hgt
  · -- the search stopped too early
    have h3 := c (by omega)
    rw [Nat.div_lt_iff_lt_mul (hpos k1)] at h3
    have h4 := h2 (by omega)
    have h5 : d * 2 ^ k1 ≤ d * 2 ^ (k - 1) :=
      Nat.mul_le_mul_left d (Nat.pow_le_pow_right (by norm_num) (by omega))
    have h6 : 2 ^ 53 * (d * 2 ^ k1) ≤ 2 ^ 53 * (d * 2 ^ (k - 1)) := Nat.mul_le_mul_left _ h5
    omega
  · -- the search went too far
    have h3 := e k (Nat.zero_le k) hgt
    rw [Nat.le_div_iff_mul_le (hpos k)] at h3
    omega

/-- The lower bound of a `float64` is below it. -/
theorem lowerBound_lt (m k : Nat) (hm : 0 < m) : lowerBound m k < 2 * (m * 2 ^ k) := by
  unfold lowerBound
  have hX : 0 < 2 ^ k := Nat.pos_pow_of_pos k (by norm_num)
  by_cases h : 2 ^ 52 < m ∨ k = 0
  · rw [if_pos h]
    have e : 2 * (m * 2 ^ k) = (2 * (m - 1) + 1) * 2 ^ k + 2 ^ k := by
      have : 2 * (m - 1) + 1 + 1 = 2 * m := by omega
      calc 2 * (m * 2 ^ k) = (2 * m) * 2 ^ k := by ring
        _ = (2 * (m - 1) + 1 + 1) * 2 ^ k := by rw [this]
        _ = (2 * (m - 1) + 1) * 2 ^ k + 2 ^ k := by ring
    omega
  · rw [if_neg h]
    have hk : 0 < k := by
      by_contra h0
      exact h (Or.inr (by omega))
    have hX1 : 0 < 2 ^ (k - 1) := Nat.pos_pow_of_pos _ (by norm_num)
    have e0 : 2 ^ k = 2 ^ (k - 1) * 2 := by
      have : k = k - 1 + 1 := by omega
      conv_lhs => rw [this, pow_succ]
    have e : 2 * (m * 2 ^ k) = (2 * (2 * m - 1) + 1) * 2 ^ (k - 1) + 2 ^ (k - 1) := by
      have : 2 * (2 * m - 1) + 1 + 1 = 4 * m := by omega
      calc 2 * (m * 2 ^ k) = (4 * m) * 2 ^ (k - 1) := by rw [e0]; ring
        _ = (2 * (2 * m - 1) + 1 + 1) * 2 ^ (k - 1) := by rw [this]
        _ = (2 * (2 * m - 1) + 1) * 2 ^ (k - 1) + 2 ^ (k - 1) := by ring
    omega

/-- The upper bound of a `float64` is above it. -/
theorem lt_upperBound (m k : Nat) : 2 * (m * 2 ^ k) < upperBound m k := by
  unfold upperBound
  have hX : 0 < 2 ^ k := Nat.pos_pow_of_pos k (by norm_num)
  have e : (2 * m + 1) * 2 ^ k = 2 * (m * 2 ^ k) + 2 ^ k := by ring
  omega

/-- A decimal between the bounds of a `float64`, in the sense of `okDown` and
`okUp`, rounds to it. -/
theorem roundScaled_of_bounds (n d m k : Nat) (hc : Canonical m k) (hm : 0 < m) (hd : 0 < d)
    (hlo : lowerBound m k * d < 2 * n ∨ (m % 2 = 0 ∧ lowerBound m k * d = 2 * n))
    (hhi : 2 * n < upperBound m k * d ∨ (m % 2 = 0 ∧ 2 * n = upperBound m k * d)) :
    roundScaled n d = some (m, k) := by
  obtain ⟨hm53, hk, hm52⟩ := hc
  have hP : 0 < d * 2 ^ k := Nat.mul_pos hd (Nat.pos_pow_of_pos k (by norm_num))
  obtain ⟨m1, rfl⟩ : ∃ m1, m = m1 + 1 := ⟨m - 1, by omega⟩
  have eU : upperBound (m1 + 1) k * d = (2 * (m1 + 1) + 1) * (d * 2 ^ k) := by
    unfold upperBound
    ring
  rw [eU] at hhi
  have hfit : n < 2 ^ 53 * (d * 2 ^ k) := by
    have h1 : (2 * (m1 + 1) + 1) * (d * 2 ^ k) < (2 * 2 ^ 53) * (d * 2 ^ k) :=
      Nat.mul_lt_mul_of_pos_right (by omega) hP
    have h2 : (2 * 2 ^ 53) * (d * 2 ^ k) = 2 * (2 ^ 53 * (d * 2 ^ k)) := by ring
    omega
  have hfinish : binaryExponent n d 2046 0 = k → roundHalfEven n (d * 2 ^ k) = m1 + 1 →
      roundScaled n d = some (m1 + 1, k) := by
    intro h1 h2
    unfold roundScaled
    rw [h1, h2, if_neg (Nat.ne_of_lt hm53), if_pos hk]
  by_cases hA : 2 ^ 52 < m1 + 1 ∨ k = 0
  · -- the number below has the same exponent
    have eL : lowerBound (m1 + 1) k * d = (2 * m1 + 1) * (d * 2 ^ k) := by
      unfold lowerBound
      rw [if_pos hA, Nat.add_sub_cancel]
      ring
    rw [eL] at hlo
    apply hfinish
    · apply binaryExponent_eq n d k hd hk hfit
      intro hk0
      have hm : 2 ^ 52 < m1 + 1 := by
        rcases hA with h | h
        · exact h
        · omega
      have e0 : d * 2 ^ k = 2 * (d * 2 ^ (k - 1)) := by
        have : k = k - 1 + 1 := by omega
        conv_lhs => rw [this, pow_succ]
        ring
      rw [e0] at hlo
      have h53 : (2 : Nat) ^ 53 = 2 * 2 ^ 52 := by norm_num
      have h1 : 2 ^ 53 * (d * 2 ^ (k - 1)) ≤ (2 * m1 + 1) * (d * 2 ^ (k - 1)) :=
        Nat.mul_le_mul_right _ (by omega)
      have h2 : (2 * m1 + 1) * (2 * (d * 2 ^ (k - 1))) =
          2 * ((2 * m1 + 1) * (d * 2 ^ (k - 1))) := by ring
      omega
    · exact roundHalfEven_eq n (d * 2 ^ k) m1 hP hlo hhi
  · -- the number below has the exponent below: the mantissa is `2^52`
    rw [not_or] at hA
    obtain ⟨hA1, hA2⟩ := hA
    have hk0 : 0 < k := Nat.pos_of_ne_zero hA2
    have hm : m1 + 1 = 2 ^ 52 := by
      have := hm52 hk0
      omega
    have heven : (m1 + 1) % 2 = 0 := by
      rw [hm]
      norm_num
    have e0 : d * 2 ^ k = 2 * (d * 2 ^ (k - 1)) := by
      have : k = k - 1 + 1 := by omega
      conv_lhs => rw [this, pow_succ]
      ring
    have hP1 : 0 < d * 2 ^ (k - 1) := Nat.mul_pos hd (Nat.pos_pow_of_pos _ (by norm_num))
    have eL : lowerBound (m1 + 1) k * d = (2 * (2 * m1 + 1) + 1) * (d * 2 ^ (k - 1)) := by
      unfold lowerBound
      rw [if_neg (not_or.mpr ⟨hA1, hA2⟩)]
      have : 2 * (m1 + 1) - 1 = 2 * m1 + 1 := by omega
      rw [this]
      ring
    rw [eL] at hlo
    have h53 : (2 : Nat) ^ 53 = 2 * (m1 + 1) := by
      rw [hm]
      norm_num
    by_cases hB : (m1 + 1) * (d * 2 ^ k) ≤ n
    · -- at or above the number
      apply hfinish
      · apply binaryExponent_eq n d k hd hk hfit
        intro _
        rw [h53]
        calc 2 * (m1 + 1) * (d * 2 ^ (k - 1)) = (m1 + 1) * (2 * (d * 2 ^ (k - 1))) := by ring
          _ = (m1 + 1) * (d * 2 ^ k) := by rw [e0]
          _ ≤ n := hB
      · apply roundHalfEven_eq n (d * 2 ^ k) m1 hP _ hhi
        left
        have e1 : (m1 + 1) * (d * 2 ^ k) = m1 * (d * 2 ^ k) + d * 2 ^ k := by ring
        have e2 : (2 * m1 + 1) * (d * 2 ^ k) = 2 * (m1 * (d * 2 ^ k)) + d * 2 ^ k := by ring
        omega
    · -- below the number: the exponent is one less and the mantissa rounds to `2^53`
      have hB : n < (m1 + 1) * (d * 2 ^ k) := Nat.lt_of_not_le hB
      have hB1 : n < 2 ^ 53 * (d * 2 ^ (k - 1)) := by
        rw [h53]
        calc n < (m1 + 1) * (d * 2 ^ k) := hB
          _ = (m1 + 1) * (2 * (d * 2 ^ (k - 1))) := by rw [e0]
          _ = 2 * (m1 + 1) * (d * 2 ^ (k - 1)) := by ring
      have hexp : binaryExponent n d 2046 0 = k - 1 := by
        apply binaryExponent_eq n d (k - 1) hd (by omega) hB1
        intro hk1
        have e3 : d * 2 ^ (k - 1) = 2 * (d * 2 ^ (k - 1 - 1)) := by
          have : k - 1 = k - 1 - 1 + 1 := by omega
          conv_lhs => rw [this, pow_succ]
          ring
        rw [e3] at hlo
        have h1 : 2 ^ 53 * (d * 2 ^ (k - 1 - 1)) ≤
            (2 * (2 * m1 + 1) + 1) * (d * 2 ^ (k - 1 - 1)) :=
          Nat.mul_le_mul_right _ (by omega)
        have h2 : (2 * (2 * m1 + 1) + 1) * (2 * (d * 2 ^ (k - 1 - 1))) =
            2 * ((2 * (2 * m1 + 1) + 1) * (d * 2 ^ (k - 1 - 1))) := by ring
        omega
      have hround : roundHalfEven n (d * 2 ^ (k - 1)) = 2 ^ 53 := by
        rw [h53]
        have e4 : 2 * (m1 + 1) = (2 * m1 + 1) + 1 := by ring
        rw [e4]
        apply roundHalfEven_eq n (d * 2 ^ (k - 1)) (2 * m1 + 1) hP1
        · rcases hlo with h | ⟨-, h⟩
          · exact Or.inl h
          · exact Or.inr ⟨by omega, h⟩
        · left
          have e5 : (2 * (2 * m1 + 1 + 1) + 1) * (d * 2 ^ (k - 1)) =
              2 * ((m1 + 1) * (2 * (d * 2 ^ (k - 1)))) + d * 2 ^ (k - 1) := by ring
          rw [e5, ← e0]
          omega
      unfold roundScaled
      rw [hexp, hround, if_pos rfl]
      have e6 : k - 1 + 1 = k := by omega
      rw [e6, if_pos hk, ← hm]

/-! ## Decimal digits -/

/-- The code point of a digit character. -/
theorem digitChar_toNat (d : Nat) (h : d < 10) : (digitChar d).toNat = 48 + d := by
  interval_cases d <;> rfl

/-- A digit character is a digit. -/
theorem isDigit_digitChar (d : Nat) (h : d < 10) : isDigit (digitChar d) = true := by
  interval_cases d <;> rfl

/-- The digit zero is written for zero only. -/
theorem digitChar_ne_zero (d : Nat) (h : d < 10) (h0 : d ≠ 0) : digitChar d ≠ '0' := by
  interval_cases d <;> first | (exact absurd rfl h0) | decide

/-- A digit is none of the other characters of a number. -/
theorem not_digit_of_eq (c : Char) (h : isDigit c = true) :
    c ≠ '.' ∧ c ≠ 'e' ∧ c ≠ 'E' ∧ c ≠ '-' ∧ c ≠ '+' := by
  refine ⟨?_, ?_, ?_, ?_, ?_⟩ <;> (intro e; subst e; revert h; decide)

/-- The value of digits read after a number `v`. -/
theorem foldl_decimal (ds : List Char) (v : Nat) :
    ds.foldl (fun v c => 10 * v + (c.toNat - 48)) v =
      v * 10 ^ ds.length + decimalValue ds := by
  induction ds generalizing v with
  | nil => simp [decimalValue]
  | cons c r ih =>
    unfold decimalValue
    simp only [List.foldl_cons, List.length_cons]
    rw [ih, ih (10 * 0 + (c.toNat - 48))]
    ring

/-- The value of no digits. -/
theorem decimalValue_nil : decimalValue [] = 0 := rfl

/-- The value of two strings of digits, one after the other. -/
theorem decimalValue_append (a b : List Char) :
    decimalValue (a ++ b) = decimalValue a * 10 ^ b.length + decimalValue b := by
  unfold decimalValue
  rw [List.foldl_append, foldl_decimal]
  rfl

/-- The value of a digit followed by digits. -/
theorem decimalValue_cons (c : Char) (r : List Char) :
    decimalValue (c :: r) = (c.toNat - 48) * 10 ^ r.length + decimalValue r := by
  have := decimalValue_append [c] r
  simpa [decimalValue] using this

/-- The value of zeros. -/
theorem decimalValue_zeros (z : Nat) : decimalValue (List.replicate z '0') = 0 := by
  induction z with
  | zero => rfl
  | succ z ih =>
    rw [List.replicate_succ, decimalValue_cons, ih]
    show (48 - 48) * _ + 0 = 0
    simp

/-- Zeros in front do not change the value. -/
theorem decimalValue_zeros_append (z : Nat) (ds : List Char) :
    decimalValue (List.replicate z '0' ++ ds) = decimalValue ds := by
  rw [decimalValue_append, decimalValue_zeros]
  simp

/-- Zeros behind multiply the value by a power of ten. -/
theorem decimalValue_append_zeros (z : Nat) (ds : List Char) :
    decimalValue (ds ++ List.replicate z '0') = decimalValue ds * 10 ^ z := by
  rw [decimalValue_append, decimalValue_zeros]
  simp

/-- The digits of a number, last one first: each is a digit, they write the
number, there is one for a number that is not zero, and the last is not zero. -/
theorem digitsRev_spec (fuel n : Nat) (h : n ≤ fuel) :
    (∀ c ∈ digitsRev fuel n, isDigit c = true) ∧
    decimalValue (digitsRev fuel n).reverse = n ∧
    (0 < n → digitsRev fuel n ≠ []) ∧
    (∀ c, (digitsRev fuel n).getLast? = some c → c ≠ '0') ∧
    n < 10 ^ (digitsRev fuel n).length ∧
    (0 < n → 10 ^ ((digitsRev fuel n).length - 1) ≤ n) := by
  induction fuel generalizing n with
  | zero =>
    have : n = 0 := by omega
    subst this
    simp [digitsRev, decimalValue]
  | succ fuel ih =>
    unfold digitsRev
    by_cases h0 : n = 0
    · subst h0
      simp [decimalValue]
    · rw [if_neg h0]
      have hlt : n % 10 < 10 := Nat.mod_lt _ (by norm_num)
      obtain ⟨a, b, c, d, e, f⟩ := ih (n / 10) (by omega)
      refine ⟨?_, ?_, ?_, ?_, ?_, ?_⟩
      · intro x hx
        rcases List.mem_cons.mp hx with hx | hx
        · rw [hx]
          exact isDigit_digitChar _ hlt
        · exact a x hx
      · rw [List.reverse_cons, decimalValue_append, b]
        simp only [decimalValue, List.foldl_cons, List.foldl_nil, List.length_singleton,
          digitChar_toNat _ hlt]
        omega
      · intro _
        exact List.cons_ne_nil _ _
      · intro x hx
        by_cases hr : digitsRev fuel (n / 10) = []
        · rw [hr] at hx
          simp only [List.getLast?_singleton, Option.some.injEq] at hx
          subst hx
          have hz : n / 10 = 0 := by
            by_contra hne
            exact c (Nat.pos_of_ne_zero hne) hr
          exact digitChar_ne_zero _ hlt (by omega)
        · cases hl : digitsRev fuel (n / 10) with
          | nil => exact absurd hl hr
          | cons y ys =>
            rw [hl, List.getLast?_cons_cons, ← hl] at hx
            exact d x hx
      · rw [List.length_cons, pow_succ]
        omega
      · intro _
        rw [List.length_cons, Nat.add_sub_cancel]
        by_cases hz : n / 10 = 0
        · have hr : digitsRev fuel (n / 10) = [] := by
            rw [hz]
            cases fuel <;> simp [digitsRev]
          rw [hr]
          simp only [List.length_nil, pow_zero]
          omega
        · have hpos := Nat.pos_of_ne_zero hz
          have h1 := f hpos
          have h2 : 0 < (digitsRev fuel (n / 10)).length :=
            List.length_pos.mpr (c hpos)
          have e1 : (digitsRev fuel (n / 10)).length =
              ((digitsRev fuel (n / 10)).length - 1) + 1 := by omega
          rw [e1, pow_succ]
          omega

/-- The digits of a positive number: a digit that is not zero, then digits;
they write the number. -/
theorem decimalDigits_spec (n : Nat) (h : 0 < n) :
    (∃ d r, decimalDigits n = d :: r ∧ isDigit d = true ∧ d ≠ '0' ∧
      ∀ c ∈ r, isDigit c = true) ∧
    decimalValue (decimalDigits n) = n ∧
    n < 10 ^ (decimalDigits n).length ∧
    10 ^ ((decimalDigits n).length - 1) ≤ n := by
  obtain ⟨a, b, c, d, e, f⟩ := digitsRev_spec n n (le_refl n)
  unfold decimalDigits
  refine ⟨?_, b, ?_, ?_⟩
  · cases hrev : (digitsRev n n).reverse with
    | nil =>
      rw [List.reverse_eq_nil_iff] at hrev
      exact absurd hrev (c h)
    | cons x r =>
      refine ⟨x, r, rfl, ?_, ?_, ?_⟩
      · apply a
        rw [← List.mem_reverse, hrev]
        exact List.mem_cons_self _ _
      · apply d
        rw [← List.head?_reverse, hrev]
        rfl
      · intro y hy
        apply a
        rw [← List.mem_reverse, hrev]
        exact List.mem_cons_of_mem _ hy
  · rw [List.length_reverse]
    exact e
  · rw [List.length_reverse]
    exact f h

/-- Cutting the zeros that end a decimal keeps its value, and keeps it
positive. -/
theorem trimZeros_spec (fuel c drop : Nat) (hc : 0 < c) :
    (trimZeros fuel c drop).1 * 10 ^ (trimZeros fuel c drop).2 = c * 10 ^ drop ∧
    0 < (trimZeros fuel c drop).1 := by
  induction fuel generalizing c drop with
  | zero => exact ⟨rfl, hc⟩
  | succ fuel ih =>
    unfold trimZeros
    by_cases h : c % 10 = 0
    · rw [if_pos h]
      have hc10 : 0 < c / 10 := by omega
      obtain ⟨a, b⟩ := ih (c / 10) (drop + 1) hc10
      refine ⟨?_, b⟩
      rw [a, pow_succ]
      have : c = c / 10 * 10 := by omega
      conv_rhs => rw [this]
      ring
    · rw [if_neg h]
      exact ⟨rfl, hc⟩

/-! ## Reading a number literal -/

/-- Digits are read up to the first character that is not one. -/
theorem takeWhile_digits (ds rest : List Char) (hds : ∀ c ∈ ds, isDigit c = true)
    (hrest : ∀ c r, rest = c :: r → isDigit c = false) :
    (ds ++ rest).takeWhile isDigit = ds ∧ (ds ++ rest).dropWhile isDigit = rest := by
  induction ds with
  | nil =>
    cases rest with
    | nil => exact ⟨rfl, rfl⟩
    | cons c r =>
      have := hrest c r rfl
      simp [List.takeWhile, List.dropWhile, this]
  | cons d ds ih =>
    have hd := hds d (List.mem_cons_self _ _)
    obtain ⟨a, b⟩ := ih (fun c hc => hds c (List.mem_cons_of_mem _ hc))
    simp only [List.cons_append, List.takeWhile_cons, List.dropWhile_cons, hd, if_true]
    exact ⟨by rw [a], b⟩

/-- Digits with nothing after them. -/
theorem takeWhile_digits_nil (ds : List Char) (hds : ∀ c ∈ ds, isDigit c = true) :
    ds.takeWhile isDigit = ds ∧ ds.dropWhile isDigit = [] := by
  have := takeWhile_digits ds [] hds (fun c r h => by cases h)
  simpa using this

/-- The exponent written by one digit. -/
theorem exponentValue_one (a : Nat) (ha : a < 10) : exponentValue [digitChar a] = a := by
  simp [exponentValue, digitChar_toNat a ha]

/-- The exponent written by two digits. -/
theorem exponentValue_two (a b : Nat) (ha : a < 10) (hb : b < 10) :
    exponentValue [digitChar a, digitChar b] = a * 10 + b := by
  have h1 : a < 10000 := by omega
  simp [exponentValue, digitChar_toNat a ha, digitChar_toNat b hb, h1]

/-- The exponent written by three digits. -/
theorem exponentValue_three (a b c : Nat) (ha : a < 10) (hb : b < 10) (hc : c < 10) :
    exponentValue [digitChar a, digitChar b, digitChar c] = (a * 10 + b) * 10 + c := by
  have h1 : a < 10000 := by omega
  have h2 : a * 10 + b < 10000 := by omega
  simp [exponentValue, digitChar_toNat a ha, digitChar_toNat b hb, digitChar_toNat c hc, h1, h2]

/-- An exponent part does not start with a digit or a point. -/
theorem exponentPart_head (ex : List Char) (eneg : Bool) (e : Nat)
    (h : ExponentPart ex eneg e) :
    (∀ c r, ex = c :: r → isDigit c = false) ∧ (∀ c r, ex = c :: r → c ≠ '.') := by
  rcases h with ⟨rfl, -, -⟩ | ⟨X, -, -, -, ⟨rfl, -⟩ | ⟨rfl, -⟩⟩
  · exact ⟨fun c r h => (by cases h), fun c r h => (by cases h)⟩
  · constructor <;> intro c r h <;> cases h <;> decide
  · constructor <;> intro c r h <;> cases h <;> decide

/-- The scanner reads an exponent part to its end. -/
theorem readExponent_part (ex : List Char) (eneg : Bool) (e : Nat)
    (h : ExponentPart ex eneg e) : readExponent ex = some (ex, []) := by
  rcases h with ⟨rfl, -, -⟩ | ⟨X, hne, hX, -, ⟨rfl, -⟩ | ⟨rfl, -⟩⟩
  · rfl
  · obtain ⟨a, b⟩ := takeWhile_digits_nil X hX
    simp [readExponent, readDigits, a, b, hne]
  · obtain ⟨a, b⟩ := takeWhile_digits_nil X hX
    simp [readExponent, readDigits, a, b, hne]

/-- The scanner reads a fraction and an exponent to their end. -/
theorem readFraction_part (frac ex : List Char) (eneg : Bool) (e : Nat)
    (hfrac : ∀ c ∈ frac, isDigit c = true) (hex : ExponentPart ex eneg e) :
    readFraction (fractionPart frac ++ ex) = some (fractionPart frac ++ ex, []) := by
  obtain ⟨hd, hp⟩ := exponentPart_head ex eneg e hex
  unfold fractionPart
  by_cases hf : frac = []
  · rw [if_pos hf, List.nil_append]
    cases ex with
    | nil => rfl
    | cons c r =>
      have := hp c r rfl
      simp only [readFraction, this, if_false]
      exact readExponent_part _ _ _ hex
  · rw [if_neg hf]
    obtain ⟨a, b⟩ := takeWhile_digits frac ex hfrac hd
    simp only [List.cons_append, readFraction, if_true, readDigits, a, b, hf, if_false,
      readExponent_part _ _ _ hex, Option.map_some']

/-- The digits of an integer part. -/
theorem integerPart_digits (int : List Char) (h : IntegerPart int) :
    ∀ c ∈ int, isDigit c = true := by
  rcases h with rfl | ⟨d, r, rfl, hd, -, hr⟩
  · intro c hc
    simp only [List.mem_singleton] at hc
    subst hc
    rfl
  · intro c hc
    rcases List.mem_cons.mp hc with rfl | hc
    · exact hd
    · exact hr c hc

/-- The scanner reads an unsigned literal to its end. -/
theorem readInteger_literal (int frac ex : List Char) (eneg : Bool) (e : Nat)
    (hint : IntegerPart int) (hfrac : ∀ c ∈ frac, isDigit c = true)
    (hex : ExponentPart ex eneg e) :
    readInteger (int ++ (fractionPart frac ++ ex)) =
      some (int ++ (fractionPart frac ++ ex), []) := by
  have hrf := readFraction_part frac ex eneg e hfrac hex
  have hhead : ∀ c r, fractionPart frac ++ ex = c :: r → isDigit c = false := by
    intro c r h
    unfold fractionPart at h
    by_cases hf : frac = []
    · rw [if_pos hf, List.nil_append] at h
      exact (exponentPart_head ex eneg e hex).1 c r h
    · rw [if_neg hf] at h
      cases h
      rfl
  rcases hint with rfl | ⟨d, r, rfl, hd, hd0, hr⟩
  · simp only [List.cons_append, List.nil_append, readInteger, if_true, hrf, Option.map_some']
  · obtain ⟨a, b⟩ := takeWhile_digits r _ hr hhead
    simp only [List.cons_append, readInteger, hd0, if_false, hd, if_true, a, b, hrf,
      Option.map_some', List.append_assoc]

/-- The scanner reads a literal, signed or not, to its end. -/
theorem readNumber_literal (neg : Bool) (int frac ex : List Char) (eneg : Bool) (e : Nat)
    (hint : IntegerPart int) (hfrac : ∀ c ∈ frac, isDigit c = true)
    (hex : ExponentPart ex eneg e) :
    readNumber ((if neg then ['-'] else []) ++ (int ++ (fractionPart frac ++ ex))) =
      some ((if neg then ['-'] else []) ++ (int ++ (fractionPart frac ++ ex)), []) := by
  have h := readInteger_literal int frac ex eneg e hint hfrac hex
  cases neg with
  | true =>
    simp only [if_true, List.singleton_append, readNumber, h, Option.map_some']
  | false =>
    simp only [Bool.false_eq_true, if_false, List.nil_append]
    have hne : ∃ c r, int ++ (fractionPart frac ++ ex) = c :: r ∧ c ≠ '-' := by
      rcases hint with rfl | ⟨d, r, rfl, hd, -, -⟩
      · exact ⟨'0', _, rfl, by decide⟩
      · exact ⟨d, _, rfl, (not_digit_of_eq d hd).2.2.2.1⟩
    obtain ⟨c, r, hcr, hc⟩ := hne
    rw [hcr] at h ⊢
    simp only [readNumber, hc, if_false, h]

/-- What `ParseFloat` reads from an unsigned literal: its parts. -/
theorem readFloat_literal (int frac ex : List Char) (eneg : Bool) (e : Nat)
    (hint : IntegerPart int) (hfrac : ∀ c ∈ frac, isDigit c = true)
    (hex : ExponentPart ex eneg e) :
    readFloat (int ++ (fractionPart frac ++ ex)) = (int, frac, eneg, e) := by
  have hhead : ∀ c r, fractionPart frac ++ ex = c :: r → isDigit c = false := by
    intro c r h
    unfold fractionPart at h
    by_cases hf : frac = []
    · rw [if_pos hf, List.nil_append] at h
      exact (exponentPart_head ex eneg e hex).1 c r h
    · rw [if_neg hf] at h
      cases h
      rfl
  obtain ⟨a, b⟩ := takeWhile_digits int _ (integerPart_digits int hint) hhead
  obtain ⟨hd, hp⟩ := exponentPart_head ex eneg e hex
  unfold readFloat
  simp only [a, b]
  by_cases hf : frac = []
  · subst hf
    simp only [fractionPart, if_true, List.nil_append]
    rcases hex with ⟨rfl, rfl, rfl⟩ | ⟨X, hne, hX, rfl, ⟨rfl, rfl⟩ | ⟨rfl, rfl⟩⟩
    · rfl
    · simp
    · simp
  · obtain ⟨a2, b2⟩ := takeWhile_digits frac ex hfrac hd
    simp only [fractionPart, hf, if_false, List.cons_append, if_true, a2, b2]
    rcases hex with ⟨rfl, rfl, rfl⟩ | ⟨X, hne, hX, rfl, ⟨rfl, rfl⟩ | ⟨rfl, rfl⟩⟩
    · rfl
    · simp
    · simp

/-! ## The texts of `%f` and `%e` -/

/-- The `float64` a literal is converted to, from the parts of the literal. -/
theorem ParseFloat_literal (neg : Bool) (int frac ex : List Char) (eneg : Bool) (e : Nat)
    (hint : IntegerPart int) (hfrac : ∀ c ∈ frac, isDigit c = true)
    (hex : ExponentPart ex eneg e) :
    ParseFloat (signText neg ++ (int ++ (fractionPart frac ++ ex))) =
      (if eneg then nearestFloat64 (decimalValue (int ++ frac)) (10 ^ (frac.length + e))
       else nearestFloat64 (decimalValue (int ++ frac) * 10 ^ e) (10 ^ frac.length)).map
        (fun p => Binary64.finite neg p.1 p.2) := by
  have hn := readNumber_literal neg int frac ex eneg e hint hfrac hex
  have hf := readFloat_literal int frac ex eneg e hint hfrac hex
  unfold ParseFloat signText
  rw [if_pos hn]
  cases neg with
  | true =>
    simp only [if_true, List.singleton_append, atof64, hf]
  | false =>
    simp only [Bool.false_eq_true, if_false, List.nil_append]
    have hne : ∃ c r, int ++ (fractionPart frac ++ ex) = c :: r ∧ c ≠ '-' := by
      rcases hint with rfl | ⟨d, r, rfl, hd, -, -⟩
      · exact ⟨'0', _, rfl, by decide⟩
      · exact ⟨d, _, rfl, (not_digit_of_eq d hd).2.2.2.1⟩
    obtain ⟨c, r, hcr, hc⟩ := hne
    have hf2 := hf
    rw [hcr] at hf2 ⊢
    simp only [hc, if_false, atof64, hf2]

/-- The text of `%f` when the decimal point is before the first digit. -/
theorem fmtF_small (neg : Bool) (ds : List Char) (dp : Int) (z : Nat) (hdp : dp = -(z : Int))
    (hds : ds ≠ []) :
    fmtF neg ds dp =
      signText neg ++ (['0'] ++ (fractionPart (List.replicate z '0' ++ ds) ++ [])) := by
  subst hdp
  have hl : 0 < ds.length := List.length_pos.mpr hds
  have h1 : ¬ (0 : Int) < -(z : Int) := by omega
  have h2 : (0 : Int) < (ds.length : Int) - -(z : Int) := by omega
  have h3 : (-(z : Int)).toNat = 0 := by omega
  have h4 : (- -(z : Int)).toNat = z := by omega
  have h5 : List.replicate z '0' ++ ds ≠ [] := by simp [hds]
  unfold fmtF signText fractionPart
  rw [if_neg h1, if_pos h2, h3, h4, if_neg h5]
  simp

/-- The text of `%f` when the decimal point is between two digits. -/
theorem fmtF_mid (neg : Bool) (ds : List Char) (dp : Int) (p : Nat) (hdp : dp = (p : Int))
    (h0 : 0 < p) (hp : p < ds.length) :
    fmtF neg ds dp = signText neg ++ (ds.take p ++ (fractionPart (ds.drop p) ++ [])) := by
  subst hdp
  have h1 : (0 : Int) < (p : Int) := by omega
  have h2 : (0 : Int) < (ds.length : Int) - (p : Int) := by omega
  have h3 : ((p : Int)).toNat = p := by omega
  have h4 : (-(p : Int)).toNat = 0 := by omega
  have h5 : ds.drop p ≠ [] := by
    intro h
    have := congrArg List.length h
    simp only [List.length_drop, List.length_nil] at this
    omega
  have h6 : p - ds.length = 0 := by omega
  unfold fmtF signText fractionPart
  rw [if_pos h1, if_pos h2, h3, h4, if_neg h5, h6]
  simp

/-- The text of `%f` when the decimal point is after the last digit. -/
theorem fmtF_big (neg : Bool) (ds : List Char) (dp : Int) (p : Nat) (hdp : dp = (p : Int))
    (h0 : 0 < p) (hp : ds.length ≤ p) :
    fmtF neg ds dp =
      signText neg ++ ((ds ++ List.replicate (p - ds.length) '0') ++ (fractionPart [] ++ [])) := by
  subst hdp
  have h1 : (0 : Int) < (p : Int) := by omega
  have h2 : ¬ (0 : Int) < (ds.length : Int) - (p : Int) := by omega
  have h3 : ((p : Int)).toNat = p := by omega
  unfold fmtF signText fractionPart
  rw [if_pos h1, if_neg h2, h3, List.take_of_length_le hp]
  simp

/-- The clean-up of an exponent of two digits. -/
theorem cleanExponent_two (pre : List Char) (sg a b : Char) (hsg : sg = '-' ∨ sg = '+') :
    cleanExponent (pre ++ ['e', sg, a, b]) =
      if a = '0' then pre ++ ['e', sg, b] else pre ++ ['e', sg, a, b] := by
  unfold cleanExponent
  simp only [List.reverse_append, List.reverse_cons, List.reverse_nil, List.nil_append,
    List.cons_append, List.singleton_append, true_and, hsg]
  by_cases h : a = '0'
  · simp [h]
  · simp [h]

/-- An exponent of three digits is left as it is. -/
theorem cleanExponent_three (pre : List Char) (sg a b c : Char) (hsg : sg ≠ 'e') :
    cleanExponent (pre ++ ['e', sg, a, b, c]) = pre ++ ['e', sg, a, b, c] := by
  unfold cleanExponent
  simp only [List.reverse_append, List.reverse_cons, List.reverse_nil, List.nil_append,
    List.cons_append, List.singleton_append, hsg, false_and, if_false]

/-- The text of `%e` after the clean-up of `floatEncoder`, for an exponent below
1000 in absolute value. -/
theorem fmtE_clean (neg : Bool) (d : Char) (r : List Char) (dp : Int)
    (hE : (dp - 1).natAbs < 1000) :
    ∃ ex, ExponentPart ex (decide (dp - 1 < 0)) (dp - 1).natAbs ∧
      cleanExponent (fmtE neg (d :: r) dp) = signText neg ++ ([d] ++ (fractionPart r ++ ex)) := by
  have hne : ¬ (d :: r) = [] := List.cons_ne_nil _ _
  have hfr : (if 0 < (((d :: r).length : Nat) : Int) - 1 then '.' :: (d :: r).tail else []) =
      fractionPart r := by
    unfold fractionPart
    cases r with
    | nil => simp
    | cons x xs =>
      have : (0 : Int) < (((d :: x :: xs).length : Nat) : Int) - 1 := by
        simp only [List.length_cons]
        omega
      rw [if_pos this]
      simp
  unfold fmtE fmtExponent
  simp only [hne, if_false, hfr, List.headD_cons]
  generalize hx : dp - 1 = x at hE
  generalize hEq : x.natAbs = E at hE
  have hsgs : ∀ b : Bool, ((if b then '-' else '+') = '-' ∨ (if b then '-' else '+') = '+') := by
    intro b
    cases b <;> simp
  have hsgne : ∀ b : Bool, (if b then '-' else '+') ≠ 'e' := by
    intro b
    cases b <;> decide
  have hsg : (if x < 0 then '-' else '+') = (if decide (x < 0) then '-' else '+') := by
    by_cases h : x < 0 <;> simp [h]
  rw [hsg]
  have hpart : ∀ X, X ≠ [] → (∀ c ∈ X, isDigit c = true) → E = exponentValue X →
      ExponentPart ('e' :: (if decide (x < 0) then '-' else '+') :: X) (decide (x < 0)) E := by
    intro X h1 h2 h3
    right
    refine ⟨X, h1, h2, h3, ?_⟩
    by_cases h : x < 0
    · left
      simp [h]
    · right
      simp [h]
  have hpre : ∀ X : List Char,
      signText neg ++ ([d] ++ (fractionPart r ++ 'e' :: (if decide (x < 0) then '-' else '+') :: X)) =
      (signText neg ++ ([d] ++ fractionPart r)) ++
        ('e' :: (if decide (x < 0) then '-' else '+') :: X) := by
    intro X
    simp
  have hpre2 : ∀ X : List Char,
      (if neg = true then ['-'] else []) ++ d :: fractionPart r ++
        'e' :: (if decide (x < 0) then '-' else '+') :: X =
      (signText neg ++ ([d] ++ fractionPart r)) ++
        ('e' :: (if decide (x < 0) then '-' else '+') :: X) := by
    intro X
    simp [signText]
  by_cases h10 : E < 10
  · refine ⟨_, hpart [digitChar E] (by simp) ?_ (exponentValue_one E h10).symm, ?_⟩
    · intro c hc
      simp only [List.mem_singleton] at hc
      rw [hc]
      exact isDigit_digitChar E h10
    · rw [if_pos h10, hpre, hpre2, cleanExponent_two _ _ _ _ (hsgs _)]
      simp
  · rw [if_neg h10]
    by_cases h100 : E < 100
    · have ha : E / 10 < 10 := by omega
      have hb : E % 10 < 10 := by omega
      refine ⟨_, hpart [digitChar (E / 10), digitChar (E % 10)] (by simp) ?_
        ((exponentValue_two _ _ ha hb).trans (by omega)).symm, ?_⟩
      · intro c hc
        simp only [List.mem_cons, List.mem_singleton, List.not_mem_nil, or_false] at hc
        rcases hc with rfl | rfl
        · exact isDigit_digitChar _ ha
        · exact isDigit_digitChar _ hb
      · rw [if_pos h100, hpre, hpre2, cleanExponent_two _ _ _ _ (hsgs _)]
        rw [if_neg (digitChar_ne_zero _ ha (by omega))]
    · have ha : E / 100 < 10 := by omega
      have hb : E / 10 % 10 < 10 := by omega
      have hc : E % 10 < 10 := by omega
      refine ⟨_, hpart [digitChar (E / 100), digitChar (E / 10 % 10), digitChar (E % 10)]
        (by simp) ?_ ((exponentValue_three _ _ _ ha hb hc).trans (by omega)).symm, ?_⟩
      · intro c hc
        simp only [List.mem_cons, List.mem_singleton, List.not_mem_nil, or_false] at hc
        rcases hc with rfl | rfl | rfl
        · exact isDigit_digitChar _ ha
        · exact isDigit_digitChar _ hb
        · exact isDigit_digitChar _ hc
      · rw [if_neg h100, hpre, hpre2, cleanExponent_three _ _ _ _ _ (hsgne _)]

/-! ## The written number reads back -/

/-- Two decimals with the same digits and the same exponent read as the same
`float64`. -/
theorem nearestFloat64_pow (c a b a1 b1 : Nat) (h : a + b1 = a1 + b) :
    nearestFloat64 (c * 10 ^ a) (10 ^ b) = nearestFloat64 (c * 10 ^ a1) (10 ^ b1) := by
  apply nearestFloat64_congr _ _ _ _ (Nat.pos_pow_of_pos _ (by norm_num))
    (Nat.pos_pow_of_pos _ (by norm_num))
  rw [Nat.mul_assoc, ← pow_add, Nat.mul_assoc, ← pow_add, h]

/-- The text of `%f` is a number literal that reads as the decimal written. -/
theorem fmtF_readsBack (neg : Bool) (c drop j : Nat) (hc : 0 < c) :
    readNumber (fmtF neg (decimalDigits c)
        (((decimalDigits c).length : Int) + (drop : Int) - (j : Int))) =
      some (fmtF neg (decimalDigits c)
        (((decimalDigits c).length : Int) + (drop : Int) - (j : Int)), []) ∧
    ParseFloat (fmtF neg (decimalDigits c)
        (((decimalDigits c).length : Int) + (drop : Int) - (j : Int))) =
      (nearestFloat64 (c * 10 ^ drop) (10 ^ j)).map (fun p => Binary64.finite neg p.1 p.2) := by
  obtain ⟨⟨d, r, hds, hd, hd0, hr⟩, hval, -, -⟩ := decimalDigits_spec c hc
  have hdig : ∀ x ∈ decimalDigits c, isDigit x = true := by
    intro x hx
    rw [hds] at hx
    rcases List.mem_cons.mp hx with rfl | hx
    · exact hd
    · exact hr x hx
  have hne : decimalDigits c ≠ [] := by
    rw [hds]
    exact List.cons_ne_nil _ _
  have hex : ExponentPart [] false 0 := Or.inl ⟨rfl, rfl, rfl⟩
  generalize hL : (decimalDigits c).length = L at *
  have hLpos : 0 < L := by
    rw [← hL]
    exact List.length_pos.mpr hne
  by_cases h1 : L + drop ≤ j
  · -- the point is before the first digit
    have hdp : ((L : Int) + (drop : Int) - (j : Int)) = -((j - (L + drop) : Nat) : Int) := by
      omega
    rw [fmtF_small neg _ _ (j - (L + drop)) hdp hne]
    have hint : IntegerPart ['0'] := Or.inl rfl
    have hfrac : ∀ x ∈ List.replicate (j - (L + drop)) '0' ++ decimalDigits c,
        isDigit x = true := by
      intro x hx
      rcases List.mem_append.mp hx with hx | hx
      · rw [List.eq_of_mem_replicate hx]
        rfl
      · exact hdig x hx
    refine ⟨readNumber_literal neg _ _ _ _ _ hint hfrac hex, ?_⟩
    rw [ParseFloat_literal neg _ _ _ _ _ hint hfrac hex]
    simp only [Bool.false_eq_true, if_false]
    refine congrArg (Option.map _) ?_
    have hv : decimalValue (['0'] ++ (List.replicate (j - (L + drop)) '0' ++ decimalDigits c)) =
        c := by
      have : ['0'] ++ (List.replicate (j - (L + drop)) '0' ++ decimalDigits c) =
          List.replicate (j - (L + drop) + 1) '0' ++ decimalDigits c := by
        rw [List.replicate_succ]
        rfl
      rw [this, decimalValue_zeros_append, hval]
    rw [hv]
    apply nearestFloat64_pow
    simp only [List.length_append, List.length_replicate, hL]
    omega
  · by_cases h2 : drop < j
    · -- the point is between two digits
      have hdp : ((L : Int) + (drop : Int) - (j : Int)) = ((L + drop - j : Nat) : Int) := by
        omega
      have hp0 : 0 < L + drop - j := by omega
      have hpl : L + drop - j < (decimalDigits c).length := by omega
      rw [fmtF_mid neg _ _ (L + drop - j) hdp hp0 hpl]
      have hint : IntegerPart ((decimalDigits c).take (L + drop - j)) := by
        right
        rw [hds]
        obtain ⟨q, hq⟩ : ∃ q, L + drop - j = q + 1 := ⟨L + drop - j - 1, by omega⟩
        rw [hq]
        exact ⟨d, r.take q, rfl, hd, hd0, fun x hx => hr x (List.mem_of_mem_take hx)⟩
      have hfrac : ∀ x ∈ (decimalDigits c).drop (L + drop - j), isDigit x = true :=
        fun x hx => hdig x (List.mem_of_mem_drop hx)
      refine ⟨readNumber_literal neg _ _ _ _ _ hint hfrac hex, ?_⟩
      rw [ParseFloat_literal neg _ _ _ _ _ hint hfrac hex]
      simp only [Bool.false_eq_true, if_false]
      refine congrArg (Option.map _) ?_
      rw [List.take_append_drop, hval]
      apply nearestFloat64_pow
      simp only [List.length_drop, hL]
      omega
    · -- the point is after the last digit
      have hdp : ((L : Int) + (drop : Int) - (j : Int)) = ((L + drop - j : Nat) : Int) := by
        omega
      have hp0 : 0 < L + drop - j := by omega
      have hpl : (decimalDigits c).length ≤ L + drop - j := by omega
      rw [fmtF_big neg _ _ (L + drop - j) hdp hp0 hpl]
      have hint : IntegerPart
          (decimalDigits c ++ List.replicate (L + drop - j - (decimalDigits c).length) '0') := by
        right
        rw [hds]
        refine ⟨d, r ++ List.replicate (L + drop - j - (d :: r).length) '0', rfl, hd, hd0, ?_⟩
        intro x hx
        rcases List.mem_append.mp hx with hx | hx
        · exact hr x hx
        · rw [List.eq_of_mem_replicate hx]
          rfl
      have hfrac : ∀ x ∈ ([] : List Char), isDigit x = true := fun x hx => by cases hx
      refine ⟨readNumber_literal neg _ _ _ _ _ hint hfrac hex, ?_⟩
      rw [ParseFloat_literal neg _ _ _ _ _ hint hfrac hex]
      simp only [Bool.false_eq_true, if_false, List.append_nil, List.length_nil]
      refine congrArg (Option.map _) ?_
      rw [decimalValue_append_zeros, hval, Nat.mul_assoc, ← pow_add]
      apply nearestFloat64_pow
      rw [hL]
      omega

/-- The text of `%e`, cleaned up, is a number literal that reads as the decimal
written, when its exponent is below 1000 in absolute value. -/
theorem fmtE_readsBack (neg : Bool) (c drop j : Nat) (hc : 0 < c)
    (hE : (((decimalDigits c).length : Int) + (drop : Int) - (j : Int) - 1).natAbs < 1000) :
    readNumber (cleanExponent (fmtE neg (decimalDigits c)
        (((decimalDigits c).length : Int) + (drop : Int) - (j : Int)))) =
      some (cleanExponent (fmtE neg (decimalDigits c)
        (((decimalDigits c).length : Int) + (drop : Int) - (j : Int))), []) ∧
    ParseFloat (cleanExponent (fmtE neg (decimalDigits c)
        (((decimalDigits c).length : Int) + (drop : Int) - (j : Int)))) =
      (nearestFloat64 (c * 10 ^ drop) (10 ^ j)).map (fun p => Binary64.finite neg p.1 p.2) := by
  obtain ⟨⟨d, r, hds, hd, hd0, hr⟩, hval, -, -⟩ := decimalDigits_spec c hc
  rw [hds] at hE hval ⊢
  obtain ⟨ex, hex, htext⟩ := fmtE_clean neg d r _ hE
  rw [htext]
  have hint : IntegerPart [d] := Or.inr ⟨d, [], rfl, hd, hd0, fun x hx => by cases hx⟩
  refine ⟨readNumber_literal neg _ _ _ _ _ hint hr hex, ?_⟩
  rw [ParseFloat_literal neg _ _ _ _ _ hint hr hex]
  refine congrArg (Option.map _) ?_
  have hv : decimalValue ([d] ++ r) = c := hval
  rw [hv]
  simp only [List.length_cons] at hE ⊢
  by_cases hneg : ((r.length + 1 : Nat) : Int) + (drop : Int) - (j : Int) - 1 < 0
  · simp only [hneg, decide_True, if_true]
    have := nearestFloat64_pow c 0 (r.length +
      (((r.length + 1 : Nat) : Int) + (drop : Int) - (j : Int) - 1).natAbs) drop j (by omega)
    simpa using this
  · simp only [hneg, decide_False, Bool.false_eq_true, if_false]
    apply nearestFloat64_pow
    omega

/-! ## `floatEncoder` after `ParseFloat` -/

/-- The exact expansion of a `float64` is equal to it. -/
theorem exactDecimal_eq (m k : Nat) :
    (exactDecimal m k).1 * 2 ^ 1074 = m * 2 ^ k * 10 ^ (exactDecimal m k).2 := by
  unfold exactDecimal
  by_cases h : 1074 ≤ k
  · simp only [h, if_true, pow_zero, Nat.mul_one]
    rw [Nat.mul_assoc, ← pow_add]
    congr 2
    omega
  · simp only [h, if_false]
    have e10 : (10 : Nat) ^ (1074 - k) = 2 ^ (1074 - k) * 5 ^ (1074 - k) := by
      rw [← Nat.mul_pow]
    have e2 : (2 : Nat) ^ 1074 = 2 ^ k * 2 ^ (1074 - k) := by
      rw [← pow_add]
      congr 1
      omega
    rw [e10, e2]
    ring

/-- A decimal that passes `okDown` and is not above the `float64` reads back as
it. -/
theorem readsBack_of_okDown (m k c drop j D : Nat) (hc : Canonical m k) (hm : 0 < m)
    (hD : D * 2 ^ 1074 = m * 2 ^ k * 10 ^ j) (hle : c * 10 ^ drop ≤ D)
    (h : okDown m k c drop j = true) :
    nearestFloat64 (c * 10 ^ drop) (10 ^ j) = some (m, k) := by
  have hp : 0 < 10 ^ j := Nat.pos_pow_of_pos j (by norm_num)
  unfold okDown at h
  unfold nearestFloat64
  generalize 2 ^ 1074 = T at hD h ⊢
  apply roundScaled_of_bounds _ _ m k hc hm hp
  · simp only [Bool.or_eq_true, Bool.and_eq_true, decide_eq_true_eq] at h
    exact h
  · left
    have h1 : c * 10 ^ drop * T ≤ D * T := Nat.mul_le_mul_right _ hle
    have h2 := Nat.mul_lt_mul_of_pos_right (lt_upperBound m k) hp
    have h3 : 2 * (m * 2 ^ k) * 10 ^ j = 2 * (m * 2 ^ k * 10 ^ j) := by ring
    omega

/-- A decimal that passes `okUp` and is above the `float64` reads back as it. -/
theorem readsBack_of_okUp (m k c drop j D : Nat) (hc : Canonical m k) (hm : 0 < m)
    (hD : D * 2 ^ 1074 = m * 2 ^ k * 10 ^ j) (hlt : D < c * 10 ^ drop)
    (h : okUp m k c drop j = true) :
    nearestFloat64 (c * 10 ^ drop) (10 ^ j) = some (m, k) := by
  have hp : 0 < 10 ^ j := Nat.pos_pow_of_pos j (by norm_num)
  have hT : 0 < 2 ^ 1074 := pow_pos Nat.two_pos 1074
  unfold okUp at h
  unfold nearestFloat64
  generalize 2 ^ 1074 = T at hD h hT ⊢
  apply roundScaled_of_bounds _ _ m k hc hm hp
  · left
    have h1 : D * T < c * 10 ^ drop * T := Nat.mul_lt_mul_of_pos_right hlt hT
    have h2 := Nat.mul_lt_mul_of_pos_right (lowerBound_lt m k hm) hp
    have h3 : 2 * (m * 2 ^ k) * 10 ^ j = 2 * (m * 2 ^ k * 10 ^ j) := by ring
    omega
  · simp only [Bool.or_eq_true, Bool.and_eq_true, decide_eq_true_eq] at h
    exact h

/-- The exact expansion of a `float64` reads back as it. -/
theorem readsBack_exact (m k D j : Nat) (hc : Canonical m k)
    (hD : D * 2 ^ 1074 = m * 2 ^ k * 10 ^ j) :
    nearestFloat64 D (10 ^ j) = some (m, k) := by
  rw [← roundScaled_exact m k hc]
  unfold nearestFloat64
  generalize 2 ^ 1074 = T at hD ⊢
  apply roundScaled_congr _ _ _ _ (Nat.pos_pow_of_pos _ (by norm_num)) Nat.one_pos
  rw [Nat.mul_one, hD]

/-- The decimal `roundShortest` settles on reads back as the `float64` it was
computed for. -/
theorem roundShortest_readsBack (m k D j : Nat) (hc : Canonical m k) (hm : 0 < m)
    (hD : D * 2 ^ 1074 = m * 2 ^ k * 10 ^ j) (drop : Nat) :
    nearestFloat64 ((roundShortest m k D j drop).1 * 10 ^ (roundShortest m k D j drop).2)
      (10 ^ j) = some (m, k) := by
  induction drop with
  | zero =>
    simp only [roundShortest, pow_zero, Nat.mul_one]
    exact readsBack_exact m k D j hc hD
  | succ drop ih =>
    have hp : 0 < 10 ^ (drop + 1) := Nat.pos_pow_of_pos _ (by norm_num)
    have hdown : D / 10 ^ (drop + 1) * 10 ^ (drop + 1) ≤ D := Nat.div_mul_le_self _ _
    have hup : D < (D / 10 ^ (drop + 1) + 1) * 10 ^ (drop + 1) := by
      rw [Nat.mul_comm]
      exact Nat.lt_mul_div_succ D hp
    have h1b := readsBack_of_okDown m k (D / 10 ^ (drop + 1)) (drop + 1) j D hc hm hD hdown
    have h2b := readsBack_of_okUp m k (D / 10 ^ (drop + 1) + 1) (drop + 1) j D hc hm hD hup
    rw [roundShortest]
    cases h1 : okDown m k (D / 10 ^ (drop + 1)) (drop + 1) j <;>
      cases h2 : okUp m k (D / 10 ^ (drop + 1) + 1) (drop + 1) j
    · simp only [Bool.and_self, Bool.false_eq_true, if_false]
      exact ih
    · simp only [Bool.and_true, Bool.false_eq_true, if_false, if_true]
      exact h2b h2
    · simp only [Bool.and_false, Bool.false_eq_true, if_false, if_true]
      exact h1b h1
    · simp only [Bool.and_self, if_true]
      cases shouldRoundUp D (drop + 1)
      · simp only [Bool.false_eq_true, if_false]
        exact h1b h1
      · simp only [if_true]
        exact h2b h2

/-- A decimal that reads as a number other than zero is not zero. -/
theorem pos_of_nearestFloat64 (c drop j m k : Nat)
    (h : nearestFloat64 (c * 10 ^ drop) (10 ^ j) = some (m, k)) (hm : 0 < m) : 0 < c := by
  have h1 := roundScaled_lower _ _ m k h hm
  have hp : 0 < 10 ^ j := Nat.pos_pow_of_pos _ (by norm_num)
  by_contra h0
  have : c = 0 := by omega
  subst this
  simp only [Nat.zero_mul, Nat.mul_zero] at h1
  omega

/-- The shortest decimal of a `float64` other than zero: the digits of a
positive number, and a decimal that reads back as the `float64`. -/
theorem shortestDecimal_spec (m k : Nat) (hc : Canonical m k) (hm : 0 < m) :
    ∃ c drop j : Nat, 0 < c ∧
      shortestDecimal m k =
        (decimalDigits c, ((decimalDigits c).length : Int) + (drop : Int) - (j : Int)) ∧
      nearestFloat64 (c * 10 ^ drop) (10 ^ j) = some (m, k) := by
  have hD := exactDecimal_eq m k
  unfold shortestDecimal
  generalize exactDecimal m k = Dj at hD
  obtain ⟨D, j⟩ := Dj
  simp only at hD ⊢
  have hs := roundShortest_readsBack m k D j hc hm hD (decimalDigits D).length
  generalize roundShortest m k D j (decimalDigits D).length = cd at hs
  obtain ⟨c, drop⟩ := cd
  simp only at hs ⊢
  have hcpos := pos_of_nearestFloat64 c drop j m k hs hm
  obtain ⟨hv, hpos⟩ := trimZeros_spec c c drop hcpos
  generalize trimZeros c c drop = cd1 at hv hpos
  obtain ⟨c1, drop1⟩ := cd1
  simp only at hv hpos ⊢
  refine ⟨c1, drop1, j, hpos, rfl, ?_⟩
  rw [hv]
  exact hs

/-- A power of four is at most the same power of ten. -/
theorem two_pow_le_ten_pow (a : Nat) : 2 ^ (2 * a) ≤ 10 ^ a := by
  rw [pow_mul]
  exact Nat.pow_le_pow_left (by norm_num) a

/-- A bound on the number of fraction digits of a decimal that is not small. -/
theorem decimal_lower (c L drop j A B : Nat) (hA : A ≤ 2 * B) (hhi : c < 10 ^ L)
    (h : 10 ^ j ≤ c * 10 ^ drop * 2 ^ A) : j < L + drop + B := by
  have e1 : c * 10 ^ drop * 2 ^ A < 10 ^ (L + drop + B) := by
    calc c * 10 ^ drop * 2 ^ A = c * (10 ^ drop * 2 ^ A) := Nat.mul_assoc _ _ _
      _ < 10 ^ L * (10 ^ drop * 2 ^ A) :=
          Nat.mul_lt_mul_of_pos_right hhi
            (Nat.mul_pos (Nat.pos_pow_of_pos _ (by norm_num))
              (Nat.pos_pow_of_pos _ (by norm_num)))
      _ ≤ 10 ^ L * (10 ^ drop * 2 ^ (2 * B)) :=
          Nat.mul_le_mul_left _ (Nat.mul_le_mul_left _
            (Nat.pow_le_pow_right (by norm_num) hA))
      _ ≤ 10 ^ L * (10 ^ drop * 10 ^ B) :=
          Nat.mul_le_mul_left _ (Nat.mul_le_mul_left _ (two_pow_le_ten_pow B))
      _ = 10 ^ (L + drop + B) := by
          rw [pow_add, pow_add]
          ring
  exact (Nat.pow_lt_pow_iff_right (by norm_num)).mp (lt_of_le_of_lt h e1)

/-- A bound on the number of integer digits of a decimal that is not large. -/
theorem decimal_upper (c L drop j A B : Nat) (hA : A ≤ 2 * B) (hlo : 10 ^ (L - 1) ≤ c)
    (h : c * 10 ^ drop < 10 ^ j * 2 ^ A) : L - 1 + drop < j + B := by
  have e1 : 10 ^ (L - 1 + drop) < 10 ^ (j + B) := by
    calc 10 ^ (L - 1 + drop) = 10 ^ (L - 1) * 10 ^ drop := pow_add _ _ _
      _ ≤ c * 10 ^ drop := Nat.mul_le_mul_right _ hlo
      _ < 10 ^ j * 2 ^ A := h
      _ ≤ 10 ^ j * 2 ^ (2 * B) :=
          Nat.mul_le_mul_left _ (Nat.pow_le_pow_right (by norm_num) hA)
      _ ≤ 10 ^ j * 10 ^ B := Nat.mul_le_mul_left _ (two_pow_le_ten_pow B)
      _ = 10 ^ (j + B) := (pow_add _ _ _).symm
  exact (Nat.pow_lt_pow_iff_right (by norm_num)).mp e1

/-- The decimal exponent of a decimal that reads as a `float64` other than zero
has at most three digits. -/
theorem exponent_lt_1000 (c drop j m k : Nat) (hc : 0 < c)
    (h : nearestFloat64 (c * 10 ^ drop) (10 ^ j) = some (m, k)) (hm : 0 < m) :
    (((decimalDigits c).length : Int) + (drop : Int) - (j : Int) - 1).natAbs < 1000 := by
  obtain ⟨-, -, hhi, hlo⟩ := decimalDigits_spec c hc
  generalize (decimalDigits c).length = L at hhi hlo ⊢
  have hp : 0 < 10 ^ j := Nat.pos_pow_of_pos _ (by norm_num)
  have h1 := roundScaled_lower _ _ m k h hm
  have h2 := roundScaled_upper _ _ m k hp h
  have hlower : j < L + drop + 538 := by
    apply decimal_lower c L drop j (1074 + 1) 538 (by omega) hhi
    rw [pow_succ]
    calc 10 ^ j ≤ 2 * (c * 10 ^ drop * 2 ^ 1074) := h1
      _ = c * 10 ^ drop * (2 ^ 1074 * 2) := by ring
  have hupper : L - 1 + drop < j + 512 := by
    apply decimal_upper c L drop j 1024 512 (by omega) hlo
    have : c * 10 ^ drop * 2 ^ 1074 < 10 ^ j * 2 ^ 1024 * 2 ^ 1074 := by
      rw [Nat.mul_assoc (10 ^ j)]
      exact h2
    exact Nat.lt_of_mul_lt_mul_right this
  omega

/-- What `ParseFloat` returns is a `float64`: finite, with the mantissa and the
exponent of one. -/
theorem ParseFloat_canonical (lit : GoString) (f : Binary64) (h : ParseFloat lit = some f) :
    ∃ neg m k, f = .finite neg m k ∧ Canonical m k := by
  have key : ∀ neg s, atof64 neg s = some f → ∃ neg m k, f = .finite neg m k ∧ Canonical m k := by
    intro neg s hs
    unfold atof64 at hs
    generalize readFloat s = p at hs
    obtain ⟨int, frac, eneg, e⟩ := p
    simp only at hs
    cases eneg with
    | true =>
      simp only [if_true, Option.map_eq_some'] at hs
      obtain ⟨⟨m, k⟩, h1, h2⟩ := hs
      exact ⟨neg, m, k, h2.symm, roundScaled_canonical _ _ m k h1⟩
    | false =>
      simp only [Bool.false_eq_true, if_false, Option.map_eq_some'] at hs
      obtain ⟨⟨m, k⟩, h1, h2⟩ := hs
      exact ⟨neg, m, k, h2.symm, roundScaled_canonical _ _ m k h1⟩
  unfold ParseFloat at h
  by_cases hr : readNumber lit = some (lit, [])
  · rw [if_pos hr] at h
    cases lit with
    | nil => cases h
    | cons c r =>
      simp only at h
      by_cases hc : c = '-'
      · rw [if_pos hc] at h
        exact key _ _ h
      · rw [if_neg hc] at h
        exact key _ _ h
  · rw [if_neg hr] at h
    cases h

/-- The text `floatEncoder` writes for a `float64` is a number literal that
`ParseFloat` converts to the same `float64`. -/
theorem floatEncoder_readsBack (neg : Bool) (m k : Nat) (hc : Canonical m k) :
    ∃ s, floatEncoder (.finite neg m k) = some s ∧ readNumber s = some (s, []) ∧
      ParseFloat s = some (.finite neg m k) := by
  by_cases hm : m = 0
  · subst hm
    have hk : k = 0 := by
      by_contra hk
      have := hc.2.2 (Nat.pos_of_ne_zero hk)
      have h52 : 0 < 2 ^ 52 := Nat.pos_pow_of_pos 52 (by norm_num)
      omega
    subst hk
    have hint : IntegerPart ['0'] := Or.inl rfl
    have hfrac : ∀ x ∈ ([] : List Char), isDigit x = true := fun x hx => (by cases hx)
    have hex : ExponentPart [] false 0 := Or.inl ⟨rfl, rfl, rfl⟩
    have htext : fmtF neg [] 0 = signText neg ++ (['0'] ++ (fractionPart [] ++ [])) := by
      cases neg <;> rfl
    refine ⟨fmtF neg [] 0, ?_, ?_, ?_⟩
    · simp [floatEncoder]
    · rw [htext]
      exact readNumber_literal neg _ _ _ _ _ hint hfrac hex
    · rw [htext, ParseFloat_literal neg _ _ _ _ _ hint hfrac hex]
      have h0 : nearestFloat64 0 1 = some (0, 0) := by
        have := roundScaled_exact 0 0 hc
        unfold nearestFloat64
        rw [Nat.zero_mul] at this ⊢
        exact this
      have hv : decimalValue (['0'] ++ []) = 0 := rfl
      simp only [Bool.false_eq_true, if_false, hv, List.length_nil, pow_zero, Nat.zero_mul,
        h0, Option.map_some']
  · have hpos : 0 < m := Nat.pos_of_ne_zero hm
    obtain ⟨c, drop, j, hcpos, hs, hn⟩ := shortestDecimal_spec m k hc hpos
    have hE := exponent_lt_1000 c drop j m k hcpos hn hpos
    obtain ⟨f1, f2⟩ := fmtF_readsBack neg c drop j hcpos
    obtain ⟨e1, e2⟩ := fmtE_readsBack neg c drop j hcpos hE
    rw [hn] at f2 e2
    simp only [floatEncoder, hm, if_false, hs]
    split_ifs
    · exact ⟨_, rfl, e1, e2⟩
    · exact ⟨_, rfl, f1, f2⟩

/-- The runtime of IEEE 754 and `strconv` meets the contract `FloatRoundTrip`. -/
theorem goRuntime_floatRoundTrip (shortEscapes : Bool) (urlRest : GoString → Bool) :
    FloatRoundTrip (goRuntime shortEscapes urlRest) := by
  intro lit f h
  obtain ⟨neg, m, k, rfl, hc⟩ := ParseFloat_canonical lit f h
  exact floatEncoder_readsBack neg m k hc

/-! ## Properties of the mutation documents and of the request values -/

set_option maxRecDepth 100000 in
/-- The declared parameters of the three documents. -/
theorem declaredParams_eq :
    declaredParams mutationClientOwner =
      ["content".toList, "sender".toList, "tenantID".toList, "propertyID".toList,
       "orderID".toList] ∧
    declaredParams mutationOwner =
      ["content".toList, "sender".toList, "shareId".toList, "constructionID".toList] ∧
    declaredParams mutationOwnerSimple =
      ["content".toList, "sender".toList, "shareId".toList] := by
  decide

set_option maxRecDepth 100000 in
/-- The selection sets of the three documents. -/
theorem selectionSet_eq :
    selectionSet mutationClientOwner =
      ["id".toList, "content".toList, "sender".toList, "shareId".toList, "createdAt".toList,
       "tenantID".toList, "propertyID".toList, "orderID".toList, "constructionID".toList] ∧
    selectionSet mutationOwner = selectionSet mutationClientOwner ∧
    selectionSet mutationOwnerSimple = selectionSet mutationClientOwner := by
  decide

/-- C1: at each of the three call sites the keys of the variables mapping are
exactly the parameter names the paired mutation document declares in its
header, none missing and none extra: content, sender, tenantID, propertyID,
orderID for the client-owner call, content, sender, shareId, constructionID
for the owner call, and content, sender, shareId for the owner-simple call. -/
theorem C1_variable_keys_are_declared_params (F : Type) :
    ((reqBodyClientOwner F).Query = mutationClientOwner ∧
      (∀ k, k ∈ variableKeys (reqBodyClientOwner F) ↔ k ∈ declaredParams mutationClientOwner) ∧
      (∀ k, k ∈ variableKeys (reqBodyClientOwner F) ↔
        k ∈ ["content".toList, "sender".toList, "tenantID".toList, "propertyID".toList,
             "orderID".toList])) ∧
    ((reqBodyOwner F).Query = mutationOwner ∧
      (∀ k, k ∈ variableKeys (reqBodyOwner F) ↔ k ∈ declaredParams mutationOwner) ∧
      (∀ k, k ∈ variableKeys (reqBodyOwner F) ↔
        k ∈ ["content".toList, "sender".toList, "shareId".toList,
             "constructionID".toList])) ∧
    ((reqBodyOwnerSimple F).Query = mutationOwnerSimple ∧
      (∀ k, k ∈ variableKeys (reqBodyOwnerSimple F) ↔ k ∈ declaredParams mutationOwnerSimple) ∧
      (∀ k, k ∈ variableKeys (reqBodyOwnerSimple F) ↔
        k ∈ ["content".toList, "sender".toList, "shareId".toList])) := by
  obtain ⟨h1, h2, h3⟩ := declaredParams_eq
  have k1 : variableKeys (reqBodyClientOwner F) =
      ["content".toList, "sender".toList, "tenantID".toList, "propertyID".toList,
       "orderID".toList] := rfl
  have k2 : variableKeys (reqBodyOwner F) =
      ["content".toList, "sender".toList, "shareId".toList, "constructionID".toList] := rfl
  have k3 : variableKeys (reqBodyOwnerSimple F) =
      ["content".toList, "sender".toList, "shareId".toList] := rfl
  rw [h1, h2, h3, k1, k2, k3]
  exact ⟨⟨rfl, fun _ => Iff.rfl, fun _ => Iff.rfl⟩, ⟨rfl, fun _ => Iff.rfl, fun _ => Iff.rfl⟩,
    ⟨rfl, fun _ => Iff.rfl, fun _ => Iff.rfl⟩⟩

/-- C9, as stated, fails: the three documents do not differ pairwise in their
selection set; the client-owner and the owner document select the same
fields, so the claim that declared parameters and selection sets both differ
pairwise cannot hold. -/
theorem C9_selection_sets_do_not_differ :
    ¬ ((declaredParams mutationClientOwner ≠ declaredParams mutationOwner ∧
        declaredParams mutationClientOwner ≠ declaredParams mutationOwnerSimple ∧
        declaredParams mutationOwner ≠ declaredParams mutationOwnerSimple) ∧
       (selectionSet mutationClientOwner ≠ selectionSet mutationOwner ∧
        selectionSet mutationClientOwner ≠ selectionSet mutationOwnerSimple ∧
        selectionSet mutationOwner ≠ selectionSet mutationOwnerSimple)) := by
  intro h
  exact h.2.1 selectionSet_eq.2.1.symm

/-- C9, amended: the three documents differ pairwise in their declared
parameter list, and they have one and the same selection set, the nine fields
id, content, sender, shareId, createdAt, tenantID, propertyID, orderID,
constructionID. -/
theorem C9_documents_differ_in_params_only :
    (declaredParams mutationClientOwner ≠ declaredParams mutationOwner ∧
      declaredParams mutationClientOwner ≠ declaredParams mutationOwnerSimple ∧
      declaredParams mutationOwner ≠ declaredParams mutationOwnerSimple) ∧
    (selectionSet mutationClientOwner =
        ["id".toList, "content".toList, "sender".toList, "shareId".toList,
         "createdAt".toList, "tenantID".toList, "propertyID".toList, "orderID".toList,
         "constructionID".toList] ∧
      selectionSet mutationOwner = selectionSet mutationClientOwner ∧
      selectionSet mutationOwnerSimple = selectionSet mutationClientOwner) := by
  obtain ⟨h1, h2, h3⟩ := declaredParams_eq
  refine ⟨?_, selectionSet_eq⟩
  rw [h1, h2, h3]
  decide

/-! ## The three call sites in closed form -/

/-- The method the program passes is accepted, so `NewRequest` fails exactly
when the endpoint does not parse. -/
theorem NewRequest_post (rt : GoRuntime) (endpoint body : GoString) :
    NewRequest rt "POST".toList endpoint body =
      if urlParses rt endpoint = true then
        some { Method := "POST".toList, URL := endpoint, Header := [], Body := body }
      else none := by
  have hm : validMethod "POST".toList = true := by decide
  unfold NewRequest
  simp only [hm, Bool.true_and]
  rfl

/-- The header of a request after the two calls of `Header.Set`. -/
theorem header_after_sets :
    Header.Set (Header.Set [] "Content-Type".toList "application/json".toList)
        "Authorization".toList "aaaa".toList =
      [("Authorization".toList, ["aaaa".toList]),
       ("Content-Type".toList, ["application/json".toList])] := by
  decide

/-- The run of `send` on an endpoint that parses. -/
theorem send_of_parses (rt : GoRuntime) (endpoint query : GoString)
    (vars : GoMapVar rt.Float64) (o : HttpResult) (h : urlParses rt endpoint = true) :
    send rt endpoint query vars o =
      match o with
      | .error err =>
        { trace := [.httpDo (postOf rt endpoint { Query := query, Variables := vars })],
          exit := .panicked (.error err) }
      | .ok resp =>
        { trace := [.httpDo (postOf rt endpoint { Query := query, Variables := vars }),
            .stdout (printfLine "Status: ".toList resp.Status),
            .stdout (printfLine "Response: ".toList
              ((marshalMap rt (some "  ".toList) (decodeMap rt resp.Body)).getD []))],
          exit := .returned } := by
  unfold send
  simp only [NewRequest_post, h, if_true, header_after_sets]
  cases o <;> rfl

/-- The run of `send` on an endpoint that does not parse: the nil request makes
`req.Header.Set` panic before anything is sent. -/
theorem send_of_not_parses (rt : GoRuntime) (endpoint query : GoString)
    (vars : GoMapVar rt.Float64) (o : HttpResult) (h : urlParses rt endpoint = false) :
    send rt endpoint query vars o = { trace := [], exit := .panicked .nilDereference } := by
  unfold send
  simp only [NewRequest_post, h]
  rfl

/-- The function `testClientOwner` prints its banner and then is `send`. -/
theorem testClientOwner_eq (rt : GoRuntime) (endpoint : GoString) (o : HttpResult) :
    testClientOwner rt endpoint o =
      sendAfter [bannerClientOwner] rt endpoint mutationClientOwner
        (reqBodyClientOwner rt.Float64).Variables o := by
  unfold testClientOwner sendAfter send Run.andThen
  simp only [NewRequest_post]
  by_cases h : urlParses rt endpoint = true
  · simp only [h, if_true]
    cases o <;> rfl
  · simp only [h]
    rfl

/-- The function `testOwner` prints its banner and then is `send`. -/
theorem testOwner_eq (rt : GoRuntime) (endpoint : GoString) (o : HttpResult) :
    testOwner rt endpoint o =
      sendAfter [bannerOwner] rt endpoint mutationOwner
        (reqBodyOwner rt.Float64).Variables o := by
  unfold testOwner sendAfter send Run.andThen
  simp only [NewRequest_post]
  by_cases h : urlParses rt endpoint = true
  · simp only [h, if_true]
    cases o <;> rfl
  · simp only [h]
    rfl

/-- The function `testOwnerSimple` prints its banner and then is `send`. -/
theorem testOwnerSimple_eq (rt : GoRuntime) (endpoint : GoString) (o : HttpResult) :
    testOwnerSimple rt endpoint o =
      sendAfter [bannerOwnerSimple] rt endpoint mutationOwnerSimple
        (reqBodyOwnerSimple rt.Float64).Variables o := by
  unfold testOwnerSimple sendAfter send Run.andThen
  simp only [NewRequest_post]
  by_cases h : urlParses rt endpoint = true
  · simp only [h, if_true]
    cases o <;> rfl
  · simp only [h]
    rfl

/-- A call on an endpoint that parses, when the round trip fails. -/
theorem sendAfter_error (text : GoString) (rt : GoRuntime) (endpoint query : GoString)
    (vars : GoMapVar rt.Float64) (err : GoString) (h : urlParses rt endpoint = true) :
    sendAfter [text] rt endpoint query vars (.error err) =
      { trace := [.stdout text,
          .httpDo (postOf rt endpoint { Query := query, Variables := vars })],
        exit := .panicked (.error err) } := by
  unfold sendAfter
  rw [send_of_parses rt endpoint query vars _ h]
  rfl

/-- A call on an endpoint that parses, when the round trip succeeds. -/
theorem sendAfter_ok (text : GoString) (rt : GoRuntime) (endpoint query : GoString)
    (vars : GoMapVar rt.Float64) (resp : Response) (h : urlParses rt endpoint = true) :
    sendAfter [text] rt endpoint query vars (.ok resp) =
      { trace := [.stdout text,
          .httpDo (postOf rt endpoint { Query := query, Variables := vars }),
          .stdout (printfLine "Status: ".toList resp.Status),
          .stdout (printfLine "Response: ".toList
            ((marshalMap rt (some "  ".toList) (decodeMap rt resp.Body)).getD []))],
        exit := .returned } := by
  unfold sendAfter
  rw [send_of_parses rt endpoint query vars _ h]
  rfl

/-- A call on an endpoint that does not parse. -/
theorem sendAfter_not_parses (text : GoString) (rt : GoRuntime) (endpoint query : GoString)
    (vars : GoMapVar rt.Float64) (o : HttpResult) (h : urlParses rt endpoint = false) :
    sendAfter [text] rt endpoint query vars o =
      { trace := [.stdout text], exit := .panicked .nilDereference } := by
  unfold sendAfter
  rw [send_of_not_parses rt endpoint query vars _ h]
  rfl

/-- The function `main` on a non-empty endpoint runs the three calls in turn. -/
theorem main_of_nonempty (rt : GoRuntime) (endpoint : GoString) (o1 o2 o3 : HttpResult)
    (h : endpoint ≠ []) :
    main rt (some endpoint) o1 o2 o3 =
      (testClientOwner rt endpoint o1).andThen
        ((testOwner rt endpoint o2).andThen (testOwnerSimple rt endpoint o3)) := by
  unfold main Getenv
  simp [h]

/-! ## Properties of the runs -/

/-- C3: when `APPSYNC_ENDPOINT` is unset or empty, `main` panics with the message
"APPSYNC_ENDPOINT is required" and its trace is empty: no request was issued
and nothing was printed.  Conversely, on a non-empty endpoint `main` does not
end with this panic and goes on to the first call: it is the sequence of the
three calls, and its trace starts with the banner of `testClientOwner`. -/
theorem C3_endpoint_required (rt : GoRuntime) (env : Option GoString)
    (o1 o2 o3 : HttpResult) :
    ((env = none ∨ env = some []) →
      main rt env o1 o2 o3 =
        { trace := [],
          exit := .panicked (.str "APPSYNC_ENDPOINT is required".toList) }) ∧
    (∀ endpoint, env = some endpoint → endpoint ≠ [] →
      main rt env o1 o2 o3 =
        (testClientOwner rt endpoint o1).andThen
          ((testOwner rt endpoint o2).andThen (testOwnerSimple rt endpoint o3)) ∧
      (main rt env o1 o2 o3).exit ≠
        .panicked (.str "APPSYNC_ENDPOINT is required".toList) ∧
      ∃ rest, (main rt env o1 o2 o3).trace = .stdout bannerClientOwner :: rest) := by
  constructor
  · rintro (h | h) <;> subst h <;> rfl
  · intro endpoint he hne
    subst he
    refine ⟨main_of_nonempty rt endpoint o1 o2 o3 hne, ?_, ?_⟩
    · rw [main_of_nonempty rt endpoint o1 o2 o3 hne, testClientOwner_eq, testOwner_eq,
        testOwnerSimple_eq]
      cases hp : urlParses rt endpoint
      · rw [sendAfter_not_parses _ _ _ _ _ _ hp]
        simp [Run.andThen]
      · rcases o1 with e1 | r1
        · rw [sendAfter_error _ _ _ _ _ _ hp]
          simp [Run.andThen]
        · rcases o2 with e2 | r2
          · rw [sendAfter_ok _ _ _ _ _ _ hp, sendAfter_error _ _ _ _ _ _ hp]
            simp [Run.andThen]
          · rcases o3 with e3 | r3
            · rw [sendAfter_ok _ _ _ _ _ _ hp, sendAfter_ok _ _ _ _ _ _ hp,
                sendAfter_error _ _ _ _ _ _ hp]
              simp [Run.andThen]
            · rw [sendAfter_ok _ _ _ _ _ _ hp, sendAfter_ok _ _ _ _ _ _ hp,
                sendAfter_ok _ _ _ _ _ _ hp]
              simp [Run.andThen]
    · rw [main_of_nonempty rt endpoint o1 o2 o3 hne, testClientOwner_eq]
      cases hp : urlParses rt endpoint
      · rw [sendAfter_not_parses _ _ _ _ _ _ hp]
        exact ⟨_, rfl⟩
      · rcases o1 with e1 | r1
        · rw [sendAfter_error _ _ _ _ _ _ hp]
          exact ⟨_, rfl⟩
        · rw [sendAfter_ok _ _ _ _ _ _ hp]
          exact ⟨_, rfl⟩

/-- C3 at concrete inputs: the variable unset, and an endpoint that is set. -/
theorem C3_endpoint_required_witness :
    main exampleRuntime none (.error []) (.error []) (.error []) =
      { trace := [], exit := .panicked (.str "APPSYNC_ENDPOINT is required".toList) } ∧
    (main exampleRuntime (some "http://localhost:4000/graphql".toList)
        (.error []) (.error []) (.error [])).exit ≠
      .panicked (.str "APPSYNC_ENDPOINT is required".toList) :=
  ⟨(C3_endpoint_required exampleRuntime none (.error []) (.error []) (.error [])).1
      (Or.inl rfl),
   ((C3_endpoint_required exampleRuntime (some "http://localhost:4000/graphql".toList)
      (.error []) (.error []) (.error [])).2 _ rfl (by decide)).2.1⟩

/-- C4: if the round trip of the k-th call fails at transport level, the program
panics with that error at once: the trace holds the complete runs of the calls
before k, then the banner and the request of call k, and nothing else; no
"Status:" and no "Response:" line for call k, and no banner, request or output
of a later call, whatever the later answers would have been. -/
theorem C4_transport_failure_aborts (rt : GoRuntime) (endpoint err : GoString)
    (r1 r2 : Response) (o2 o3 : HttpResult)
    (hne : endpoint ≠ []) (hp : urlParses rt endpoint = true) :
    main rt (some endpoint) (.error err) o2 o3 =
      { trace := [.stdout bannerClientOwner,
          .httpDo (postOf rt endpoint (reqBodyClientOwner rt.Float64))],
        exit := .panicked (.error err) } ∧
    main rt (some endpoint) (.ok r1) (.error err) o3 =
      { trace := (testClientOwner rt endpoint (.ok r1)).trace ++
          [.stdout bannerOwner, .httpDo (postOf rt endpoint (reqBodyOwner rt.Float64))],
        exit := .panicked (.error err) } ∧
    main rt (some endpoint) (.ok r1) (.ok r2) (.error err) =
      { trace := (testClientOwner rt endpoint (.ok r1)).trace ++
          ((testOwner rt endpoint (.ok r2)).trace ++
            [.stdout bannerOwnerSimple,
             .httpDo (postOf rt endpoint (reqBodyOwnerSimple rt.Float64))]),
        exit := .panicked (.error err) } ∧
    (testClientOwner rt endpoint (.ok r1)).exit = .returned ∧
    (testOwner rt endpoint (.ok r2)).exit = .returned := by
  refine ⟨?_, ?_, ?_, ?_, ?_⟩ <;>
    simp only [main_of_nonempty rt endpoint _ _ _ hne, testClientOwner_eq, testOwner_eq,
      testOwnerSimple_eq, sendAfter_ok _ _ _ _ _ _ hp, sendAfter_error _ _ _ _ _ _ hp] <;>
    rfl

/-- C4 at a concrete input: the first round trip fails. -/
theorem C4_transport_failure_aborts_witness :
    outputOf (main exampleRuntime (some "http://localhost:4000/graphql".toList)
      (.error "connection refused".toList) (.error []) (.error [])).trace =
      [bannerClientOwner] :=
  congrArg (fun r => outputOf r.trace)
    (C4_transport_failure_aborts exampleRuntime "http://localhost:4000/graphql".toList
      "connection refused".toList { Status := [], Body := [] } { Status := [], Body := [] }
      (.error []) (.error []) (by decide) (by decide)).1

/-- Decoding and rendering `publishedBody`, on every runtime. -/
theorem publishedBody_rendering (rt : GoRuntime) :
    decodeMap rt publishedBody =
      some [("data".toList, .map [("publishMessage".toList,
        .map [("id".toList, .string "x".toList)])])] ∧
    marshalMap rt (some "  ".toList) (decodeMap rt publishedBody) = some publishedRendering :=
  ⟨rfl, rfl⟩

/-- C5: a call whose response has status string `s` and a body that decodes to
the JSON object `o` prints, after its banner, the line "Status: s" and then
"Response: " followed by the rendering of `o` indented by two spaces, which
exists on a runtime whose `strconv` meets its contract.  In
particular, for status `200 OK` and body `{"data":{"publishMessage":{"id":"x"}}}`
the status line contains `200` and the rendering contains `"id": "x"`. -/
theorem C5_prints_status_and_rendering (rt : GoRuntime) (endpoint s body : GoString)
    (o : GoMap rt.Float64) (hp : urlParses rt endpoint = true)
    (hd : decodeMap rt body = some o) :
    (outputOf (testClientOwner rt endpoint (.ok { Status := s, Body := body })).trace =
        [bannerClientOwner, "Status: ".toList ++ (s ++ [chNewline]),
         "Response: ".toList ++
           ((marshalMap rt (some "  ".toList) (some o)).getD [] ++ [chNewline])] ∧
      outputOf (testOwner rt endpoint (.ok { Status := s, Body := body })).trace =
        [bannerOwner, "Status: ".toList ++ (s ++ [chNewline]),
         "Response: ".toList ++
           ((marshalMap rt (some "  ".toList) (some o)).getD [] ++ [chNewline])] ∧
      outputOf (testOwnerSimple rt endpoint (.ok { Status := s, Body := body })).trace =
        [bannerOwnerSimple, "Status: ".toList ++ (s ++ [chNewline]),
         "Response: ".toList ++
           ((marshalMap rt (some "  ".toList) (some o)).getD [] ++ [chNewline])]) ∧
    (outputOf (testClientOwner rt endpoint
        (.ok { Status := "200 OK".toList, Body := publishedBody })).trace =
        [bannerClientOwner, "Status: 200 OK\n".toList,
         "Response: ".toList ++ (publishedRendering ++ [chNewline])] ∧
      "200".toList <:+: "Status: 200 OK\n".toList ∧
      "\"id\": \"x\"".toList <:+: publishedRendering) ∧
    (FloatRoundTrip rt → ∃ t, marshalMap rt (some "  ".toList) (some o) = some t) := by
  refine ⟨⟨?_, ?_, ?_⟩, ⟨?_, ?_, ?_⟩, ?_⟩
  rotate_right
  · intro hrt
    obtain ⟨r, hr⟩ := decodeMap_eq_some rt body o hd
    exact encodeValue_some rt hrt _ (.map o) 0 0 ((decoded_of_parse rt _).1 0 body _ r hr)
  · rw [testClientOwner_eq, sendAfter_ok _ _ _ _ _ _ hp, hd]; rfl
  · rw [testOwner_eq, sendAfter_ok _ _ _ _ _ _ hp, hd]; rfl
  · rw [testOwnerSimple_eq, sendAfter_ok _ _ _ _ _ _ hp, hd]; rfl
  · rw [testClientOwner_eq, sendAfter_ok _ _ _ _ _ _ hp, (publishedBody_rendering rt).2]; rfl
  · exact ⟨"Status: ".toList, " OK\n".toList, rfl⟩
  · exact ⟨"\x7b\n  \"data\": \x7b\n    \"publishMessage\": \x7b\n      ".toList,
      "\n    \x7d\n  \x7d\n\x7d".toList, rfl⟩

/-- C5 at a concrete input. -/
theorem C5_prints_status_and_rendering_witness :
    outputOf (testClientOwner exampleRuntime "http://localhost:4000/graphql".toList
        (.ok { Status := "200 OK".toList, Body := publishedBody })).trace =
      [bannerClientOwner, "Status: ".toList ++ ("200 OK".toList ++ [chNewline]),
       "Response: ".toList ++
         ((marshalMap exampleRuntime (some "  ".toList)
            (some [("data".toList, .map [("publishMessage".toList,
              .map [("id".toList, .string "x".toList)])])])).getD [] ++ [chNewline])] :=
  (C5_prints_status_and_rendering exampleRuntime "http://localhost:4000/graphql".toList
    "200 OK".toList publishedBody _ (by decide)
    (publishedBody_rendering exampleRuntime).1).1.1

/-- Such a body leaves the result mapping nil. -/
theorem decodeMap_of_notJSONObject (rt : GoRuntime) (body : GoString)
    (h : NotJSONObject rt body) : decodeMap rt body = none := by
  unfold decodeMap
  split
  · next m rest hm => exact absurd hm (h _ m rest)
  · rfl

/-- A body on which `Decode` leaves the result nil, `null` apart, is not a JSON
object: no amount of fuel reads an object from it. -/
theorem notJSONObject_of_decodeMap (rt : GoRuntime) (body : GoString)
    (h : ∀ m rest, parseValue rt (2 * body.length + 2) 0 body ≠ some (.map m, rest)) :
    NotJSONObject rt body := by
  intro fuel m rest hm
  obtain ⟨hlt, hfu⟩ := (parse_fuel rt fuel).1 0 body _ rest hm
  exact h m rest (hfu _ (by omega))

/-- C7: a response body that cannot be decoded as a JSON object leaves the result
mapping nil and does not abort the call: each of the three functions prints
its banner, issues its request, prints the "Status:" line and the line
"Response: null", and returns; `main` then goes on with the next call. -/
theorem C7_decode_failure_ignored (rt : GoRuntime) (endpoint s body : GoString)
    (r1 r2 : Response) (o2 o3 : HttpResult)
    (hne : endpoint ≠ []) (hp : urlParses rt endpoint = true)
    (hbad : NotJSONObject rt body) :
    decodeMap rt body = none ∧
    testClientOwner rt endpoint (.ok { Status := s, Body := body }) =
      { trace := [.stdout bannerClientOwner,
          .httpDo (postOf rt endpoint (reqBodyClientOwner rt.Float64)),
          .stdout ("Status: ".toList ++ (s ++ [chNewline])), .stdout responseNull],
        exit := .returned } ∧
    testOwner rt endpoint (.ok { Status := s, Body := body }) =
      { trace := [.stdout bannerOwner,
          .httpDo (postOf rt endpoint (reqBodyOwner rt.Float64)),
          .stdout ("Status: ".toList ++ (s ++ [chNewline])), .stdout responseNull],
        exit := .returned } ∧
    testOwnerSimple rt endpoint (.ok { Status := s, Body := body }) =
      { trace := [.stdout bannerOwnerSimple,
          .httpDo (postOf rt endpoint (reqBodyOwnerSimple rt.Float64)),
          .stdout ("Status: ".toList ++ (s ++ [chNewline])), .stdout responseNull],
        exit := .returned } ∧
    main rt (some endpoint) (.ok { Status := s, Body := body }) o2 o3 =
      { trace := (testClientOwner rt endpoint (.ok { Status := s, Body := body })).trace ++
          ((testOwner rt endpoint o2).andThen (testOwnerSimple rt endpoint o3)).trace,
        exit := ((testOwner rt endpoint o2).andThen (testOwnerSimple rt endpoint o3)).exit } ∧
    main rt (some endpoint) (.ok r1) (.ok { Status := s, Body := body }) o3 =
      { trace := (testClientOwner rt endpoint (.ok r1)).trace ++
          ((testOwner rt endpoint (.ok { Status := s, Body := body })).trace ++
            (testOwnerSimple rt endpoint o3).trace),
        exit := (testOwnerSimple rt endpoint o3).exit } ∧
    main rt (some endpoint) (.ok r1) (.ok r2) (.ok { Status := s, Body := body }) =
      { trace := (testClientOwner rt endpoint (.ok r1)).trace ++
          ((testOwner rt endpoint (.ok r2)).trace ++
            (testOwnerSimple rt endpoint (.ok { Status := s, Body := body })).trace),
        exit := .returned } := by
  have hd := decodeMap_of_notJSONObject rt body hbad
  refine ⟨hd, ?_, ?_, ?_, ?_, ?_, ?_⟩
  · rw [testClientOwner_eq, sendAfter_ok _ _ _ _ _ _ hp, hd]; rfl
  · rw [testOwner_eq, sendAfter_ok _ _ _ _ _ _ hp, hd]; rfl
  · rw [testOwnerSimple_eq, sendAfter_ok _ _ _ _ _ _ hp, hd]; rfl
  · rw [main_of_nonempty rt endpoint _ _ _ hne, testClientOwner_eq,
      sendAfter_ok _ _ _ _ _ _ hp]
    rfl
  · rw [main_of_nonempty rt endpoint _ _ _ hne, testClientOwner_eq, testOwner_eq,
      sendAfter_ok _ _ _ _ _ _ hp, sendAfter_ok _ _ _ _ _ _ hp]
    rfl
  · rw [main_of_nonempty rt endpoint _ _ _ hne, testClientOwner_eq, testOwner_eq,
      testOwnerSimple_eq, sendAfter_ok _ _ _ _ _ _ hp, sendAfter_ok _ _ _ _ _ _ hp,
      sendAfter_ok _ _ _ _ _ _ hp]
    rfl

/-- A body that is a JSON object with a number out of the range of `float64`:
`Decode` reports an error, which is discarded, after filling the mapping, with
nil for the number; the mapping does not stay nil. -/
theorem decodeMap_number_out_of_range (rt : GoRuntime)
    (h : rt.parseFloat "1e999".toList = none) :
    decodeMap rt "\x7b\"a\":1e999\x7d".toList = some [("a".toList, .null)] := by
  have e : decodeMap rt "\x7b\"a\":1e999\x7d".toList =
      some [("a".toList, numberValue rt "1e999".toList)] := rfl
  rw [e]
  simp only [numberValue, h]

/-- The empty body, a malformed body and an array are not JSON objects. -/
theorem notJSONObject_examples :
    NotJSONObject exampleRuntime [] ∧
    NotJSONObject exampleRuntime "<html>Bad Gateway</html>".toList ∧
    NotJSONObject exampleRuntime "[1, 2]".toList := by
  refine ⟨?_, ?_, ?_⟩ <;> apply notJSONObject_of_decodeMap <;> intro m rest h <;>
    revert h <;>
    first
      | exact (fun h => Option.noConfusion h)
      | (intro h; exact GoValue.noConfusion (congrArg Prod.fst (Option.some.inj h)))

/-- C7 at a concrete input: a gateway answers with an HTML page. -/
theorem C7_decode_failure_ignored_witness :
    testClientOwner exampleRuntime "http://localhost:4000/graphql".toList
        (.ok { Status := "502 Bad Gateway".toList,
               Body := "<html>Bad Gateway</html>".toList }) =
      { trace := [.stdout bannerClientOwner,
          .httpDo (postOf exampleRuntime "http://localhost:4000/graphql".toList
            (reqBodyClientOwner exampleRuntime.Float64)),
          .stdout ("Status: ".toList ++ ("502 Bad Gateway".toList ++ [chNewline])),
          .stdout responseNull],
        exit := .returned } :=
  (C7_decode_failure_ignored exampleRuntime "http://localhost:4000/graphql".toList
    "502 Bad Gateway".toList "<html>Bad Gateway</html>".toList
    { Status := [], Body := [] } { Status := [], Body := [] } (.error []) (.error [])
    (by decide) (by decide) notJSONObject_examples.2.1).2.1

/-- On no runtime does `url.Parse` accept an endpoint that ends with a line feed. -/
theorem urlParses_endpointWithNewline (rt : GoRuntime) :
    urlParses rt endpointWithNewline = false :=
  rfl

/-- The run of `main` on an endpoint that holds a control character: `NewRequest`
fails, and the first call panics on its nil request after printing its banner,
on every runtime and whatever the HTTP client would answer. -/
theorem main_endpointWithNewline (rt : GoRuntime) (o1 o2 o3 : HttpResult) :
    main rt (some endpointWithNewline) o1 o2 o3 =
      { trace := [.stdout bannerClientOwner], exit := .panicked .nilDereference } := by
  rw [main_of_nonempty rt endpointWithNewline o1 o2 o3 (by decide), testClientOwner_eq,
    sendAfter_not_parses _ _ _ _ _ _ (urlParses_endpointWithNewline rt)]
  rfl

/-- C8, as stated, fails, on every runtime: on the non-empty endpoint
`https://example.com/graphql` followed by a line feed, whatever the three
responses, `http.NewRequest` returns an error that is discarded,
`req.Header.Set` panics on the nil request, and the program ends abnormally
after its first banner, without a call of the HTTP client; it does not
terminate normally on every non-empty endpoint. -/
theorem C8_fails_on_endpoint_that_does_not_parse :
    ¬ ∃ rt : GoRuntime, ∀ (endpoint : GoString) (r1 r2 r3 : Response), endpoint ≠ [] →
        (main rt (some endpoint) (.ok r1) (.ok r2) (.ok r3)).exit = .returned := by
  rintro ⟨rt, h⟩
  have h1 := h endpointWithNewline okResponse okResponse okResponse (by decide)
  rw [main_endpointWithNewline] at h1
  exact Exit.noConfusion h1

/-- C8, amended: for every non-empty endpoint that `http.NewRequest` accepts and
every triple of responses returned by `http.DefaultClient.Do`, the program
prints the banner of each call, calls `http.DefaultClient.Do` exactly three
times, in the order client-owner, owner, owner-simple, each time with a POST
request to the endpoint with the headers `Content-Type: application/json` and
`Authorization: aaaa`, and returns normally; the requests handed to the client
and the normal end do not depend on the status or the body of the responses.
(The requests the client sends by itself when it follows a redirect are not
the program's and are not counted.) -/
theorem C8_three_posts_then_normal_exit (rt : GoRuntime) (endpoint : GoString)
    (r1 r2 r3 : Response) (hne : endpoint ≠ []) (hp : urlParses rt endpoint = true) :
    main rt (some endpoint) (.ok r1) (.ok r2) (.ok r3) =
      { trace := [
          .stdout bannerClientOwner,
          .httpDo (postOf rt endpoint (reqBodyClientOwner rt.Float64)),
          .stdout (printfLine "Status: ".toList r1.Status),
          .stdout (printfLine "Response: ".toList
            ((marshalMap rt (some "  ".toList) (decodeMap rt r1.Body)).getD [])),
          .stdout bannerOwner,
          .httpDo (postOf rt endpoint (reqBodyOwner rt.Float64)),
          .stdout (printfLine "Status: ".toList r2.Status),
          .stdout (printfLine "Response: ".toList
            ((marshalMap rt (some "  ".toList) (decodeMap rt r2.Body)).getD [])),
          .stdout bannerOwnerSimple,
          .httpDo (postOf rt endpoint (reqBodyOwnerSimple rt.Float64)),
          .stdout (printfLine "Status: ".toList r3.Status),
          .stdout (printfLine "Response: ".toList
            ((marshalMap rt (some "  ".toList) (decodeMap rt r3.Body)).getD []))],
        exit := .returned } ∧
    doCalls (main rt (some endpoint) (.ok r1) (.ok r2) (.ok r3)).trace =
      [postOf rt endpoint (reqBodyClientOwner rt.Float64),
       postOf rt endpoint (reqBodyOwner rt.Float64),
       postOf rt endpoint (reqBodyOwnerSimple rt.Float64)] ∧
    (∀ req ∈ doCalls (main rt (some endpoint) (.ok r1) (.ok r2) (.ok r3)).trace,
      req.Method = "POST".toList ∧ req.URL = endpoint ∧
      req.Header = [("Authorization".toList, ["aaaa".toList]),
                    ("Content-Type".toList, ["application/json".toList])]) := by
  refine ⟨?_, ?_, ?_⟩ <;>
    rw [main_of_nonempty rt endpoint _ _ _ hne, testClientOwner_eq, testOwner_eq,
      testOwnerSimple_eq, sendAfter_ok _ _ _ _ _ _ hp, sendAfter_ok _ _ _ _ _ _ hp,
      sendAfter_ok _ _ _ _ _ _ hp]
  · rfl
  · rfl
  · intro req hreq
    simp only [Run.andThen, List.cons_append, List.nil_append, doCalls, List.mem_cons,
      List.mem_singleton, List.not_mem_nil, or_false] at hreq
    rcases hreq with h | h | h <;> subst h <;> exact ⟨rfl, rfl, rfl⟩

/-- C8 at a concrete input: three calls of the client, and a normal end, whether
the responses are `200 OK` or `500 Internal Server Error`. -/
theorem C8_three_posts_then_normal_exit_witness :
    (doCalls (main exampleRuntime (some "http://localhost:4000/graphql".toList)
      (.ok okResponse) (.ok errorResponse) (.ok okResponse)).trace).length = 3 ∧
    (main exampleRuntime (some "http://localhost:4000/graphql".toList)
      (.ok okResponse) (.ok errorResponse) (.ok okResponse)).exit = .returned :=
  ⟨congrArg List.length
    (C8_three_posts_then_normal_exit exampleRuntime "http://localhost:4000/graphql".toList
      okResponse errorResponse okResponse (by decide) (by decide)).2.1,
   congrArg Run.exit
    (C8_three_posts_then_normal_exit exampleRuntime "http://localhost:4000/graphql".toList
      okResponse errorResponse okResponse (by decide) (by decide)).1⟩

/-- C10, as stated, fails: the three functions are not one function of the
endpoint, the query and the variables alone.  On a failing round trip the run
of `testClientOwner` differs from the run of the specification's `send` on its
query and variables, and on no runtime does a fixed text printed before `send`
make one function that the three call sites are instances of: each prints a
banner of its own. -/
theorem C10_send_alone_is_not_the_three_functions :
    testClientOwner exampleRuntime "http://localhost:4000/graphql".toList
        (.error "connection refused".toList) ≠
      send exampleRuntime "http://localhost:4000/graphql".toList mutationClientOwner
        (reqBodyClientOwner exampleRuntime.Float64).Variables
        (.error "connection refused".toList) ∧
    ¬ ∃ (rt : GoRuntime) (text : List GoString), ∀ (endpoint : GoString) (o : HttpResult),
      testClientOwner rt endpoint o =
        sendAfter text rt endpoint mutationClientOwner
          (reqBodyClientOwner rt.Float64).Variables o ∧
      testOwner rt endpoint o =
        sendAfter text rt endpoint mutationOwner (reqBodyOwner rt.Float64).Variables o ∧
      testOwnerSimple rt endpoint o =
        sendAfter text rt endpoint mutationOwnerSimple
          (reqBodyOwnerSimple rt.Float64).Variables o := by
  constructor
  · decide
  · rintro ⟨rt, text, h⟩
    obtain ⟨h1, h2, -⟩ := h endpointWithNewline (.error [])
    have hp := urlParses_endpointWithNewline rt
    rw [testClientOwner_eq, sendAfter_not_parses _ _ _ _ _ _ hp] at h1
    rw [testOwner_eq, sendAfter_not_parses _ _ _ _ _ _ hp] at h2
    unfold sendAfter at h1 h2
    rw [send_of_not_parses _ _ _ _ _ hp] at h1 h2
    have e1 := congrArg (fun r => outputOf r.trace) h1
    have e2 := congrArg (fun r => outputOf r.trace) h2
    have e3 : [bannerClientOwner] = [bannerOwner] := by
      simpa [Run.andThen, outputOf] using e1.trans e2.symm
    revert e3
    decide

/-- C10, amended: each of the three functions prints its own banner line and
then has, for every endpoint and every outcome of the round trip, exactly the
run (request sent, console output, panic or normal return) of the single
function `send` applied to that call's query and variables; the three are one
capability with three parameters, banner, query and variables. -/
theorem C10_each_function_is_banner_then_send (rt : GoRuntime) (endpoint : GoString)
    (o : HttpResult) :
    testClientOwner rt endpoint o =
      Run.andThen { trace := [.stdout bannerClientOwner], exit := .returned }
        (send rt endpoint mutationClientOwner (reqBodyClientOwner rt.Float64).Variables o) ∧
    testOwner rt endpoint o =
      Run.andThen { trace := [.stdout bannerOwner], exit := .returned }
        (send rt endpoint mutationOwner (reqBodyOwner rt.Float64).Variables o) ∧
    testOwnerSimple rt endpoint o =
      Run.andThen { trace := [.stdout bannerOwnerSimple], exit := .returned }
        (send rt endpoint mutationOwnerSimple (reqBodyOwnerSimple rt.Float64).Variables o) :=
  ⟨testClientOwner_eq rt endpoint o, testOwner_eq rt endpoint o,
    testOwnerSimple_eq rt endpoint o⟩

/-! ## The serialized request bodies -/

set_option maxRecDepth 1000000 in
set_option maxHeartbeats 4000000 in
/-- C2: for each of the three call sites `json.Marshal` succeeds on the request
value, and the body it produces, which is the body of the request sent, is a
JSON text that reads back, with nothing left over, as an object with exactly
the two keys `query` and `variables`:
`query` is a string equal to the paired mutation document and `variables` is
an object that holds the literal variables of the call, the strings as
written and each integer as the number literal `1`. -/
theorem C2_request_body_is_query_and_variables (rt : GoRuntime) :
    (marshalRequest rt (reqBodyClientOwner rt.Float64) = some bodyClientOwner ∧
      (∀ endpoint, (postOf rt endpoint (reqBodyClientOwner rt.Float64)).Body =
        bodyClientOwner) ∧
      parseValue rt (2 * bodyClientOwner.length + 2) 0 bodyClientOwner =
        some (.map [
          ("query".toList, .string mutationClientOwner),
          ("variables".toList, .map [
            ("content".toList, .string "[client-owner] message from golang 🚀".toList),
            ("orderID".toList, numberValue rt ['1']),
            ("propertyID".toList, numberValue rt ['1']),
            ("sender".toList, .string "golang-client-owner".toList),
            ("tenantID".toList, numberValue rt ['1'])])], [])) ∧
    (marshalRequest rt (reqBodyOwner rt.Float64) = some bodyOwner ∧
      (∀ endpoint, (postOf rt endpoint (reqBodyOwner rt.Float64)).Body = bodyOwner) ∧
      parseValue rt (2 * bodyOwner.length + 2) 0 bodyOwner =
        some (.map [
          ("query".toList, .string mutationOwner),
          ("variables".toList, .map [
            ("constructionID".toList, .string "1a9e6d41-1042-410a-acb2-28016bca3354".toList),
            ("content".toList, .string "[go][owner] message from golang (owner) 🚀".toList),
            ("sender".toList, .string "golang-owner".toList),
            ("shareId".toList, .string "8ec22adf-42d8-41dc-9f7a-87e7d1990d02".toList)])], [])) ∧
    (marshalRequest rt (reqBodyOwnerSimple rt.Float64) = some bodyOwnerSimple ∧
      (∀ endpoint, (postOf rt endpoint (reqBodyOwnerSimple rt.Float64)).Body =
        bodyOwnerSimple) ∧
      parseValue rt (2 * bodyOwnerSimple.length + 2) 0 bodyOwnerSimple =
        some (.map [
          ("query".toList, .string mutationOwnerSimple),
          ("variables".toList, .map [
            ("content".toList, .string "[owner] message from golang 🚀".toList),
            ("sender".toList, .string "7179984e-bc2b-452b-bdbb-09f4b07b88f2".toList),
            ("shareId".toList, .string "room-1".toList)])], [])) :=
  ⟨⟨rfl, fun _ => rfl, rfl⟩, ⟨rfl, fun _ => rfl, rfl⟩, ⟨rfl, fun _ => rfl, rfl⟩⟩

/-! ## Idempotence of the printed response -/

/-- On a runtime whose `strconv` meets `FloatRoundTrip`, the printed text decodes
to the mapping it was printed from and is printed again as itself. -/
theorem responseText_idempotent_of_floatRoundTrip (rt : GoRuntime) (hrt : FloatRoundTrip rt)
    (body : GoString) :
    marshalMap rt (some "  ".toList) (decodeMap rt body) = some (responseText rt body) ∧
    decodeMap rt (responseText rt body) = decodeMap rt body ∧
    marshalMap rt (some "  ".toList) (decodeMap rt (responseText rt body)) =
      some (responseText rt body) ∧
    responseText rt (responseText rt body) = responseText rt body := by
  obtain ⟨t, h1, h2⟩ := decode_print_decode rt hrt body
  have ht : responseText rt body = t := by
    unfold responseText
    rw [h1]
    rfl
  rw [ht]
  refine ⟨h1, h2, ?_, ?_⟩
  · rw [h2, h1]
  · unfold responseText
    rw [h2, h1]
    rfl

/-- The conversions of `strconv` on some numbers, by evaluation: the shortest
decimal in the formats `%f` and `%e`, the rounding of a literal with more
digits than a `float64` holds, the least and the greatest `float64`, the
negative zero, and two literals out of range. -/
theorem floatEncoder_examples :
    (ParseFloat "2.5".toList).bind floatEncoder = some "2.5".toList ∧
    (ParseFloat "-1".toList).bind floatEncoder = some "-1".toList ∧
    (ParseFloat "1e21".toList).bind floatEncoder = some "1e+21".toList ∧
    (ParseFloat "100000000000000000000".toList).bind floatEncoder =
      some "100000000000000000000".toList ∧
    (ParseFloat "0.000001".toList).bind floatEncoder = some "0.000001".toList ∧
    (ParseFloat "0.0000001".toList).bind floatEncoder = some "1e-7".toList ∧
    (ParseFloat "0.1".toList).bind floatEncoder = some "0.1".toList ∧
    (ParseFloat "9007199254740993".toList).bind floatEncoder =
      some "9007199254740992".toList ∧
    (ParseFloat "5e-324".toList).bind floatEncoder = some "5e-324".toList ∧
    (ParseFloat "1.7976931348623157E308".toList).bind floatEncoder =
      some "1.7976931348623157e+308".toList ∧
    (ParseFloat "-0.0".toList).bind floatEncoder = some "-0".toList ∧
    ParseFloat "1.7976931348623159e308".toList = none ∧
    ParseFloat "1e999".toList = none := by
  decide!

/-- The text printed for `mixedBody`, by evaluation. -/
theorem responseText_mixedBody :
    responseText (goRuntime true (fun _ => true)) mixedBody = mixedText := by
  decide!

/-- C6: printing a response is idempotent on the printed text.  For every
response body, with the `float64` of IEEE 754 and the conversions of `strconv`,
the text `t` printed after "Response: " is the indented rendering of the
decoded result mapping (the rendering `null` of the nil mapping included);
decoding `t` into a fresh result mapping gives the same mapping, and printing
it again with the same indentation gives a text identical to `t`; `t` is the
text `responseText`, which every call that gets the body prints after
"Response: ". -/
theorem C6_response_printing_idempotent (shortEscapes : Bool) (urlRest : GoString → Bool)
    (body : GoString) :
    marshalMap (goRuntime shortEscapes urlRest) (some "  ".toList)
        (decodeMap (goRuntime shortEscapes urlRest) body) =
      some (responseText (goRuntime shortEscapes urlRest) body) ∧
    decodeMap (goRuntime shortEscapes urlRest)
        (responseText (goRuntime shortEscapes urlRest) body) =
      decodeMap (goRuntime shortEscapes urlRest) body ∧
    marshalMap (goRuntime shortEscapes urlRest) (some "  ".toList)
        (decodeMap (goRuntime shortEscapes urlRest)
          (responseText (goRuntime shortEscapes urlRest) body)) =
      some (responseText (goRuntime shortEscapes urlRest) body) ∧
    responseText (goRuntime shortEscapes urlRest)
        (responseText (goRuntime shortEscapes urlRest) body) =
      responseText (goRuntime shortEscapes urlRest) body ∧
    (∀ (endpoint query status : GoString)
        (vars : GoMapVar (goRuntime shortEscapes urlRest).Float64),
      urlParses (goRuntime shortEscapes urlRest) endpoint = true →
      outputOf (send (goRuntime shortEscapes urlRest) endpoint query vars
          (.ok { Status := status, Body := body })).trace =
        ["Status: ".toList ++ (status ++ [chNewline]),
         "Response: ".toList ++
           (responseText (goRuntime shortEscapes urlRest) body ++ [chNewline])]) := by
  obtain ⟨h1, h2, h3, h4⟩ := responseText_idempotent_of_floatRoundTrip
    (goRuntime shortEscapes urlRest) (goRuntime_floatRoundTrip shortEscapes urlRest) body
  refine ⟨h1, h2, h3, h4, ?_⟩
  intro endpoint query status vars hp
  rw [send_of_parses (goRuntime shortEscapes urlRest) endpoint query vars _ hp]
  rfl

/-- C6 at a concrete input: a body with numbers in several notations, an array
and a nested object, on a runtime that accepts the endpoint. -/
theorem C6_response_printing_idempotent_witness :
    responseText (goRuntime true (fun _ => true))
        (responseText (goRuntime true (fun _ => true)) mixedBody) =
      responseText (goRuntime true (fun _ => true)) mixedBody ∧
    outputOf (send (goRuntime true (fun _ => true)) "http://localhost:4000/graphql".toList
        mutationOwnerSimple none (.ok { Status := "200 OK".toList, Body := mixedBody })).trace =
      ["Status: ".toList ++ ("200 OK".toList ++ [chNewline]),
       "Response: ".toList ++
         (responseText (goRuntime true (fun _ => true)) mixedBody ++ [chNewline])] :=
  ⟨(C6_response_printing_idempotent true (fun _ => true) mixedBody).2.2.2.1,
   (C6_response_printing_idempotent true (fun _ => true) mixedBody).2.2.2.2
     "http://localhost:4000/graphql".toList mutationOwnerSimple "200 OK".toList none
     (by decide)⟩

end AppSync
